import Mathlib

/-!
# reserve-stats: trade-logs crawler orchestration

A shallow embedding of the crawl orchestration code of `reserve-stats`:

* `tradelogs/cmd/trade-logs-crawler/main.go`: `requiredWorkers` and the job
  submitting loop of `run`;
* `tradelogs/workers/workers.go`: `retry`, `FetcherJob` and the worker pool
  created by `NewPool`;
* `accounting/reserve-transaction-fetcher/fetcher/fetcher.go`: the paging
  `EtherscanTransactionFetcher.fetch` (namespace `Accounting`);
* `gateway/http/nonce_validator.go`: `NonceValidator` (namespace `Gateway`);
* `tradelogs/storage/influx/schema/tradelog/schema.go`: the field names of a
  trade log, with the `String` method its `go:generate` directive asks for
  (namespace `Logschema`);
* `tradelogs/storage/influx/influx.go`: `Storage.SaveTradeLogs` and its
  `traded` set (namespace `Influx`);
* `lib/blockchain/token_info.go`: `TokenInfoGetter.getNameOrSymbol`
  (namespace `Blockchain`);
* `accounting/listed-token-storage/listed_token_storage_postgres.go`: the
  assembly of `ListedTokenDB.GetTokens` (namespace `Listedtokenstorage`).

Conventions of the embedding:

* `int64` block numbers are integers and every `int64` operation of the code
  is reduced with `wrapInt64`; `uint64` values are natural numbers;
* the job counters `jobOrder` and `lastCompletedJobOrder` (Go `int`, bumped
  once per job) are integers without reduction;
* a `float64` is the rational it denotes, every `float64` operation rounds to
  53 significant bits (`roundFloat64`);
* loops that may not end take fuel and return `none` when it runs out;
* the goroutines of the pool are a step function on an explicit pool state,
  the section between `p.mutex.Lock()` and `p.mutex.Unlock()` being one step;
  what the fetches and the storage return is part of the event.
-/

namespace Tradelogs

/-! ## Machine integers -/

/-- Two's complement reduction of an integer to the `int64` range
`-2^63 .. 2^63 - 1` (the result of Go's `int64` arithmetic). -/
def wrapInt64 (x : Int) : Int :=
  (x + 9223372036854775808) % 18446744073709551616 - 9223372036854775808

/-- Conversion `uint64(x)` of an `int64` value. -/
def toUint64 (x : Int) : Nat :=
  (x % 18446744073709551616).toNat

/-- Conversion `int64(v)` of a `uint64` value. -/
def ofUint64 (v : Nat) : Int :=
  wrapInt64 (v : Int)

/-- Modelled from the spec: `mathutil.MinInt64` (package `lib/mathutil`, not
part of the sources at hand) returns the smaller of two `int64` values; the
planner uses it to cut the last batch of a span short. -/
def MinInt64 (a b : Int) : Int :=
  if a < b then a else b

/-! ## Jobs and the submitting loop of `run` -/

/-- Starting blocks of the contract versions (`deployment.StartingBlocks`),
read through the accessors `V2()`, `V3()`, `V4()`, each a `uint64`. -/
structure StartingBlocks where
  V2 : Nat
  V3 : Nat
  V4 : Nat
deriving DecidableEq, Repr

/-- A job to crawl trade logs from block `from_` to block `to_`
(`workers.FetcherJob`, fields `from` and `to`; the `cli.Context` is not
modelled). `order` is a Go `int`; `from_` and `to_` are `*big.Int`. -/
structure FetcherJob where
  order : Int
  from_ : Int
  to_ : Int
  attempts : Int
deriving DecidableEq, Repr

/-- Constructor `workers.NewFetcherJob`. -/
def NewFetcherJob (order from_ to_ attempts : Int) : FetcherJob :=
  { order := order, from_ := from_, to_ := to_, attempts := attempts }

/-- Accessor `FetcherJob.info`. -/
def FetcherJob.info (fj : FetcherJob) : Int × Int × Int :=
  (fj.order, fj.from_, fj.to_)

/-- The `switch` of the submitting loop for the batch that starts at `i` and
ends at `endBlock`: the jobs handed to `p.Run`, in order, and the job counter
afterwards. -/
def submitBatch (sb : StartingBlocks) (attempts i endBlock jobOrder : Int) :
    List FetcherJob × Int :=
  if sb.V4 ≤ toUint64 endBlock ∧ toUint64 i < sb.V4 then
    ([NewFetcherJob (jobOrder + 1) i (ofUint64 sb.V4) attempts,
      NewFetcherJob (jobOrder + 1 + 1) (ofUint64 sb.V4) endBlock attempts],
     jobOrder + 1 + 1)
  else if sb.V3 ≤ toUint64 endBlock ∧ toUint64 i < sb.V3 then
    ([NewFetcherJob (jobOrder + 1) i (ofUint64 sb.V3) attempts,
      NewFetcherJob (jobOrder + 1 + 1) (ofUint64 sb.V3) endBlock attempts],
     jobOrder + 1 + 1)
  else if sb.V2 ≤ toUint64 endBlock ∧ toUint64 i < sb.V2 then
    ([NewFetcherJob (jobOrder + 1) i (ofUint64 sb.V2) attempts,
      NewFetcherJob (jobOrder + 1 + 1) (ofUint64 sb.V2) endBlock attempts],
     jobOrder + 1 + 1)
  else
    ([NewFetcherJob (jobOrder + 1) i endBlock attempts], jobOrder + 1)

/-- The loop `for i := fromBlock; i <= toBlock; i += maxBlocks` of the
submitting goroutine of `run`, started at `i` with job counter `jobOrder`
and the jobs `acc` already submitted. Every iteration of the Go loop uses
one unit of `fuel`; the result is `none` when the fuel runs out before the
loop condition fails. On exit it yields the submitted jobs and the value of
`jobOrder`. -/
def submitLoop (sb : StartingBlocks) (attempts toBlock maxBlocks : Int) :
    Nat → Int → Int → List FetcherJob → Option (List FetcherJob × Int)
  | 0, i, jobOrder, acc =>
    if i ≤ toBlock then none else some (acc, jobOrder)
  | fuel + 1, i, jobOrder, acc =>
    if i ≤ toBlock then
      let endBlock := MinInt64 (wrapInt64 (i + maxBlocks)) toBlock
      let r := submitBatch sb attempts i endBlock jobOrder
      submitLoop sb attempts toBlock maxBlocks fuel (wrapInt64 (i + maxBlocks)) r.2
        (acc ++ r.1)
    else some (acc, jobOrder)

/-- The submitting goroutine of `run` up to the end of its `for` loop, for a
pool whose `GetLastCompleteJobOrder` returned `lastCompleted`: the jobs passed
to `p.Run`, in submission order, and the final `jobOrder`. -/
def submitJobs (sb : StartingBlocks) (attempts fromBlock toBlock maxBlocks : Int)
    (lastCompleted : Int) (fuel : Nat) : Option (List FetcherJob × Int) :=
  submitLoop sb attempts toBlock maxBlocks fuel fromBlock lastCompleted []

/-! ## `requiredWorkers` and the `float64` operations it uses -/

/-- Rounding of a rational to the nearest integer, a tie going to the even
neighbour. -/
def roundHalfEven (q : ℚ) : Int :=
  if q - ⌊q⌋ < 1 / 2 then ⌊q⌋
  else if 1 / 2 < q - ⌊q⌋ then ⌊q⌋ + 1
  else if ⌊q⌋ % 2 = 0 then ⌊q⌋ else ⌊q⌋ + 1

/-- The `float64` nearest to a rational (IEEE 754 binary64, round to nearest,
ties to even): 53 significant bits, so the spacing around `q` with
`2^e ≤ |q| < 2^(e+1)` is `2^(e-52)`. The exponent is not bounded: the values
`requiredWorkers` computes have magnitudes between `2^(-64)` and `2^64`, far
inside the normal range of the format. -/
def roundFloat64 (q : ℚ) : ℚ :=
  if q = 0 then 0
  else (roundHalfEven (q / (2 : ℚ) ^ (Int.log 2 |q| - 52)) : ℚ) * (2 : ℚ) ^ (Int.log 2 |q| - 52)

/-- The function `requiredWorkers` of the crawler: `fromBlock` and `toBlock`
are `*big.Int` read through `Int64()`, `maxBlocks` and `maxWorkers` are Go
`int` (64 bits). The quotient is a `float64` division of the two converted
integers, followed by `math.Ceil` and the conversion back to `int`. The result
is `none` where Go leaves the conversion to `int` implementation-specific: a
division by zero (an infinity or a NaN) or a value outside the `int` range. -/
def requiredWorkers (fromBlock toBlock maxBlocks maxWorkers : Int) : Option Int :=
  if maxBlocks = 0 then none
  else
    let width := wrapInt64 (wrapInt64 (wrapInt64 toBlock - wrapInt64 fromBlock) + 1)
    let jobs : Int := ⌈roundFloat64 (roundFloat64 (width : ℚ) / roundFloat64 (maxBlocks : ℚ))⌉
    if -9223372036854775808 ≤ jobs ∧ jobs < 9223372036854775808 then
      some (if jobs < maxWorkers then jobs else maxWorkers)
    else none

/-! ## `retry` and `FetcherJob.execute` -/

/-- A trade log record (`common.TradeLog`); only its identity matters here. -/
abbrev TradeLog := Nat

/-- A non-nil Go `error` value; `Option Error` is a Go `error`, `none` being
`nil`. -/
abbrev Error := String

/-- A function of type `executeJob`: a call returns a pair `(result, err)` and
may change the outside world `σ` (the node, the network), so a later call can
return something else. -/
abbrev ExecuteJob (σ : Type) := σ → (List TradeLog × Option Error) × σ

/-- What a run of `retry` did: the returned pair `(result, err)`, the world it
left, the number of calls of `fn` and the number of `time.Sleep(time.Second)`
calls. -/
structure RetryRun (σ : Type) where
  result : List TradeLog
  err : Option Error
  world : σ
  calls : Nat
  sleeps : Nat

/-- The `for i := 0; i < attempts; i++` loop of `retry` with `n` iterations
left; `st` holds the current `result`, `err` and the counters. -/
def retryLoop {σ : Type} (fn : ExecuteJob σ) : Nat → RetryRun σ → RetryRun σ
  | 0, st => st
  | n + 1, st =>
    match (fn st.world).1.2 with
    | none =>
      { result := (fn st.world).1.1, err := none, world := (fn st.world).2,
        calls := st.calls + 1, sleeps := st.sleeps }
    | some e =>
      retryLoop fn n
        { result := (fn st.world).1.1, err := some e, world := (fn st.world).2,
          calls := st.calls + 1, sleeps := st.sleeps + 1 }

/-- The function `retry`: `result` and `err` start as `nil`. -/
def retry {σ : Type} (fn : ExecuteJob σ) (attempts : Int) (world : σ) : RetryRun σ :=
  retryLoop fn attempts.toNat { result := [], err := none, world := world, calls := 0, sleeps := 0 }

/-- The method `FetcherJob.execute`: `retry(fj.fetch, fj.attempts, sugar)`. The
method `fj.fetch` talks to the node and is a parameter here. -/
def FetcherJob.execute {σ : Type} (fj : FetcherJob) (fetch : FetcherJob → ExecuteJob σ)
    (world : σ) : RetryRun σ :=
  retry (fetch fj) fj.attempts world

/-- The world after `n` calls of `fn`. -/
def worldAfter {σ : Type} (fn : ExecuteJob σ) (world : σ) : Nat → σ
  | 0 => world
  | n + 1 => (fn (worldAfter fn world n)).2

/-- The pair `(result, err)` returned by the `k`-th call of `fn` (counted from
1) when `fn` is called again and again from `world`. -/
def tryOutcome {σ : Type} (fn : ExecuteJob σ) (world : σ) (k : Nat) : List TradeLog × Option Error :=
  (fn (worldAfter fn world (k - 1))).1

/-! ## The worker pool -/

/-- Where the goroutine of one worker stands in the body of `NewPool`. -/
inductive WorkerState
  /-- waiting for a job at `for j := range p.jobCh` -/
  | idle
  /-- inside `j.execute(sugar)` -/
  | executing (j : FetcherJob)
  /-- at `p.errCh <- err` after a failed execution, before the `break` that
  leaves the job loop -/
  | reportingExec (err : Error)
  /-- in the save loop with the fetched `tradeLogs`, before `p.mutex.Lock()` -/
  | awaitingTurn (j : FetcherJob) (tradeLogs : List TradeLog)
  /-- at `p.errCh <- err` after a failed save, before the `break` that leaves
  the save loop -/
  | reportingSave (err : Error)
  /-- past the job loop (`worker stopped`, `p.wg.Done()`) -/
  | stopped
deriving DecidableEq, Repr

/-- The state of a `Pool` and of its goroutines. `jobCh` is unbuffered, so it
holds nothing between steps; `closed` records `close(p.jobCh)`. The fields
`submitted`, `saveCalls`, `committed` and `received` are history: the jobs
handed over by `Run`, the calls of `storage.SaveTradeLogs`, those of them that
returned `nil`, and the errors the caller took from `ErrCh()`. -/
structure Pool where
  workers : List WorkerState
  closed : Bool
  errCh : List Error
  errCap : Nat
  lastCompletedJobOrder : Int
  submitted : List FetcherJob
  saveCalls : List (FetcherJob × List TradeLog)
  committed : List (FetcherJob × List TradeLog)
  received : List Error
deriving DecidableEq, Repr

/-- The function `NewPool`: `maxWorkers` goroutines waiting for jobs, an error
channel of capacity `maxWorkers` and `lastCompletedJobOrder = 0`. A negative
`maxWorkers` makes `make(chan error, maxWorkers)` panic (`none`). -/
def NewPool (maxWorkers : Int) : Option Pool :=
  if maxWorkers < 0 then none
  else some
    { workers := List.replicate maxWorkers.toNat WorkerState.idle
      closed := false
      errCh := []
      errCap := maxWorkers.toNat
      lastCompletedJobOrder := 0
      submitted := []
      saveCalls := []
      committed := []
      received := [] }

/-- The method `Pool.GetLastCompleteJobOrder`. -/
def Pool.GetLastCompleteJobOrder (p : Pool) : Int :=
  p.lastCompletedJobOrder

/-- One atomic step of the pool and its environment. -/
inductive Event
  /-- `p.Run(j)`: the job is handed to worker `w`, which waits at the channel -/
  | run (w : Nat) (j : FetcherJob)
  /-- `j.execute` of worker `w` returns `(tradeLogs, err)` -/
  | executed (w : Nat) (tradeLogs : List TradeLog) (err : Option Error)
  /-- the send `p.errCh <- err` of worker `w` goes through -/
  | report (w : Nat)
  /-- worker `w` runs one iteration of the save loop: the section between
  `p.mutex.Lock()` and `p.mutex.Unlock()` and the branch after it; `saveErr`
  is what `storage.SaveTradeLogs` returns if it is called -/
  | commitTurn (w : Nat) (saveErr : Option Error)
  /-- `close(p.jobCh)` in `Shutdown` -/
  | closeJobs
  /-- worker `w`, waiting for a job, finds the channel closed and stops -/
  | leave (w : Nat)
  /-- the caller receives one error from `ErrCh()` -/
  | recvErr
deriving DecidableEq, Repr

/-- The step function of the pool: `none` when the event cannot happen in
the state. -/
def Pool.step (p : Pool) : Event → Option Pool
  | .run w j =>
    if p.closed then none
    else match p.workers.get? w with
      | some .idle =>
        some { p with workers := p.workers.set w (.executing j), submitted := p.submitted ++ [j] }
      | _ => none
  | .executed w tradeLogs err =>
    match p.workers.get? w with
    | some (.executing j) =>
      match err with
      | some e => some { p with workers := p.workers.set w (.reportingExec e) }
      | none => some { p with workers := p.workers.set w (.awaitingTurn j tradeLogs) }
    | _ => none
  | .report w =>
    if p.errCh.length < p.errCap then
      match p.workers.get? w with
      | some (.reportingExec e) =>
        some { p with workers := p.workers.set w .stopped, errCh := p.errCh ++ [e] }
      | some (.reportingSave e) =>
        some { p with workers := p.workers.set w .idle, errCh := p.errCh ++ [e] }
      | _ => none
    else none
  | .commitTurn w saveErr =>
    match p.workers.get? w with
    | some (.awaitingTurn j tradeLogs) =>
      if j.order = p.lastCompletedJobOrder + 1 then
        match saveErr with
        | none =>
          some { p with
            workers := p.workers.set w .idle
            lastCompletedJobOrder := p.lastCompletedJobOrder + 1
            saveCalls := p.saveCalls ++ [(j, tradeLogs)]
            committed := p.committed ++ [(j, tradeLogs)] }
        | some e =>
          some { p with
            workers := p.workers.set w (.reportingSave e)
            saveCalls := p.saveCalls ++ [(j, tradeLogs)] }
      else some p
    | _ => none
  | .closeJobs => if p.closed then none else some { p with closed := true }
  | .leave w =>
    if p.closed then
      match p.workers.get? w with
      | some .idle => some { p with workers := p.workers.set w .stopped }
      | _ => none
    else none
  | .recvErr =>
    match p.errCh with
    | e :: rest => some { p with errCh := rest, received := p.received ++ [e] }
    | [] => none

/-- The state after a sequence of events, `none` when one of them cannot
happen. -/
def Pool.run (p : Pool) : List Event → Option Pool
  | [] => some p
  | ev :: evs =>
    match p.step ev with
    | some q => q.run evs
    | none => none

/-! ## A race between two workers

Two workers take the jobs 1 and 2; the fetch of job 2 ends first and its
worker polls the gate twice before job 1 is saved. -/

/-- The events of the race. -/
def raceEvents : List Event :=
  [ Event.run 0 (NewFetcherJob 1 0 100 3),
    Event.run 1 (NewFetcherJob 2 100 200 3),
    Event.executed 1 [20, 21] none,
    Event.commitTurn 1 none,
    Event.executed 0 [10] none,
    Event.commitTurn 1 none,
    Event.commitTurn 0 none,
    Event.commitTurn 1 none ]

/-- The new pool of two workers. -/
def raceStart : Pool :=
  { workers := [WorkerState.idle, WorkerState.idle]
    closed := false
    errCh := []
    errCap := 2
    lastCompletedJobOrder := 0
    submitted := []
    saveCalls := []
    committed := []
    received := [] }

/-- The pool of two workers after the race. -/
def raceEnd : Pool :=
  { workers := [WorkerState.idle, WorkerState.idle]
    closed := false
    errCh := []
    errCap := 2
    lastCompletedJobOrder := 2
    submitted := [NewFetcherJob 1 0 100 3, NewFetcherJob 2 100 200 3]
    saveCalls := [(NewFetcherJob 1 0 100 3, [10]), (NewFetcherJob 2 100 200 3, [20, 21])]
    committed := [(NewFetcherJob 1 0 100 3, [10]), (NewFetcherJob 2 100 200 3, [20, 21])]
    received := [] }

/-- The pool of two workers when both fetches of the race are done and nothing
is saved yet. -/
def raceFetched : Pool :=
  { workers := [WorkerState.awaitingTurn (NewFetcherJob 1 0 100 3) [10],
      WorkerState.awaitingTurn (NewFetcherJob 2 100 200 3) [20, 21]]
    closed := false
    errCh := []
    errCap := 2
    lastCompletedJobOrder := 0
    submitted := [NewFetcherJob 1 0 100 3, NewFetcherJob 2 100 200 3]
    saveCalls := []
    committed := []
    received := [] }

/-- The pool of two workers when job 1 is saved and job 2 still waits. -/
def raceSavedFirst : Pool :=
  { workers := [WorkerState.idle,
      WorkerState.awaitingTurn (NewFetcherJob 2 100 200 3) [20, 21]]
    closed := false
    errCh := []
    errCap := 2
    lastCompletedJobOrder := 1
    submitted := [NewFetcherJob 1 0 100 3, NewFetcherJob 2 100 200 3]
    saveCalls := [(NewFetcherJob 1 0 100 3, [10])]
    committed := [(NewFetcherJob 1 0 100 3, [10])]
    received := [] }

/-- A fetch that fails on its first two calls and returns two records from the
third call on; the world is the number of calls made so far. -/
def flakyFetch : ExecuteJob Nat :=
  fun n => if n < 2 then (([], some "connection reset"), n + 1) else (([7, 8], none), n + 1)

/-- A fetch that fails on every call, each time with another error; the world
is the number of calls made so far. -/
def failingFetch : ExecuteJob Nat :=
  fun n => (([], some (if n = 0 then "timeout 1" else if n = 1 then "timeout 2" else "timeout 3")),
    n + 1)

/-! ## The submitting goroutine of `run` next to its pool -/

/-- The state of one span of `run`: the pool `p` and the submitting goroutine.
The job loop of the goroutine does not read the pool, so the jobs it has
still to pass to `p.Run` are a list (`pending`, in submission order) and
`jobOrder` is the value the counter has when the loop ends; `done` records
that `doneCh <- struct{}{}` has happened. -/
structure Crawl where
  pool : Pool
  pending : List FetcherJob
  jobOrder : Int
  done : Bool
deriving DecidableEq, Repr

/-- One atomic step of a span. -/
inductive CrawlEvent
  /-- the goroutine passes its next job to `p.Run` and worker `w` takes it -/
  | submit (w : Nat)
  /-- a step of the pool other than a call of `Run` -/
  | pool (ev : Event)
  /-- the goroutine, past its job loop, tests
  `p.GetLastCompleteJobOrder() < jobOrder`: it sleeps when the test holds and
  sends on `doneCh` when it fails -/
  | poll
deriving DecidableEq, Repr

/-- The span right after `NewPool`, before the goroutine has submitted any of
the jobs `js` its loop is going to produce. -/
def Crawl.start (p : Pool) (js : List FetcherJob) (jobOrder : Int) : Crawl :=
  { pool := p, pending := js, jobOrder := jobOrder, done := false }

/-- The step function of a span. Only the goroutine calls `Run`, and
`Shutdown` (`close(p.jobCh)`) is called by `run` only when it has received
from `doneCh`. -/
def Crawl.step (c : Crawl) : CrawlEvent → Option Crawl
  | .submit w =>
    match c.pending with
    | j :: rest =>
      match c.pool.step (Event.run w j) with
      | some q => some { c with pool := q, pending := rest }
      | none => none
    | [] => none
  | .pool (Event.run _ _) => none
  | .pool Event.closeJobs =>
    if c.done then
      match c.pool.step Event.closeJobs with
      | some q => some { c with pool := q }
      | none => none
    else none
  | .pool ev =>
    match c.pool.step ev with
    | some q => some { c with pool := q }
    | none => none
  | .poll =>
    match c.pending with
    | [] =>
      if c.done then none
      else if c.pool.GetLastCompleteJobOrder < c.jobOrder then some c
      else some { c with done := true }
    | _ :: _ => none

/-- The span after a sequence of events, `none` when one of them cannot
happen. -/
def Crawl.run (c : Crawl) : List CrawlEvent → Option Crawl
  | [] => some c
  | ev :: evs =>
    match c.step ev with
    | some d => d.run evs
    | none => none

/-! ## A failed save on a pool of one worker -/

/-- The new pool of one worker. -/
def soloStart : Pool :=
  { workers := [WorkerState.idle]
    closed := false
    errCh := []
    errCap := 1
    lastCompletedJobOrder := 0
    submitted := []
    saveCalls := []
    committed := []
    received := [] }

/-- The worker fetches job 1, `SaveTradeLogs` fails, the worker reports the
error and then takes job 2. -/
def failedSaveEvents : List Event :=
  [ Event.run 0 (NewFetcherJob 1 0 100 3),
    Event.executed 0 [10] none,
    Event.commitTurn 0 (some "db is down"),
    Event.report 0,
    Event.run 0 (NewFetcherJob 2 100 200 3) ]

/-- The pool of one worker after `failedSaveEvents`: the error of the save is
in the channel and the worker executes job 2. -/
def failedSaveEnd : Pool :=
  { workers := [WorkerState.executing (NewFetcherJob 2 100 200 3)]
    closed := false
    errCh := ["db is down"]
    errCap := 1
    lastCompletedJobOrder := 0
    submitted := [NewFetcherJob 1 0 100 3, NewFetcherJob 2 100 200 3]
    saveCalls := [(NewFetcherJob 1 0 100 3, [10])]
    committed := []
    received := [] }

/-- The pool of one worker when, after `failedSaveEvents`, the execution of
job 2 has failed too: the worker is at its second send. -/
def blockedReport : Pool :=
  { failedSaveEnd with workers := [WorkerState.reportingExec "timeout"] }

/-- The span of the single job `[0, 50)` on the pool of one worker, when the
job is saved and the goroutine has sent on `doneCh`. -/
def soloDone : Crawl :=
  { pool :=
      { workers := [WorkerState.idle]
        closed := false
        errCh := []
        errCap := 1
        lastCompletedJobOrder := 1
        submitted := [NewFetcherJob 1 0 50 3]
        saveCalls := [(NewFetcherJob 1 0 50 3, [5])]
        committed := [(NewFetcherJob 1 0 50 3, [5])]
        received := [] }
    pending := []
    jobOrder := 1
    done := true }

/-- The pool of one worker when job 1 is fetched and waits for its save. -/
def soloFetched : Pool :=
  { soloStart with
    workers := [WorkerState.awaitingTurn (NewFetcherJob 1 0 100 3) [10]]
    submitted := [NewFetcherJob 1 0 100 3] }

/-- The pool of one worker right after `SaveTradeLogs` has failed for job 1. -/
def soloSaveFailed : Pool :=
  { soloFetched with
    workers := [WorkerState.reportingSave "db is down"]
    saveCalls := [(NewFetcherJob 1 0 100 3, [10])] }

/-! ## Auxiliary descriptions used in the proofs -/

/-- Description of the submitting loop without fuel, for spans on which the
`int64` addition `i + maxBlocks` is exact: `Decomp sb attempts toBlock
maxBlocks i jobOrder js jobOrder'` holds when the loop, entered at `i` with
counter `jobOrder`, submits exactly the jobs `js` and leaves the counter at
`jobOrder'`. -/
inductive Decomp (sb : StartingBlocks) (attempts toBlock maxBlocks : Int) :
    Int → Int → List FetcherJob → Int → Prop
  | done (i jobOrder : Int) (h : toBlock < i) : Decomp sb attempts toBlock maxBlocks i jobOrder [] jobOrder
  | batch (i jobOrder : Int) (rest : List FetcherJob) (jobOrder' : Int) (h : i ≤ toBlock)
      (hrest : Decomp sb attempts toBlock maxBlocks (i + maxBlocks)
        (submitBatch sb attempts i (MinInt64 (i + maxBlocks) toBlock) jobOrder).2 rest jobOrder') :
      Decomp sb attempts toBlock maxBlocks i jobOrder
        ((submitBatch sb attempts i (MinInt64 (i + maxBlocks) toBlock) jobOrder).1 ++ rest) jobOrder'

/-- The jobs `js` form a chain of ranges leading from block `a` to block `b`. -/
def Linked : Int → List FetcherJob → Int → Prop
  | a, [], b => a = b
  | a, j :: js, b => j.from_ = a ∧ Linked j.to_ js b

/-- The job a worker has in hand: the job it executes or waits to save. -/
def WorkerState.job? : WorkerState → Option FetcherJob
  | .executing j => some j
  | .awaitingTurn j _ => some j
  | _ => none

/-- The number of workers that have the job `j` in hand. -/
def heldCount (ws : List WorkerState) (j : FetcherJob) : Nat :=
  (ws.map (fun s => if s.job? = some j then 1 else 0)).sum

/-- Whether a worker is at a send on the error channel. -/
def WorkerState.reporting : WorkerState → Bool
  | .reportingExec _ => true
  | .reportingSave _ => true
  | _ => false

end Tradelogs

namespace Accounting

/-! ## `EtherscanTransactionFetcher.fetch` -/

/-- A transaction as the data source returns it (an `interface{}` holding an
etherscan record); only its identity matters here. -/
abbrev Tx := Nat

/-- A non-nil Go `error` value; `Option Error` is a Go `error`. -/
abbrev Error := String

/-- The method `big.Int.IsInt64`. -/
def IsInt64 (x : Int) : Bool :=
  decide (-9223372036854775808 ≤ x ∧ x < 9223372036854775808)

/-- The error `fmt.Errorf("unsupported block: number=%s", n.String())`. -/
def unsupportedBlock (n : Int) : Error :=
  "unsupported block: number=" ++ toString n

/-- The arguments of one call of `fn.fetch`: the address, the two optional
block bounds (`*int`), the page and the page size. -/
structure PageRequest where
  address : String
  startBlock : Option Int
  endBlock : Option Int
  page : Int
  offset : Int
deriving DecidableEq, Repr

/-- The field `fetchFn.fetch`: a call returns a pair `(txs, err)` and may
change the world `σ` of the data source. -/
abbrev FetchFn (σ : Type) := PageRequest → σ → (List Tx × Option Error) × σ

/-- Modelled from the spec: `blockchain.IsEtherscanNotransactionFound` (package
`lib/blockchain`, not part of the sources at hand) tells whether an error is
the "no data for this query" condition of the data source. It is false for
`nil`; which errors it recognises is the parameter `noTx`. -/
def IsEtherscanNotransactionFound (noTx : Error → Bool) : Option Error → Bool
  | none => false
  | some e => noTx e

/-- What a run of `fetch` did: whether it returned (`false` when the fuel ran
out inside the page loop), the returned pair `(results, err)`, the world it
left and the calls of `fn.fetch` it made, in order. -/
structure FetchRun (σ : Type) where
  returned : Bool
  results : List Tx
  err : Option Error
  world : σ
  requests : List PageRequest

/-- The loop `for page := 1; ; page++` of `fetch`, entered at `page` with the
`results` gathered so far; every iteration uses one unit of fuel. -/
def fetchPages {σ : Type} (noTx : Error → Bool) (fn : FetchFn σ) (address : String)
    (startBlock endBlock : Option Int) :
    Nat → Int → List Tx → σ → List PageRequest → FetchRun σ
  | 0, _, results, world, requests =>
    { returned := false, results := results, err := none, world := world, requests := requests }
  | fuel + 1, page, results, world, requests =>
    if IsEtherscanNotransactionFound noTx
        (fn ⟨address, startBlock, endBlock, page, 500⟩ world).1.2 then
      { returned := true, results := results, err := none
        world := (fn ⟨address, startBlock, endBlock, page, 500⟩ world).2
        requests := requests ++ [⟨address, startBlock, endBlock, page, 500⟩] }
    else
      match (fn ⟨address, startBlock, endBlock, page, 500⟩ world).1.2 with
      | some e =>
        { returned := true, results := [], err := some e
          world := (fn ⟨address, startBlock, endBlock, page, 500⟩ world).2
          requests := requests ++ [⟨address, startBlock, endBlock, page, 500⟩] }
      | none =>
        fetchPages noTx fn address startBlock endBlock fuel (page + 1)
          (results ++ (fn ⟨address, startBlock, endBlock, page, 500⟩ world).1.1)
          (fn ⟨address, startBlock, endBlock, page, 500⟩ world).2
          (requests ++ [⟨address, startBlock, endBlock, page, 500⟩])

/-- The method `EtherscanTransactionFetcher.fetch` for the address string
`addr` and the optional bounds `from_` and `to_` (`*big.Int`, `none` being
`nil`): the two checks of the bounds, then the page loop. -/
def EtherscanTransactionFetcher.fetch {σ : Type} (noTx : Error → Bool) (fn : FetchFn σ)
    (addr : String) (from_ to_ : Option Int) (world : σ) (fuel : Nat) : FetchRun σ :=
  match from_ with
  | some f =>
    if IsInt64 f then
      match to_ with
      | some t =>
        if IsInt64 (t - 1) then
          fetchPages noTx fn addr (some (Tradelogs.wrapInt64 f))
            (some (Tradelogs.wrapInt64 (t - 1))) fuel 1 [] world []
        else
          { returned := true, results := [], err := some (unsupportedBlock (t - 1))
            world := world, requests := [] }
      | none => fetchPages noTx fn addr (some (Tradelogs.wrapInt64 f)) none fuel 1 [] world []
    else
      { returned := true, results := [], err := some (unsupportedBlock f)
        world := world, requests := [] }
  | none =>
    match to_ with
    | some t =>
      if IsInt64 (t - 1) then
        fetchPages noTx fn addr none (some (Tradelogs.wrapInt64 (t - 1))) fuel 1 [] world []
      else
        { returned := true, results := [], err := some (unsupportedBlock (t - 1))
          world := world, requests := [] }
    | none => fetchPages noTx fn addr none none fuel 1 [] world []

/-- The `k`-th request of a run that pages through the data source. -/
def pageRequest (addr : String) (startBlock endBlock : Option Int) (k : Nat) : PageRequest :=
  ⟨addr, startBlock, endBlock, (k : Int), 500⟩

/-- The world of the data source after the requests for the pages `1, ..., n`. -/
def worldAfterPages {σ : Type} (fn : FetchFn σ) (addr : String)
    (startBlock endBlock : Option Int) (world : σ) : Nat → σ
  | 0 => world
  | n + 1 =>
    (fn (pageRequest addr startBlock endBlock (n + 1))
      (worldAfterPages fn addr startBlock endBlock world n)).2

/-- The pair `(txs, err)` the data source returns for page `k` when the pages
`1, 2, ...` are requested in turn from `world`. -/
def pageOutcome {σ : Type} (fn : FetchFn σ) (addr : String)
    (startBlock endBlock : Option Int) (world : σ) (k : Nat) : List Tx × Option Error :=
  (fn (pageRequest addr startBlock endBlock k)
    (worldAfterPages fn addr startBlock endBlock world (k - 1))).1

/-- A data source with two full pages of 500 transactions, which reports "no
transactions found" from page 3 on; the world counts the requests. -/
def twoPageSource : FetchFn Nat :=
  fun req n =>
    if req.page ≤ 2 then ((List.replicate 500 (req.page.toNat), none), n + 1)
    else (([], some "No transactions found"), n + 1)

/-- A data source that fails on page 2 with an error other than "no
transactions found". -/
def brokenSource : FetchFn Nat :=
  fun req n =>
    if req.page ≤ 1 then (([1, 2, 3], none), n + 1)
    else (([], some "rate limit reached"), n + 1)

/-- The recogniser of the "no transactions found" error of the two sources
above. -/
def exampleNoTx : Error → Bool :=
  fun e => e == "No transactions found"

/-- A data source that has nothing to return and never says so: every page
comes back empty and without error; the world counts the requests. -/
def emptySource : FetchFn Nat :=
  fun _ n => (([], none), n + 1)

end Accounting

namespace Gateway

/-! ## `NonceValidator` -/

/-- A non-nil Go `error` value; `Option Error` is a Go `error`. -/
abbrev Error := String

/-- The constant `maxTimeGap`: 30 seconds in milliseconds. -/
def maxTimeGap : Nat := 30000

/-- The error `ErrNonceNotInRange`. -/
def ErrNonceNotInRange : Error := "Nonce submit is not in aceptable range"

/-- The type `NonceValidator`; `TimeGap` is a `uint64`. -/
structure NonceValidator where
  TimeGap : Nat
deriving DecidableEq, Repr

/-- The function `NewNonceValidator`. -/
def NewNonceValidator : NonceValidator :=
  { TimeGap := maxTimeGap }

/-- Subtraction of two `uint64` values. -/
def subUint64 (a b : Nat) : Nat :=
  (a + 18446744073709551616 - b % 18446744073709551616) % 18446744073709551616

/-- Addition of two `uint64` values. -/
def addUint64 (a b : Nat) : Nat :=
  (a + b) % 18446744073709551616

/-- The value of a run of decimal digits read after the value `acc`, `none`
when a character is not one of `0` to `9`. -/
def parseDigits : List Char → Nat → Option Nat
  | [], acc => some acc
  | c :: cs, acc =>
    if 48 ≤ c.toNat ∧ c.toNat ≤ 57 then parseDigits cs (acc * 10 + (c.toNat - 48)) else none

/-- The call `strconv.ParseUint(s, 10, 64)` of the Go library: `s` must be a
non-empty run of decimal digits (no sign, no blank, no underscore) whose value
is below `2^64`; otherwise the call returns a syntax or a range error. -/
def ParseUint (s : String) : Except Error Nat :=
  match s.data with
  | [] => Except.error ("strconv.ParseUint: parsing " ++ s.quote ++ ": invalid syntax")
  | c :: cs =>
    match parseDigits (c :: cs) 0 with
    | none => Except.error ("strconv.ParseUint: parsing " ++ s.quote ++ ": invalid syntax")
    | some n =>
      if n < 18446744073709551616 then Except.ok n
      else Except.error ("strconv.ParseUint: parsing " ++ s.quote ++ ": value out of range")

/-- The method `NonceValidator.Validate` on a request whose `nonce` header is
`nonceHeader` (the empty string when the header is absent), at the server
time `serverTime` that `timeutil.UnixMilliSecond()` returns (a `uint64`). -/
def NonceValidator.Validate (v : NonceValidator) (serverTime : Nat) (nonceHeader : String) :
    Option Error :=
  match ParseUint nonceHeader with
  | Except.error e => some e
  | Except.ok nonce =>
    if nonce < subUint64 serverTime v.TimeGap ∨ nonce > addUint64 serverTime v.TimeGap then
      some ErrNonceNotInRange
    else none

end Gateway

namespace Logschema

/-! ## The field names of the trade log schema -/

/-- The type `FieldName` (`type FieldName int`). -/
abbrev FieldName := Int

/-- The constants of the `const` block of `schema.go`, numbered by `iota`. -/
def Time : FieldName := 0
def BlockNumber : FieldName := 1
def TxHash : FieldName := 2
def UserAddr : FieldName := 3
def SrcAddr : FieldName := 4
def DstAddr : FieldName := 5
def Country : FieldName := 6
def IP : FieldName := 7
def EthUSDProvider : FieldName := 8
def DstReserveAddr : FieldName := 9
def SrcReserveAddr : FieldName := 10
def SrcAmount : FieldName := 11
def DstAmount : FieldName := 12
def EthUSDRate : FieldName := 13
def EthAmount : FieldName := 14
def OriginalEthAmount : FieldName := 15
def FiatAmount : FieldName := 16
def IntegrationApp : FieldName := 17
def WalletAddress : FieldName := 18
def WalletName : FieldName := 19
def LogIndex : FieldName := 20
def SourceBurnAmount : FieldName := 21
def DestBurnAmount : FieldName := 22
def SourceWalletFeeAmount : FieldName := 23
def DestWalletFeeAmount : FieldName := 24
def UID : FieldName := 25
def TxSender : FieldName := 26
def ReceiverAddress : FieldName := 27

/-- The constants of `schema.go` in the order of their declaration, each with
the text of its line comment (the name `stringer -linecomment` is asked to
give it; the white space around the text is not part of the name). -/
def lineComments : List (FieldName × String) :=
  [(Time, "time"), (BlockNumber, "block_number"), (TxHash, "tx_hash"),
   (UserAddr, "user_addr"), (SrcAddr, "src_addr"), (DstAddr, "dst_addr"),
   (Country, "country"), (IP, "ip"), (EthUSDProvider, "eth_rate_provider"),
   (DstReserveAddr, "dst_rsv_addr"), (SrcReserveAddr, "src_rsv_addr"),
   (SrcAmount, "src_amount"), (DstAmount, "dst_amount"), (EthUSDRate, "eth_usd_rate"),
   (EthAmount, "eth_amount"), (OriginalEthAmount, "original_eth_amount"),
   (FiatAmount, "fiat_amount"), (IntegrationApp, "integration_app"),
   (WalletAddress, "wallet_addr"), (WalletName, "wallet_name"), (LogIndex, "log_index"),
   (SourceBurnAmount, "src_burn_amount"), (DestBurnAmount, "dst_burn_amount"),
   (SourceWalletFeeAmount, "src_wallet_fee_amount"),
   (DestWalletFeeAmount, "dst_wallet_fee_amount"), (UID, "uid"), (TxSender, "tx_sender"),
   (ReceiverAddress, "receiver_addr")]

/-- The map `tradeLogSchemaFields` of `schema.go`, as the list of its entries. -/
def tradeLogSchemaFields : List (String × FieldName) :=
  [("time", Time), ("block_number", BlockNumber), ("tx_hash", TxHash),
   ("user_addr", UserAddr), ("src_addr", SrcAddr), ("dst_addr", DstAddr),
   ("country", Country), ("ip", IP), ("eth_rate_provider", EthUSDProvider),
   ("dst_rsv_addr", DstReserveAddr), ("src_rsv_addr", SrcReserveAddr),
   ("src_amount", SrcAmount), ("dst_amount", DstAmount), ("eth_usd_rate", EthUSDRate),
   ("eth_amount", EthAmount), ("original_eth_amount", OriginalEthAmount),
   ("fiat_amount", FiatAmount), ("log_index", LogIndex),
   ("integration_app", IntegrationApp), ("wallet_addr", WalletAddress),
   ("wallet_name", WalletName), ("src_burn_amount", SourceBurnAmount),
   ("dst_burn_amount", DestBurnAmount), ("src_wallet_fee_amount", SourceWalletFeeAmount),
   ("dst_wallet_fee_amount", DestWalletFeeAmount), ("uid", UID), ("tx_sender", TxSender),
   ("receiver_addr", ReceiverAddress)]

/-- The map access `tradeLogSchemaFields[s]` with its `ok` flag: `none` when
`s` is not a key. -/
def lookupField (s : String) : Option FieldName :=
  tradeLogSchemaFields.lookup s

/-- Modelled from the spec: the name table `_FieldName_name` of the generated
file `fieldname_string.go` of this package, which is not part of the sources
at hand. The directive `go:generate stringer -type=FieldName -linecomment` of
`schema.go` asks for the line comments of the constants, joined in the order
of their values. -/
def _FieldName_name : String :=
  String.join (lineComments.map Prod.snd)

/-- The offsets at which the names of `names` start in their concatenation,
followed by its length. -/
def nameOffsets : Nat → List String → List Nat
  | start, [] => [start]
  | start, name :: names => start :: nameOffsets (start + name.length) names

/-- Modelled from the spec: the table `_FieldName_index` of the generated file
`fieldname_string.go` of this package (not part of the sources at hand): the
offset of each name in `_FieldName_name` and the length of the whole. -/
def _FieldName_index : List Nat :=
  nameOffsets 0 (lineComments.map Prod.snd)

/-- Modelled from the spec: the method `FieldName.String` that
`stringer -type=FieldName -linecomment` generates for the constants of
`schema.go`; the generated file of this package is not part of the sources at
hand. A value outside the index table is printed as `FieldName(i)`, any other
is the slice `_FieldName_name[_FieldName_index[i]:_FieldName_index[i+1]]`
(the names are ASCII, so byte offsets are character offsets). -/
def FieldName.String (i : FieldName) : String :=
  if i < 0 ∨ i ≥ ((_FieldName_index.length - 1 : Nat) : Int) then
    "FieldName(" ++ toString i ++ ")"
  else
    ⟨(_FieldName_name.data.drop (_FieldName_index.getD i.toNat 0)).take
      (_FieldName_index.getD (i.toNat + 1) 0 - _FieldName_index.getD i.toNat 0)⟩

end Logschema

namespace Influx

/-! ## `Storage.SaveTradeLogs` and the `traded` set -/

/-- An `ethereum.Address`; only its identity matters here. -/
abbrev Address := Nat

/-- A non-nil Go `error` value; `Option Error` is a Go `error`. -/
abbrev Error := String

/-- The fields of a `common.TradelogV4` that decide which points are written:
the address and the UID of the user, and the block number that tells the
records apart. -/
structure TradelogV4 where
  BlockNumber : Nat
  UserAddress : Address
  UID : String
deriving DecidableEq, Repr

/-- A point of one of the three measurements `SaveTradeLogs` writes. -/
inductive Point
  | trades (log : TradelogV4)
  | first_trades (user : Address)
  | kyced (user : Address)
deriving DecidableEq, Repr

/-- The calls `SaveTradeLogs` makes outside the `Storage`, with the state `σ`
of the database: `newBatchPoints` is the error of `client.NewBatchPoints`,
`tradePoint` the error of building the point of a trade (the conversions of
`tokenAmountFormatter.FromWei`, `utils.GetBurnAmount` and `client.NewPoint`),
`queryTraded` the query of `userTraded`, `newPoint` the error of
`client.NewPoint` for a `first_trades` or `kyced` point, and `write` the call
`influxClient.Write`. -/
structure Client (σ : Type) where
  newBatchPoints : Option Error
  tradePoint : TradelogV4 → Option Error
  queryTraded : Address → σ → Bool × Option Error
  newPoint : Point → Option Error
  write : List Point → σ → Option Error × σ

/-- The part of `Storage` that changes: the set `traded`, as the list of its
members. -/
structure Storage where
  traded : List Address
deriving DecidableEq, Repr

/-- The constructor `NewInfluxStorage`: `traded` starts empty. -/
def NewInfluxStorage : Storage :=
  { traded := [] }

/-- The method `Storage.assembleFirstTradePoint`: the point (or `nil`), the
error and the storage afterwards. -/
def Storage.assembleFirstTradePoint {σ : Type} (is : Storage) (cl : Client σ) (db : σ)
    (logItem : TradelogV4) : (Option Point × Option Error) × Storage :=
  if logItem.UserAddress ∈ is.traded then ((none, none), is)
  else
    match (cl.queryTraded logItem.UserAddress db).2 with
    | some err => ((none, some err), is)
    | none =>
      if (cl.queryTraded logItem.UserAddress db).1 then ((none, none), is)
      else
        match cl.newPoint (Point.first_trades logItem.UserAddress) with
        | some err => ((none, some err), is)
        | none =>
          ((some (Point.first_trades logItem.UserAddress), none),
            { traded := is.traded ++ [logItem.UserAddress] })

/-- The method `Storage.AssembleKYCPoint`. -/
def AssembleKYCPoint {σ : Type} (cl : Client σ) (logItem : TradelogV4) :
    Option Point × Option Error :=
  if logItem.UID ≠ "" then
    match cl.newPoint (Point.kyced logItem.UserAddress) with
    | some err => (none, some err)
    | none => (some (Point.kyced logItem.UserAddress), none)
  else (none, none)

/-- The method `Storage.tradeLogToPoint`: the points of one trade log, the
error and the storage afterwards. -/
def Storage.tradeLogToPoint {σ : Type} (is : Storage) (cl : Client σ) (db : σ)
    (log : TradelogV4) : (List Point × Option Error) × Storage :=
  match cl.tradePoint log with
  | some err => (([], some err), is)
  | none =>
    match is.assembleFirstTradePoint cl db log with
    | ((_, some err), is1) => (([], some err), is1)
    | ((firstTradePoint, none), is1) =>
      match AssembleKYCPoint cl log with
      | (_, some err) => (([], some err), is1)
      | (kycedPoint, none) =>
        (([Point.trades log] ++ firstTradePoint.toList ++ kycedPoint.toList, none), is1)

/-- The loop `for _, log := range logs` of `SaveTradeLogs`, with the points
`bp` added to the batch so far: it ends at the first error. -/
def Storage.addPoints {σ : Type} (cl : Client σ) (db : σ) :
    List TradelogV4 → Storage → List Point → (List Point × Option Error) × Storage
  | [], is, bp => ((bp, none), is)
  | log :: logs, is, bp =>
    match is.tradeLogToPoint cl db log with
    | ((_, some err), is1) => ((bp, some err), is1)
    | ((points, none), is1) => Storage.addPoints cl db logs is1 (bp ++ points)

/-- What a call of `SaveTradeLogs` did: the returned error, the storage and
the database afterwards, and the batch handed to `influxClient.Write` (`none`
when `Write` was not reached). -/
structure SaveRun (σ : Type) where
  err : Option Error
  storage : Storage
  db : σ
  written : Option (List Point)

/-- The method `Storage.SaveTradeLogs`. The set `traded` is replaced by an
empty one in the last statement before `return nil`. -/
def Storage.SaveTradeLogs {σ : Type} (is : Storage) (cl : Client σ) (db : σ)
    (logs : List TradelogV4) : SaveRun σ :=
  match cl.newBatchPoints with
  | some err => { err := some err, storage := is, db := db, written := none }
  | none =>
    match Storage.addPoints cl db logs is [] with
    | ((_, some err), is1) => { err := some err, storage := is1, db := db, written := none }
    | ((bp, none), is1) =>
      match (cl.write bp db).1 with
      | some err =>
        { err := some err, storage := is1, db := (cl.write bp db).2, written := some bp }
      | none =>
        { err := none, storage := { traded := [] }, db := (cl.write bp db).2,
          written := some bp }

/-- A database for the examples: the points it holds and whether it is
reachable. -/
structure Db where
  points : List Point
  down : Bool
deriving DecidableEq, Repr

/-- A client of the database `Db`: building points never fails, the query of
`userTraded` looks for a `first_trades` point of the user, and `Write` fails
while the database is down. -/
def dbClient : Client Db :=
  { newBatchPoints := none
    tradePoint := fun _ => none
    queryTraded := fun a db => (decide (Point.first_trades a ∈ db.points), none)
    newPoint := fun _ => none
    write := fun bp db =>
      if db.down then (some "influxdb is unreachable", db)
      else (none, { db with points := db.points ++ bp }) }

/-- A trade of user 7 in block 100, not KYCed. -/
def firstTrade : TradelogV4 :=
  { BlockNumber := 100, UserAddress := 7, UID := "" }

end Influx

namespace Blockchain

/-! ## `TokenInfoGetter.getNameOrSymbol` -/

/-- A non-nil Go `error` value, given by its message (`err.Error()`);
`Option Error` is a Go `error`. -/
abbrev Error := String

/-- The function `strings.Contains` of the Go library: `substr` occurs in `s`. -/
def stringsContains (s substr : String) : Bool :=
  s.data.tails.any (fun t => substr.data.isPrefixOf t)

/-- A function of type `getNameOrSymbolFunc` applied to the address and the
client of the call: it returns a pair `(result, err)` and may change the world
`σ` (the node it asks). -/
abbrev GetNameOrSymbolFunc (σ : Type) := σ → (String × Option Error) × σ

/-- What a run of `getNameOrSymbol` did: the returned pair `(result, err)`,
the world it left and the number of resolver calls. -/
structure Resolution (σ : Type) where
  result : String
  err : Option Error
  world : σ
  calls : Nat

/-- The loop `for _, fn := range fns` of `getNameOrSymbol` with the resolvers
still to try; `st` holds the current `result` and `err`. An error whose
message contains `abi: cannot marshal` makes the loop `continue`, any other
error is returned at once, and a success leaves the loop by `break`. -/
def resolveLoop {σ : Type} : List (GetNameOrSymbolFunc σ) → Resolution σ → Resolution σ
  | [], st => st
  | fn :: fns, st =>
    match (fn st.world).1.2 with
    | some err =>
      if stringsContains err "abi: cannot marshal" then
        resolveLoop fns
          { result := (fn st.world).1.1, err := some err, world := (fn st.world).2,
            calls := st.calls + 1 }
      else
        { result := (fn st.world).1.1, err := some err, world := (fn st.world).2,
          calls := st.calls + 1 }
    | none =>
      { result := (fn st.world).1.1, err := none, world := (fn st.world).2,
        calls := st.calls + 1 }

/-- The method `TokenInfoGetter.getNameOrSymbol`: `result` starts as the empty
string and `err` as `nil`. -/
def getNameOrSymbol {σ : Type} (fns : List (GetNameOrSymbolFunc σ)) (world : σ) : Resolution σ :=
  resolveLoop fns { result := "", err := none, world := world, calls := 0 }

/-- An outcome over which the loop goes on to the next resolver: an error whose
message contains `abi: cannot marshal`. -/
def skipped : Option Error → Bool
  | some err => stringsContains err "abi: cannot marshal"
  | none => false

/-- The world after the resolvers `fns` have been called one after the other. -/
def worldAfterResolvers {σ : Type} : List (GetNameOrSymbolFunc σ) → σ → σ
  | [], world => world
  | fn :: fns, world => worldAfterResolvers fns (fn world).2

/-- Every resolver of `fns`, called in order from `world`, fails with an error
the loop skips. -/
def allSkipped {σ : Type} : List (GetNameOrSymbolFunc σ) → σ → Bool
  | [], _ => true
  | fn :: fns, world => skipped (fn world).1.2 && allSkipped fns (fn world).2

/-- A resolver of a token whose symbol is a `bytes32`: unpacking it into a
string fails. -/
def stringResolver : GetNameOrSymbolFunc Nat :=
  fun n => (("", some "abi: cannot marshal in to go type: length insufficient 32 require 64"), n + 1)

/-- A resolver that reads the symbol `MKR`. -/
def bytes32Resolver : GetNameOrSymbolFunc Nat :=
  fun n => (("MKR", none), n + 1)

/-- A resolver that cannot reach the node. -/
def offlineResolver : GetNameOrSymbolFunc Nat :=
  fun n => (("", some "dial tcp: connection refused"), n + 1)

end Blockchain

namespace Listedtokenstorage

/-! ## The assembly of listed tokens in `ListedTokenDB.GetTokens` -/

/-- An earlier listing of a token (`common.OldListedToken`): its address and
its timestamp in milliseconds. -/
structure OldListedToken where
  Address : String
  Timestamp : Nat
deriving DecidableEq, Repr

/-- A listed token (`common.ListedToken`); a row of the query has an empty
`Old`. -/
structure ListedToken where
  Address : String
  Name : String
  Symbol : String
  Timestamp : Nat
  Old : List OldListedToken
deriving DecidableEq, Repr

/-- A Go `map[string]common.ListedToken`: the value stored under each key, if
any. -/
abbrev TokenMap := String → Option ListedToken

/-- The key `fmt.Sprintf("%s-%s", token.Symbol, token.Name)` of a row. -/
def tokenKey (token : ListedToken) : String :=
  token.Symbol ++ "-" ++ token.Name

/-- The assignment `listedTokens[key] = value`. -/
def TokenMap.set (m : TokenMap) (key : String) (value : ListedToken) : TokenMap :=
  fun k => if k = key then some value else m k

/-- The body of the loop `for _, token := range result` of `GetTokens`. -/
def assembleToken (listedTokens : TokenMap) (token : ListedToken) : TokenMap :=
  match listedTokens (tokenKey token) with
  | some listedToken =>
    if token.Timestamp < listedToken.Timestamp then
      listedTokens.set (tokenKey token)
        { listedToken with
          Old := listedToken.Old ++ [{ Address := token.Address, Timestamp := token.Timestamp }] }
    else
      listedTokens.set (tokenKey token)
        { listedToken with
          Old := listedToken.Old ++
            [{ Address := listedToken.Address, Timestamp := listedToken.Timestamp }]
          Address := token.Address
          Timestamp := token.Timestamp }
  | none =>
    listedTokens.set (tokenKey token)
      { Address := token.Address, Name := token.Name, Symbol := token.Symbol,
        Timestamp := token.Timestamp, Old := [] }

/-- The assembly of `GetTokens`: the map built from the rows `result` of the
query, starting from the empty map. -/
def GetTokens (result : List ListedToken) : TokenMap :=
  result.foldl assembleToken (fun _ => none)

/-- The listing a row stands for: its address and timestamp. -/
def listing (token : ListedToken) : OldListedToken :=
  { Address := token.Address, Timestamp := token.Timestamp }

/-- The rows of `result` with the key `key`. -/
def rowsOf (result : List ListedToken) (key : String) : List ListedToken :=
  result.filter (fun token => tokenKey token = key)

/-- What the map holds under `key` after the rows `result`: nothing when no
row has the key; otherwise a token of that key whose listing together with its
`Old` list are the listings of the rows of the key, each once, none of the old
ones newer than the token. -/
def Assembled (m : TokenMap) (result : List ListedToken) (key : String) : Prop :=
  match m key with
  | none => rowsOf result key = []
  | some t =>
    (listing t :: t.Old).Perm ((rowsOf result key).map listing) ∧
    (∀ o ∈ t.Old, o.Timestamp ≤ t.Timestamp) ∧
    (∃ first ∈ (rowsOf result key).head?, t.Name = first.Name ∧ t.Symbol = first.Symbol)

/-- Three rows of the token `KNC-Kyber Network` and one of `OMG-OmiseGO`. -/
def exampleRows : List ListedToken :=
  [⟨"0xaaa", "Kyber Network", "KNC", 200, []⟩, ⟨"0xbbb", "OmiseGO", "OMG", 50, []⟩,
   ⟨"0xccc", "Kyber Network", "KNC", 300, []⟩, ⟨"0xddd", "Kyber Network", "KNC", 100, []⟩]

end Listedtokenstorage

namespace Tradelogs

/-! ## The worker pool -/

/-- What one step does to `lastCompletedJobOrder` and to the history of
`storage.SaveTradeLogs`: either all three are unchanged, or the step is the
save loop of a worker whose job has order `lastCompletedJobOrder + 1`, which
calls `SaveTradeLogs` once, and the counter moves, by one, exactly when the
call returned `nil`. -/
theorem Pool.step_commit (p q : Pool) (ev : Event) (h : p.step ev = some q) :
    (q.lastCompletedJobOrder = p.lastCompletedJobOrder ∧ q.committed = p.committed ∧
      q.saveCalls = p.saveCalls) ∨
    ∃ (w : Nat) (j : FetcherJob) (tradeLogs : List TradeLog) (saveErr : Option Error),
      ev = Event.commitTurn w saveErr ∧ p.workers.get? w = some (WorkerState.awaitingTurn j tradeLogs) ∧
      j.order = p.lastCompletedJobOrder + 1 ∧
      q.saveCalls = p.saveCalls ++ [(j, tradeLogs)] ∧
      ((saveErr = none ∧ q.lastCompletedJobOrder = p.lastCompletedJobOrder + 1 ∧
          q.committed = p.committed ++ [(j, tradeLogs)]) ∨
        (saveErr ≠ none ∧ q.lastCompletedJobOrder = p.lastCompletedJobOrder ∧
          q.committed = p.committed)) := by
  cases ev with
  | run w j =>
    left
    simp only [Pool.step] at h
    split_ifs at h
    split at h
    · cases h; exact ⟨rfl, rfl, rfl⟩
    · cases h
  | executed w tradeLogs err =>
    left
    simp only [Pool.step] at h
    split at h
    · split at h <;> (cases h; exact ⟨rfl, rfl, rfl⟩)
    · cases h
  | report w =>
    left
    simp only [Pool.step] at h
    split_ifs at h
    split at h
    · cases h; exact ⟨rfl, rfl, rfl⟩
    · cases h; exact ⟨rfl, rfl, rfl⟩
    · cases h
  | commitTurn w saveErr =>
    simp only [Pool.step] at h
    split at h
    · rename_i j tradeLogs hw
      split_ifs at h with hturn
      · right
        refine ⟨w, j, tradeLogs, saveErr, rfl, hw, hturn, ?_⟩
        split at h
        · cases h; exact ⟨rfl, Or.inl ⟨rfl, rfl, rfl⟩⟩
        · cases h; exact ⟨rfl, Or.inr ⟨by simp, rfl, rfl⟩⟩
      · left; cases h; exact ⟨rfl, rfl, rfl⟩
    · cases h
  | closeJobs =>
    left
    simp only [Pool.step] at h
    split_ifs at h
    cases h; exact ⟨rfl, rfl, rfl⟩
  | leave w =>
    left
    simp only [Pool.step] at h
    split_ifs at h
    split at h
    · cases h; exact ⟨rfl, rfl, rfl⟩
    · cases h
  | recvErr =>
    left
    simp only [Pool.step] at h
    split at h
    · cases h; exact ⟨rfl, rfl, rfl⟩
    · cases h

/-- The ordered-commit invariant: the successful saves are those of the jobs
with orders 1, 2, ..., `lastCompletedJobOrder`, in this order. -/
theorem Pool.step_ordered (p q : Pool) (ev : Event) (h : p.step ev = some q)
    (hlast : p.lastCompletedJobOrder = (p.committed.length : Int))
    (hord : ∀ (k : Nat) (e : FetcherJob × List TradeLog), p.committed[k]? = some e →
      e.1.order = (k : Int) + 1) :
    q.lastCompletedJobOrder = (q.committed.length : Int) ∧
    ∀ (k : Nat) (e : FetcherJob × List TradeLog), q.committed[k]? = some e →
      e.1.order = (k : Int) + 1 := by
  rcases Pool.step_commit p q ev h with ⟨h1, h2, _⟩ | ⟨w, j, tl, se, _, _, hturn, _, hcase⟩
  · rw [h1, h2]; exact ⟨hlast, hord⟩
  · rcases hcase with ⟨_, h1, h2⟩ | ⟨_, h1, h2⟩
    · rw [h1, h2]
      refine ⟨by rw [List.length_append]; push_cast; simp; omega, ?_⟩
      intro k e hk
      by_cases hlt : k < p.committed.length
      · rw [List.getElem?_append_left hlt] at hk
        exact hord k e hk
      · have hge : p.committed.length ≤ k := by omega
        rw [List.getElem?_append_right hge] at hk
        have hz : k - p.committed.length = 0 := by
          by_contra hne
          obtain ⟨m, hm⟩ := Nat.exists_eq_succ_of_ne_zero hne
          rw [hm] at hk
          simp at hk
        rw [hz] at hk
        simp at hk
        subst hk
        simp only
        omega
    · rw [h1, h2]; exact ⟨hlast, hord⟩

/-- The ordered-commit invariant holds after every sequence of steps. -/
theorem Pool.run_ordered (evs : List Event) : ∀ (p q : Pool), p.run evs = some q →
    p.lastCompletedJobOrder = (p.committed.length : Int) →
    (∀ (k : Nat) (e : FetcherJob × List TradeLog), p.committed[k]? = some e →
      e.1.order = (k : Int) + 1) →
    q.lastCompletedJobOrder = (q.committed.length : Int) ∧
    ∀ (k : Nat) (e : FetcherJob × List TradeLog), q.committed[k]? = some e →
      e.1.order = (k : Int) + 1 := by
  induction evs with
  | nil => intro p q h h1 h2; simp only [Pool.run] at h; cases h; exact ⟨h1, h2⟩
  | cons ev evs ih =>
    intro p q h h1 h2
    simp only [Pool.run] at h
    split at h
    · rename_i r hr
      obtain ⟨a, b⟩ := Pool.step_ordered p r ev hr h1 h2
      exact ih r q h a b
    · cases h

/-- The counter `lastCompletedJobOrder` never decreases along a run. -/
theorem Pool.run_mono (evs : List Event) : ∀ (p q : Pool), p.run evs = some q →
    p.lastCompletedJobOrder ≤ q.lastCompletedJobOrder := by
  induction evs with
  | nil => intro p q h; simp only [Pool.run] at h; cases h; exact le_refl _
  | cons ev evs ih =>
    intro p q h
    simp only [Pool.run] at h
    split at h
    · rename_i r hr
      have := ih r q h
      rcases Pool.step_commit p r ev hr with ⟨h1, _, _⟩ | ⟨_, _, _, _, _, _, _, _, hcase⟩
      · omega
      · rcases hcase with ⟨_, h1, _⟩ | ⟨_, h1, _⟩ <;> omega
    · cases h

/-- A new pool has committed nothing. -/
theorem NewPool_fresh (maxWorkers : Int) (p : Pool) (h : NewPool maxWorkers = some p) :
    p.lastCompletedJobOrder = 0 ∧ p.committed = [] ∧ p.saveCalls = [] := by
  unfold NewPool at h
  split_ifs at h
  cases h
  exact ⟨rfl, rfl, rfl⟩

/-- C1 (ordered commit). In every state a pool reaches from `NewPool`,
whatever jobs are handed to it and in whatever order the workers finish their
fetches, the orders of the jobs whose `storage.SaveTradeLogs` has returned
`nil` are, in the order of the saves, exactly 1, 2, ...,
`lastCompletedJobOrder`. So when the records of a job of order `k` are saved,
the records of a job of every order `1 ≤ m < k` have been saved before. -/
theorem ordered_commit (maxWorkers : Int) (p0 p : Pool) (evs : List Event)
    (h0 : NewPool maxWorkers = some p0) (hrun : p0.run evs = some p) :
    p.committed.map (fun e => e.1.order) =
      (List.range p.committed.length).map (fun k : Nat => (k : Int) + 1) ∧
    p.lastCompletedJobOrder = (p.committed.length : Int) ∧
    ∀ (k : Nat) (e : FetcherJob × List TradeLog), p.committed[k]? = some e →
      ∀ m : Int, 1 ≤ m → m < e.1.order →
        ∃ (k' : Nat) (e' : FetcherJob × List TradeLog),
          k' < k ∧ p.committed[k']? = some e' ∧ e'.1.order = m := by
  obtain ⟨f1, f2, _⟩ := NewPool_fresh maxWorkers p0 h0
  obtain ⟨hlast, hord⟩ := Pool.run_ordered evs p0 p hrun (by rw [f1, f2]; rfl)
    (by intro k e hk; rw [f2] at hk; simp at hk)
  refine ⟨?_, hlast, ?_⟩
  · apply List.ext_getElem?
    intro k
    by_cases hk : k < p.committed.length
    · have h1 : p.committed[k]? = some p.committed[k] := List.getElem?_eq_getElem hk
      rw [List.getElem?_map, List.getElem?_map, h1, List.getElem?_range hk]
      simp only [Option.map_some']
      rw [hord k _ h1]
    · have h1 : p.committed[k]? = none := List.getElem?_eq_none (by omega)
      have h2 : (List.range p.committed.length)[k]? = none :=
        List.getElem?_eq_none (by rw [List.length_range]; omega)
      rw [List.getElem?_map, List.getElem?_map, h1, h2]
      rfl
  · intro k e hk m hm1 hm2
    have hke := hord k e hk
    have hm3 : (m - 1).toNat < k := by omega
    have hlen : k < p.committed.length := (List.getElem?_eq_some_iff.mp hk).1
    have hlt : (m - 1).toNat < p.committed.length := by omega
    refine ⟨(m - 1).toNat, p.committed[(m - 1).toNat], hm3, List.getElem?_eq_getElem hlt, ?_⟩
    rw [hord _ _ (List.getElem?_eq_getElem hlt)]
    omega

/-- Witness of C1: the race in which the fetch of job 2 ends before the fetch
of job 1; the saves still happen in the order 1, 2. -/
theorem ordered_commit_witness :
    raceEnd.committed.map (fun e => e.1.order) =
      (List.range raceEnd.committed.length).map (fun k : Nat => (k : Int) + 1) ∧
    raceEnd.lastCompletedJobOrder = (raceEnd.committed.length : Int) ∧
    ∀ (k : Nat) (e : FetcherJob × List TradeLog), raceEnd.committed[k]? = some e →
      ∀ m : Int, 1 ≤ m → m < e.1.order →
        ∃ (k' : Nat) (e' : FetcherJob × List TradeLog),
          k' < k ∧ raceEnd.committed[k']? = some e' ∧ e'.1.order = m :=
  ordered_commit 2 raceStart raceEnd raceEvents (by decide) (by decide)

/-- C2 (commit gate). A new pool has `lastCompletedJobOrder = 0`, and the
counter never decreases along a run. Every step from a reachable state either
leaves the counter unchanged or increases it by exactly 1; it increases only
in a step of the save loop in which `SaveTradeLogs` was called for a job whose
order is the old value + 1 and returned `nil`. A step calls `SaveTradeLogs`
at most once, and only for a job whose order is `lastCompletedJobOrder + 1`. -/
theorem commit_gate (maxWorkers : Int) (p0 p q : Pool) (evs : List Event) (ev : Event)
    (h0 : NewPool maxWorkers = some p0) (hrun : p0.run evs = some p)
    (hstep : p.step ev = some q) :
    p0.lastCompletedJobOrder = 0 ∧
    p0.lastCompletedJobOrder ≤ p.lastCompletedJobOrder ∧
    p.lastCompletedJobOrder ≤ q.lastCompletedJobOrder ∧
    (q.lastCompletedJobOrder = p.lastCompletedJobOrder ∨
      q.lastCompletedJobOrder = p.lastCompletedJobOrder + 1) ∧
    (q.lastCompletedJobOrder ≠ p.lastCompletedJobOrder →
      ∃ (w : Nat) (j : FetcherJob) (tradeLogs : List TradeLog),
        ev = Event.commitTurn w none ∧
        p.workers.get? w = some (WorkerState.awaitingTurn j tradeLogs) ∧
        j.order = p.lastCompletedJobOrder + 1 ∧
        q.saveCalls = p.saveCalls ++ [(j, tradeLogs)] ∧
        q.committed = p.committed ++ [(j, tradeLogs)]) ∧
    (q.saveCalls = p.saveCalls ∨
      ∃ (j : FetcherJob) (tradeLogs : List TradeLog),
        q.saveCalls = p.saveCalls ++ [(j, tradeLogs)] ∧
        j.order = p.lastCompletedJobOrder + 1) := by
  refine ⟨(NewPool_fresh maxWorkers p0 h0).1, Pool.run_mono evs p0 p hrun, ?_⟩
  rcases Pool.step_commit p q ev hstep with ⟨h1, _, h3⟩ | ⟨w, j, tl, se, hev, hw, hturn, hcalls, hcase⟩
  · exact ⟨by omega, Or.inl h1, fun hne => absurd h1 hne, Or.inl h3⟩
  · rcases hcase with ⟨hse, h1, h2⟩ | ⟨_, h1, _⟩
    · refine ⟨by omega, Or.inr h1, fun _ => ⟨w, j, tl, ?_, hw, hturn, hcalls, h2⟩,
        Or.inr ⟨j, tl, hcalls, hturn⟩⟩
      rw [hev, hse]
    · exact ⟨by omega, Or.inl h1, fun hne => absurd h1 hne, Or.inr ⟨j, tl, hcalls, hturn⟩⟩

/-- Witness of C2: in the race, once both fetches are done and the worker of
job 2 has polled the gate in vain, the save of job 1 moves the counter from
0 to 1. -/
theorem commit_gate_witness :
    raceStart.lastCompletedJobOrder = 0 ∧
    raceStart.lastCompletedJobOrder ≤ raceFetched.lastCompletedJobOrder ∧
    raceFetched.lastCompletedJobOrder ≤ raceSavedFirst.lastCompletedJobOrder ∧
    (raceSavedFirst.lastCompletedJobOrder = raceFetched.lastCompletedJobOrder ∨
      raceSavedFirst.lastCompletedJobOrder = raceFetched.lastCompletedJobOrder + 1) ∧
    (raceSavedFirst.lastCompletedJobOrder ≠ raceFetched.lastCompletedJobOrder →
      ∃ (w : Nat) (j : FetcherJob) (tradeLogs : List TradeLog),
        Event.commitTurn 0 none = Event.commitTurn w none ∧
        raceFetched.workers.get? w = some (WorkerState.awaitingTurn j tradeLogs) ∧
        j.order = raceFetched.lastCompletedJobOrder + 1 ∧
        raceSavedFirst.saveCalls = raceFetched.saveCalls ++ [(j, tradeLogs)] ∧
        raceSavedFirst.committed = raceFetched.committed ++ [(j, tradeLogs)]) ∧
    (raceSavedFirst.saveCalls = raceFetched.saveCalls ∨
      ∃ (j : FetcherJob) (tradeLogs : List TradeLog),
        raceSavedFirst.saveCalls = raceFetched.saveCalls ++ [(j, tradeLogs)] ∧
        j.order = raceFetched.lastCompletedJobOrder + 1) :=
  commit_gate 2 raceStart raceFetched raceSavedFirst (raceEvents.take 6)
    (Event.commitTurn 0 none) (by decide) (by decide) (by decide)

/-! ## The submitting loop -/

theorem wrapInt64_eq (x : Int) (h1 : -9223372036854775808 ≤ x) (h2 : x < 9223372036854775808) :
    wrapInt64 x = x := by
  unfold wrapInt64; omega

/-- The loop returns the same result with more fuel. -/
theorem submitLoop_fuel_mono (sb : StartingBlocks) (attempts toBlock maxBlocks : Int) :
    ∀ (fuel : Nat) (i jobOrder : Int) (acc : List FetcherJob) (r : List FetcherJob × Int),
      submitLoop sb attempts toBlock maxBlocks fuel i jobOrder acc = some r →
      ∀ k : Nat, submitLoop sb attempts toBlock maxBlocks (fuel + k) i jobOrder acc = some r := by
  intro fuel
  induction fuel with
  | zero =>
    intro i jobOrder acc r h k
    by_cases hi : i ≤ toBlock
    · simp [submitLoop, hi] at h
    · cases k with
      | zero => simpa using h
      | succ k => simp only [submitLoop, hi, if_false] at h ⊢; simpa [submitLoop, hi] using h
  | succ fuel ih =>
    intro i jobOrder acc r h k
    have hk : fuel + 1 + k = (fuel + k) + 1 := by omega
    rw [hk]
    by_cases hi : i ≤ toBlock
    · simp only [submitLoop, hi, if_true] at h ⊢
      exact ih _ _ _ _ h k
    · simp only [submitLoop, hi, if_false] at h ⊢
      exact h

/-- Two terminating runs of the loop agree. -/
theorem submitLoop_unique (sb : StartingBlocks) (attempts toBlock maxBlocks : Int)
    (f1 f2 : Nat) (i jobOrder : Int) (acc : List FetcherJob) (r1 r2 : List FetcherJob × Int)
    (h1 : submitLoop sb attempts toBlock maxBlocks f1 i jobOrder acc = some r1)
    (h2 : submitLoop sb attempts toBlock maxBlocks f2 i jobOrder acc = some r2) : r1 = r2 := by
  have a := submitLoop_fuel_mono sb attempts toBlock maxBlocks f1 i jobOrder acc r1 h1 f2
  have b := submitLoop_fuel_mono sb attempts toBlock maxBlocks f2 i jobOrder acc r2 h2 f1
  rw [Nat.add_comm] at b
  rw [a] at b
  exact Option.some.inj b

/-- With exact `int64` arithmetic the loop terminates and follows `Decomp`. -/
theorem submitLoop_decomp (sb : StartingBlocks) (attempts toBlock maxBlocks : Int)
    (hmb : 1 ≤ maxBlocks) (hov : toBlock + maxBlocks < 9223372036854775808) :
    ∀ (fuel : Nat) (i jobOrder : Int) (acc : List FetcherJob),
      -9223372036854775808 ≤ i → toBlock - i < fuel →
      ∃ js jo, submitLoop sb attempts toBlock maxBlocks fuel i jobOrder acc = some (acc ++ js, jo) ∧
        Decomp sb attempts toBlock maxBlocks i jobOrder js jo := by
  intro fuel
  induction fuel with
  | zero =>
    intro i jobOrder acc _ hf
    have hi : ¬ i ≤ toBlock := by push_cast at hf; omega
    exact ⟨[], jobOrder, by simp [submitLoop, hi], Decomp.done i jobOrder (by omega)⟩
  | succ fuel ih =>
    intro i jobOrder acc hlo hf
    by_cases hi : i ≤ toBlock
    · have hw : wrapInt64 (i + maxBlocks) = i + maxBlocks :=
        wrapInt64_eq _ (by omega) (by omega)
      obtain ⟨js, jo, hrun, hd⟩ := ih (i + maxBlocks)
        (submitBatch sb attempts i (MinInt64 (i + maxBlocks) toBlock) jobOrder).2
        (acc ++ (submitBatch sb attempts i (MinInt64 (i + maxBlocks) toBlock) jobOrder).1)
        (by omega) (by push_cast at hf; omega)
      refine ⟨(submitBatch sb attempts i (MinInt64 (i + maxBlocks) toBlock) jobOrder).1 ++ js, jo, ?_,
        Decomp.batch i jobOrder js jo hi hd⟩
      simp only [submitLoop, hi, if_true, hw]
      rw [hrun, List.append_assoc]
    · exact ⟨[], jobOrder, by simp [submitLoop, hi], Decomp.done i jobOrder (by omega)⟩

/-- A split condition of the `switch`, read on `int64` values: the boundary
lies in `(i, endBlock]`. -/
theorem split_cond_bounds (V : Nat) (i e : Int) (hlo : -9223372036854775808 ≤ i) (hie : i ≤ e)
    (hhi : e < 9223372036854775808) (h : V ≤ toUint64 e ∧ toUint64 i < V) :
    i < ofUint64 V ∧ ofUint64 V ≤ e := by
  unfold toUint64 at h
  unfold ofUint64 wrapInt64
  omega

/-- For a non-negative batch start the split condition is `i < V ≤ endBlock`
and the conversion `int64(V)` is exact. -/
theorem split_cond_nonneg (V : Nat) (i e : Int) (h0 : 0 ≤ i) (hie : i ≤ e)
    (hhi : e < 9223372036854775808) :
    (V ≤ toUint64 e ∧ toUint64 i < V) ↔ (i < (V : Int) ∧ (V : Int) ≤ e) := by
  unfold toUint64
  omega

theorem ofUint64_eq (V : Nat) (h : (V : Int) < 9223372036854775808) : ofUint64 V = V := by
  unfold ofUint64 wrapInt64
  omega

/-- The shapes of one batch: one job, or two jobs split at a boundary inside
`(i, endBlock]`. -/
theorem submitBatch_cases (sb : StartingBlocks) (attempts i e jobOrder : Int)
    (hlo : -9223372036854775808 ≤ i) (hie : i ≤ e) (hhi : e < 9223372036854775808) :
    submitBatch sb attempts i e jobOrder = ([NewFetcherJob (jobOrder + 1) i e attempts], jobOrder + 1) ∨
    ∃ v : Int, i < v ∧ v ≤ e ∧
      (v = ofUint64 sb.V4 ∨ v = ofUint64 sb.V3 ∨ v = ofUint64 sb.V2) ∧
      submitBatch sb attempts i e jobOrder =
        ([NewFetcherJob (jobOrder + 1) i v attempts,
          NewFetcherJob (jobOrder + 1 + 1) v e attempts], jobOrder + 1 + 1) := by
  unfold submitBatch
  by_cases h4 : sb.V4 ≤ toUint64 e ∧ toUint64 i < sb.V4
  · have := split_cond_bounds sb.V4 i e hlo hie hhi h4
    exact Or.inr ⟨ofUint64 sb.V4, this.1, this.2, Or.inl rfl, by rw [if_pos h4]⟩
  · rw [if_neg h4]
    by_cases h3 : sb.V3 ≤ toUint64 e ∧ toUint64 i < sb.V3
    · have := split_cond_bounds sb.V3 i e hlo hie hhi h3
      exact Or.inr ⟨ofUint64 sb.V3, this.1, this.2, Or.inr (Or.inl rfl), by rw [if_pos h3]⟩
    · rw [if_neg h3]
      by_cases h2 : sb.V2 ≤ toUint64 e ∧ toUint64 i < sb.V2
      · have := split_cond_bounds sb.V2 i e hlo hie hhi h2
        exact Or.inr ⟨ofUint64 sb.V2, this.1, this.2, Or.inr (Or.inr rfl), by rw [if_pos h2]⟩
      · rw [if_neg h2]
        exact Or.inl rfl

theorem Linked_append (a b c : Int) (xs ys : List FetcherJob) (h1 : Linked a xs b)
    (h2 : Linked b ys c) : Linked a (xs ++ ys) c := by
  induction xs generalizing a with
  | nil => simp only [Linked] at h1; subst h1; simpa using h2
  | cons x xs ih => exact ⟨h1.1, ih _ h1.2⟩

/-- One batch is a chain from `i` to `endBlock`. -/
theorem submitBatch_linked (sb : StartingBlocks) (attempts i e jobOrder : Int)
    (hlo : -9223372036854775808 ≤ i) (hie : i ≤ e) (hhi : e < 9223372036854775808) :
    Linked i (submitBatch sb attempts i e jobOrder).1 e := by
  rcases submitBatch_cases sb attempts i e jobOrder hlo hie hhi with h | ⟨v, _, _, _, h⟩
  · rw [h]; exact ⟨rfl, rfl⟩
  · rw [h]; exact ⟨rfl, rfl, rfl⟩

/-- Past the end of the span the loop submits nothing. -/
theorem Decomp_done (sb : StartingBlocks) (attempts toBlock maxBlocks i jo jo2 : Int)
    (js : List FetcherJob) (h : Decomp sb attempts toBlock maxBlocks i jo js jo2)
    (hi : toBlock < i) : js = [] ∧ jo2 = jo := by
  cases h with
  | done _ _ _ => exact ⟨rfl, rfl⟩
  | batch _ _ _ _ h' _ => omega

/-- The submitted jobs are a chain from the loop start to `toBlock`. -/
theorem Decomp_linked (sb : StartingBlocks) (attempts toBlock maxBlocks : Int)
    (hmb : 1 ≤ maxBlocks) (hov : toBlock + maxBlocks < 9223372036854775808)
    (i jo jo2 : Int) (js : List FetcherJob)
    (h : Decomp sb attempts toBlock maxBlocks i jo js jo2) :
    -9223372036854775808 ≤ i → i ≤ toBlock → Linked i js toBlock := by
  induction h with
  | done i jo h => intro _ hi; omega
  | batch i jo rest jo2 hi hrest ih =>
    intro hlo _
    by_cases hnext : i + maxBlocks ≤ toBlock
    · have hmin : MinInt64 (i + maxBlocks) toBlock = i + maxBlocks := by
        unfold MinInt64; split_ifs <;> omega
      have hb := submitBatch_linked sb attempts i (i + maxBlocks) jo hlo (by omega) (by omega)
      rw [hmin]
      exact Linked_append _ _ _ _ _ hb (ih (by omega) hnext)
    · have hmin : MinInt64 (i + maxBlocks) toBlock = toBlock := by
        unfold MinInt64; split_ifs <;> omega
      have hb := submitBatch_linked sb attempts i toBlock jo hlo hi (by omega)
      have hnil := (Decomp_done sb attempts toBlock maxBlocks _ _ _ _ hrest (by omega)).1
      rw [hmin, hnil, List.append_nil]
      exact hb

/-- A non-empty chain read through `head?`, `Chain'` and `getLast?`. -/
theorem Linked_spec (js : List FetcherJob) : ∀ (a b : Int), Linked a js b → js ≠ [] →
    js.head?.map FetcherJob.from_ = some a ∧
    List.Chain' (fun x y : FetcherJob => x.to_ = y.from_) js ∧
    js.getLast?.map FetcherJob.to_ = some b := by
  induction js with
  | nil => intro a b _ h; exact absurd rfl h
  | cons j js ih =>
    intro a b h _
    obtain ⟨hj, hrest⟩ := h
    cases js with
    | nil =>
      simp only [Linked] at hrest
      simp [hj, hrest]
    | cons k ks =>
      obtain ⟨h1, h2, h3⟩ := ih j.to_ b hrest (by simp)
      refine ⟨by simp [hj], ?_, ?_⟩
      · refine List.chain'_cons.mpr ⟨?_, h2⟩
        simpa using h1.symm
      · simpa [List.getLast?_cons_cons] using h3

/-- Every block between the ends of a chain lies in one of its ranges. -/
theorem Linked_cover (js : List FetcherJob) : ∀ (a b x : Int), Linked a js b → a ≤ x → x < b →
    ∃ j ∈ js, j.from_ ≤ x ∧ x < j.to_ := by
  induction js with
  | nil => intro a b x h h1 h2; simp only [Linked] at h; omega
  | cons j js ih =>
    intro a b x h h1 h2
    obtain ⟨hj, hrest⟩ := h
    by_cases hx : x < j.to_
    · exact ⟨j, List.mem_cons_self _ _, by omega, hx⟩
    · obtain ⟨k, hk, hk2⟩ := ih j.to_ b x hrest (by omega) h2
      exact ⟨k, List.mem_cons_of_mem _ hk, hk2⟩

/-- A chain of ranges with `from ≤ to` is ordered from left to right and stays
between its ends. -/
theorem Linked_sorted (js : List FetcherJob) : ∀ (a b : Int), Linked a js b →
    (∀ j ∈ js, j.from_ ≤ j.to_) →
    List.Pairwise (fun x y : FetcherJob => x.to_ ≤ y.from_) js ∧
    (∀ j ∈ js, a ≤ j.from_ ∧ j.to_ ≤ b) ∧ a ≤ b := by
  induction js with
  | nil => intro a b h _; simp only [Linked] at h; simp [h]
  | cons j js ih =>
    intro a b h hm
    obtain ⟨hj, hrest⟩ := h
    have hjm := hm j (List.mem_cons_self _ _)
    obtain ⟨h1, h2, h3⟩ := ih j.to_ b hrest (fun k hk => hm k (List.mem_cons_of_mem _ hk))
    refine ⟨List.pairwise_cons.mpr ⟨fun k hk => (h2 k hk).1, h1⟩, ?_, by omega⟩
    intro k hk
    rcases List.mem_cons.mp hk with rfl | hk
    · exact ⟨by omega, by omega⟩
    · have := h2 k hk
      exact ⟨by omega, this.2⟩

/-- A property of the jobs of every batch holds for every submitted job. -/
theorem Decomp_forall (sb : StartingBlocks) (attempts toBlock maxBlocks lo : Int)
    (hmb : 1 ≤ maxBlocks) (P : FetcherJob → Prop)
    (hP : ∀ i jo : Int, lo ≤ i → i ≤ toBlock →
      ∀ j ∈ (submitBatch sb attempts i (MinInt64 (i + maxBlocks) toBlock) jo).1, P j)
    (i jo jo2 : Int) (js : List FetcherJob)
    (h : Decomp sb attempts toBlock maxBlocks i jo js jo2) :
    lo ≤ i → ∀ j ∈ js, P j := by
  induction h with
  | done i jo h => intro _ j hj; simp at hj
  | batch i jo rest jo2 hi hrest ih =>
    intro hlo j hj
    rcases List.mem_append.mp hj with hj | hj
    · exact hP i jo hlo hi j hj
    · exact ih (by omega) j hj

/-- The end of a batch lies in `(i, toBlock]`, or equals `i` when `i = toBlock`. -/
theorem batch_end_bounds (i toBlock maxBlocks : Int) (hmb : 1 ≤ maxBlocks) (hi : i ≤ toBlock) :
    i ≤ MinInt64 (i + maxBlocks) toBlock ∧ MinInt64 (i + maxBlocks) toBlock ≤ toBlock ∧
    MinInt64 (i + maxBlocks) toBlock ≤ i + maxBlocks ∧
    (MinInt64 (i + maxBlocks) toBlock = i → i = toBlock) := by
  unfold MinInt64
  split_ifs <;> omega

/-- Every job of a batch has `from ≤ to`; it is empty only as `[toBlock, toBlock)`
or as `[V, V)` at the boundary `V` of the split. -/
theorem submitBatch_ranges (sb : StartingBlocks) (attempts toBlock maxBlocks : Int)
    (hmb : 1 ≤ maxBlocks) (hov : toBlock + maxBlocks < 9223372036854775808)
    (i jo : Int) (hlo : -9223372036854775808 ≤ i) (hi : i ≤ toBlock) :
    ∀ j ∈ (submitBatch sb attempts i (MinInt64 (i + maxBlocks) toBlock) jo).1,
      j.from_ < j.to_ ∨ (j.from_ = j.to_ ∧ (j.to_ = toBlock ∨
        j.to_ = ofUint64 sb.V4 ∨ j.to_ = ofUint64 sb.V3 ∨ j.to_ = ofUint64 sb.V2)) := by
  obtain ⟨h1, h2, h3, h4⟩ := batch_end_bounds i toBlock maxBlocks hmb hi
  intro j hj
  rcases submitBatch_cases sb attempts i (MinInt64 (i + maxBlocks) toBlock) jo hlo h1 (by omega)
    with h | ⟨v, hv1, hv2, hv3, h⟩
  · rw [h] at hj
    simp only [List.mem_singleton] at hj
    subst hj
    simp only [NewFetcherJob]
    by_cases he : i = MinInt64 (i + maxBlocks) toBlock
    · right
      exact ⟨he, Or.inl (by have := h4 he.symm; omega)⟩
    · left; omega
  · rw [h] at hj
    simp only [List.mem_cons, List.mem_singleton, List.not_mem_nil, or_false] at hj
    rcases hj with rfl | rfl
    · left; simpa [NewFetcherJob] using hv1
    · simp only [NewFetcherJob]
      by_cases he : v = MinInt64 (i + maxBlocks) toBlock
      · right
        refine ⟨he, Or.inr ?_⟩
        rw [← he]; exact hv3
      · left; omega

/-- A batch submits one or two jobs. -/
theorem submitBatch_length (sb : StartingBlocks) (attempts i e jobOrder : Int) :
    1 ≤ (submitBatch sb attempts i e jobOrder).1.length ∧
    (submitBatch sb attempts i e jobOrder).1.length ≤ 2 := by
  unfold submitBatch
  split_ifs <;> simp

/-- A loop entered with `i ≤ toBlock` submits at least one job. -/
theorem Decomp_ne_nil (sb : StartingBlocks) (attempts toBlock maxBlocks i jo jo2 : Int)
    (js : List FetcherJob) (h : Decomp sb attempts toBlock maxBlocks i jo js jo2)
    (hi : i ≤ toBlock) : js ≠ [] := by
  intro hnil
  have hlen : js.length = 0 := by rw [hnil]; rfl
  cases h with
  | done _ _ h => omega
  | batch _ _ rest _ _ _ =>
    have := (submitBatch_length sb attempts i (MinInt64 (i + maxBlocks) toBlock) jo).1
    rw [List.length_append] at hlen
    omega

/-- On a span whose batch arithmetic is exact the submitting loop terminates,
and every terminating run submits the jobs described by `Decomp`. -/
theorem submitJobs_spec (sb : StartingBlocks) (attempts fromBlock toBlock maxBlocks : Int)
    (lastCompleted : Int) (hlo : -9223372036854775808 ≤ fromBlock) (hmb : 1 ≤ maxBlocks)
    (hov : toBlock + maxBlocks < 9223372036854775808) :
    (∃ fuel, (submitJobs sb attempts fromBlock toBlock maxBlocks lastCompleted fuel).isSome) ∧
    ∀ (fuel : Nat) (js : List FetcherJob) (jo : Int),
      submitJobs sb attempts fromBlock toBlock maxBlocks lastCompleted fuel = some (js, jo) →
      Decomp sb attempts toBlock maxBlocks fromBlock lastCompleted js jo := by
  obtain ⟨js0, jo0, hrun, hd⟩ := submitLoop_decomp sb attempts toBlock maxBlocks hmb hov
    ((toBlock - fromBlock).toNat + 1) fromBlock lastCompleted [] hlo (by push_cast; omega)
  rw [List.nil_append] at hrun
  refine ⟨⟨_, by unfold submitJobs; rw [hrun]; rfl⟩, ?_⟩
  intro fuel js jo h
  have := submitLoop_unique sb attempts toBlock maxBlocks _ _ _ _ _ _ _ h hrun
  cases this
  exact hd

/-- The jobs of one batch carry the next one or two order numbers. -/
theorem submitBatch_orders (sb : StartingBlocks) (attempts i e jobOrder : Int) :
    (submitBatch sb attempts i e jobOrder).2 =
      jobOrder + ((submitBatch sb attempts i e jobOrder).1.length : Int) ∧
    ∀ (k : Nat) (j : FetcherJob), (submitBatch sb attempts i e jobOrder).1[k]? = some j →
      j.order = jobOrder + (k : Int) + 1 := by
  have key : ∀ (a b : FetcherJob), a.order = jobOrder + 1 → b.order = jobOrder + 1 + 1 →
      ∀ (k : Nat) (j : FetcherJob), [a, b][k]? = some j → j.order = jobOrder + (k : Int) + 1 := by
    intro a b ha hb k j hj
    match k, hj with
    | 0, hj => simp at hj; subst hj; simpa using ha
    | 1, hj => simp at hj; subst hj; simpa using hb
    | k + 2, hj => simp at hj
  have key1 : ∀ (a : FetcherJob), a.order = jobOrder + 1 →
      ∀ (k : Nat) (j : FetcherJob), [a][k]? = some j → j.order = jobOrder + (k : Int) + 1 := by
    intro a ha k j hj
    match k, hj with
    | 0, hj => simp at hj; subst hj; simpa using ha
    | k + 1, hj => simp at hj
  unfold submitBatch
  split_ifs
  · exact ⟨by simp; omega, key _ _ rfl rfl⟩
  · exact ⟨by simp; omega, key _ _ rfl rfl⟩
  · exact ⟨by simp; omega, key _ _ rfl rfl⟩
  · exact ⟨by simp, key1 _ rfl⟩

/-- The submitted jobs carry consecutive order numbers, counted from the start
value of the counter, which ends at the number of the last job. -/
theorem Decomp_orders (sb : StartingBlocks) (attempts toBlock maxBlocks : Int)
    (i jo jo2 : Int) (js : List FetcherJob)
    (h : Decomp sb attempts toBlock maxBlocks i jo js jo2) :
    jo2 = jo + (js.length : Int) ∧
    ∀ (k : Nat) (j : FetcherJob), js[k]? = some j → j.order = jo + (k : Int) + 1 := by
  induction h with
  | done i jo h => exact ⟨by simp, fun k j hj => by simp at hj⟩
  | batch i jo rest jo2 hi hrest ih =>
    obtain ⟨hb1, hb2⟩ := submitBatch_orders sb attempts i (MinInt64 (i + maxBlocks) toBlock) jo
    obtain ⟨ih1, ih2⟩ := ih
    refine ⟨by rw [ih1, hb1, List.length_append]; push_cast; omega, ?_⟩
    intro k j hj
    by_cases hlt : k < (submitBatch sb attempts i (MinInt64 (i + maxBlocks) toBlock) jo).1.length
    · rw [List.getElem?_append_left hlt] at hj
      exact hb2 k j hj
    · have hge : (submitBatch sb attempts i (MinInt64 (i + maxBlocks) toBlock) jo).1.length ≤ k := by
        omega
      rw [List.getElem?_append_right hge] at hj
      have := ih2 _ j hj
      rw [this, hb1]
      push_cast [Nat.cast_sub hge]
      omega

/-- Every submitted job has `from ≤ to` when the batch arithmetic is exact. -/
theorem Decomp_from_le_to (sb : StartingBlocks) (attempts toBlock maxBlocks : Int)
    (hmb : 1 ≤ maxBlocks) (hov : toBlock + maxBlocks < 9223372036854775808)
    (i jo jo2 : Int) (js : List FetcherJob)
    (h : Decomp sb attempts toBlock maxBlocks i jo js jo2)
    (hlo : -9223372036854775808 ≤ i) : ∀ j ∈ js, j.from_ ≤ j.to_ := by
  intro j hj
  have := Decomp_forall sb attempts toBlock maxBlocks (-9223372036854775808) hmb _
    (fun i jo h1 h2 => submitBatch_ranges sb attempts toBlock maxBlocks hmb hov i jo h1 h2)
    _ _ _ _ h hlo j hj
  omega

/-- The submitted jobs lie side by side from left to right in submission
order. -/
theorem Decomp_sorted (sb : StartingBlocks) (attempts toBlock maxBlocks : Int)
    (hmb : 1 ≤ maxBlocks) (hov : toBlock + maxBlocks < 9223372036854775808)
    (i jo jo2 : Int) (js : List FetcherJob)
    (h : Decomp sb attempts toBlock maxBlocks i jo js jo2)
    (hlo : -9223372036854775808 ≤ i) :
    List.Pairwise (fun x y : FetcherJob => x.to_ ≤ y.from_) js := by
  by_cases hi : i ≤ toBlock
  · have hlink := Decomp_linked sb attempts toBlock maxBlocks hmb hov _ _ _ _ h hlo hi
    exact (Linked_sorted js _ _ hlink
      (Decomp_from_le_to sb attempts toBlock maxBlocks hmb hov _ _ _ _ h hlo)).1
  · rw [(Decomp_done sb attempts toBlock maxBlocks _ _ _ _ h (by omega)).1]
    exact List.Pairwise.nil

/-- Boundaries inside the jobs of one batch that starts at a non-negative
block, for ascending starting blocks: a job has a starting block `V` strictly
inside only if it ends at a higher starting block of the same batch. -/
theorem submitBatch_boundaries (sb : StartingBlocks) (attempts toBlock maxBlocks : Int)
    (hmb : 1 ≤ maxBlocks) (hov : toBlock + maxBlocks < 9223372036854775808)
    (hasc : sb.V2 ≤ sb.V3 ∧ sb.V3 ≤ sb.V4)
    (i jo : Int) (h0 : 0 ≤ i) (hi : i ≤ toBlock) :
    ∀ j ∈ (submitBatch sb attempts i (MinInt64 (i + maxBlocks) toBlock) jo).1,
      ∀ V : Nat, (V = sb.V2 ∨ V = sb.V3 ∨ V = sb.V4) → j.from_ < (V : Int) → (V : Int) < j.to_ →
        ∃ W : Nat, (W = sb.V3 ∨ W = sb.V4) ∧ j.to_ = (W : Int) ∧ V < W ∧
          (W : Int) < (V : Int) + maxBlocks := by
  obtain ⟨h1, h2, h3, _⟩ := batch_end_bounds i toBlock maxBlocks hmb hi
  generalize MinInt64 (i + maxBlocks) toBlock = e at h1 h2 h3
  have c4 := split_cond_nonneg sb.V4 i e h0 h1 (by omega)
  have c3 := split_cond_nonneg sb.V3 i e h0 h1 (by omega)
  have c2 := split_cond_nonneg sb.V2 i e h0 h1 (by omega)
  intro j hj V hV hV1 hV2
  unfold submitBatch at hj
  by_cases k4 : sb.V4 ≤ toUint64 e ∧ toUint64 i < sb.V4
  · rw [if_pos k4] at hj
    have b4 := c4.mp k4
    have e4 : ofUint64 sb.V4 = sb.V4 := ofUint64_eq _ (by omega)
    simp only [List.mem_cons, List.mem_singleton, List.not_mem_nil, or_false] at hj
    rcases hj with rfl | rfl
    · simp only [NewFetcherJob, e4] at hV1 hV2 ⊢
      exact ⟨sb.V4, Or.inr rfl, rfl, by omega, by omega⟩
    · simp only [NewFetcherJob, e4] at hV1 hV2
      omega
  · rw [if_neg k4] at hj
    have n4 := fun h => k4 (c4.mpr h)
    by_cases k3 : sb.V3 ≤ toUint64 e ∧ toUint64 i < sb.V3
    · rw [if_pos k3] at hj
      have b3 := c3.mp k3
      have e3 : ofUint64 sb.V3 = sb.V3 := ofUint64_eq _ (by omega)
      simp only [List.mem_cons, List.mem_singleton, List.not_mem_nil, or_false] at hj
      rcases hj with rfl | rfl
      · simp only [NewFetcherJob, e3] at hV1 hV2 ⊢
        exact ⟨sb.V3, Or.inl rfl, rfl, by omega, by omega⟩
      · simp only [NewFetcherJob, e3] at hV1 hV2
        omega
    · rw [if_neg k3] at hj
      have n3 := fun h => k3 (c3.mpr h)
      by_cases k2 : sb.V2 ≤ toUint64 e ∧ toUint64 i < sb.V2
      · rw [if_pos k2] at hj
        have b2 := c2.mp k2
        have e2 : ofUint64 sb.V2 = sb.V2 := ofUint64_eq _ (by omega)
        simp only [List.mem_cons, List.mem_singleton, List.not_mem_nil, or_false] at hj
        rcases hj with rfl | rfl
        · simp only [NewFetcherJob, e2] at hV1 hV2
          omega
        · simp only [NewFetcherJob, e2] at hV1 hV2
          omega
      · rw [if_neg k2] at hj
        have n2 := fun h => k2 (c2.mpr h)
        simp only [List.mem_singleton] at hj
        subst hj
        simp only [NewFetcherJob] at hV1 hV2
        omega

/-- C3 (partition coverage). For a span with `0 ≤ from ≤ to`, `maxBlocks ≥ 1`
(block numbers for which `to + maxBlocks` is an `int64`) and any starting
blocks, the submitting loop terminates and the jobs it submits, in submission
order, form a chain: the first job starts at `from`, each job ends where the
next one starts, and the last job ends at `to`. The half-open ranges of two
different jobs share no block and a block lies in some job's range exactly
when it lies in `[from, to)`. -/
theorem partition_coverage (sb : StartingBlocks)
    (attempts fromBlock toBlock maxBlocks lastCompleted : Int)
    (h0 : 0 ≤ fromBlock) (hft : fromBlock ≤ toBlock) (hmb : 1 ≤ maxBlocks)
    (hov : toBlock + maxBlocks < 9223372036854775808) :
    (∃ fuel, (submitJobs sb attempts fromBlock toBlock maxBlocks lastCompleted fuel).isSome) ∧
    ∀ (fuel : Nat) (js : List FetcherJob) (jo : Int),
      submitJobs sb attempts fromBlock toBlock maxBlocks lastCompleted fuel = some (js, jo) →
      js.head?.map FetcherJob.from_ = some fromBlock ∧
      List.Chain' (fun x y : FetcherJob => x.to_ = y.from_) js ∧
      js.getLast?.map FetcherJob.to_ = some toBlock ∧
      List.Pairwise (fun x y : FetcherJob =>
        ∀ b : Int, ¬ ((x.from_ ≤ b ∧ b < x.to_) ∧ (y.from_ ≤ b ∧ b < y.to_))) js ∧
      ∀ b : Int, (∃ j ∈ js, j.from_ ≤ b ∧ b < j.to_) ↔ (fromBlock ≤ b ∧ b < toBlock) := by
  obtain ⟨hterm, hall⟩ := submitJobs_spec sb attempts fromBlock toBlock maxBlocks lastCompleted
    (by omega) hmb hov
  refine ⟨hterm, ?_⟩
  intro fuel js jo hrun
  have hd := hall fuel js jo hrun
  have hlink := Decomp_linked sb attempts toBlock maxBlocks hmb hov _ _ _ _ hd (by omega) hft
  have hne : js ≠ [] := Decomp_ne_nil sb attempts toBlock maxBlocks _ _ _ _ hd hft
  have hle := Decomp_from_le_to sb attempts toBlock maxBlocks hmb hov _ _ _ _ hd (by omega)
  obtain ⟨hhead, hchain, hlast⟩ := Linked_spec js _ _ hlink hne
  obtain ⟨hsorted, hin, _⟩ := Linked_sorted js _ _ hlink hle
  refine ⟨hhead, hchain, hlast, ?_, ?_⟩
  · refine hsorted.imp ?_
    intro x y hxy b hb
    omega
  · intro b
    constructor
    · rintro ⟨j, hj, hb1, hb2⟩
      have := hin j hj
      omega
    · rintro ⟨hb1, hb2⟩
      exact Linked_cover js _ _ b hlink hb1 hb2

/-- Witness of C3: the span `[100, 300)` with a boundary at 200 and batches of
1000 blocks. -/
theorem partition_coverage_witness :
    (∃ fuel, (submitJobs ⟨0, 0, 200⟩ 5 100 300 1000 0 fuel).isSome) ∧
    ∀ (fuel : Nat) (js : List FetcherJob) (jo : Int),
      submitJobs ⟨0, 0, 200⟩ 5 100 300 1000 0 fuel = some (js, jo) →
      js.head?.map FetcherJob.from_ = some 100 ∧
      List.Chain' (fun x y : FetcherJob => x.to_ = y.from_) js ∧
      js.getLast?.map FetcherJob.to_ = some 300 ∧
      List.Pairwise (fun x y : FetcherJob =>
        ∀ b : Int, ¬ ((x.from_ ≤ b ∧ b < x.to_) ∧ (y.from_ ≤ b ∧ b < y.to_))) js ∧
      ∀ b : Int, (∃ j ∈ js, j.from_ ≤ b ∧ b < j.to_) ↔ (100 ≤ b ∧ b < 300) :=
  partition_coverage ⟨0, 0, 200⟩ 5 100 300 1000 0 (by decide) (by decide) (by decide) (by decide)

/-- Counterexample to C3 as stated: for the span from 0 to `6 * 2^60` with
`maxBlocks = 5 * 2^60` the `int64` sum `i + maxBlocks` wraps in the second
iteration. The loop ends after 11 iterations with 11 jobs that still form a
chain from 0 to `6 * 2^60`, but the ranges are not disjoint and cover blocks
outside the span: block 0 lies in job 1, `[0, 5 * 2^60)`, and in job 4,
`[-2^60, 2^62)`, and block -1 lies in job 4. -/
theorem partition_coverage_counterexample :
    ((0 : Int) ≤ 0 ∧ (0 : Int) ≤ 6917529027641081856 ∧ (1 : Int) ≤ 5764607523034234880) ∧
    submitJobs ⟨0, 0, 0⟩ 3 0 6917529027641081856 5764607523034234880 0 11 =
      some ([⟨1, 0, 5764607523034234880, 3⟩,
             ⟨2, 5764607523034234880, -6917529027641081856, 3⟩,
             ⟨3, -6917529027641081856, -1152921504606846976, 3⟩,
             ⟨4, -1152921504606846976, 4611686018427387904, 3⟩,
             ⟨5, 4611686018427387904, -8070450532247928832, 3⟩,
             ⟨6, -8070450532247928832, -2305843009213693952, 3⟩,
             ⟨7, -2305843009213693952, 3458764513820540928, 3⟩,
             ⟨8, 3458764513820540928, -9223372036854775808, 3⟩,
             ⟨9, -9223372036854775808, -3458764513820540928, 3⟩,
             ⟨10, -3458764513820540928, 2305843009213693952, 3⟩,
             ⟨11, 2305843009213693952, 6917529027641081856, 3⟩], 11) ∧
    (((0 : Int) ≤ 0 ∧ (0 : Int) < 5764607523034234880) ∧
      ((-1152921504606846976 : Int) ≤ 0 ∧ (0 : Int) < 4611686018427387904)) ∧
    (((-1152921504606846976 : Int) ≤ -1 ∧ (-1 : Int) < 4611686018427387904) ∧ (-1 : Int) < 0) := by
  decide

/-- C4 (job order numbering). For a fresh pool, whose
`GetLastCompleteJobOrder` is 0, the submitting loop terminates on every span
of `int64` block numbers with `maxBlocks ≥ 1` (and `to + maxBlocks` an
`int64`), and the jobs it submits carry the orders 1, 2, ..., n in submission
order: the job at position `k` (counted from 0) has order `k + 1` and the
counter ends at `n`. A job with a smaller order lies to the left of a job
with a larger order: it ends no later than the other starts. -/
theorem job_order_numbering (sb : StartingBlocks)
    (attempts fromBlock toBlock maxBlocks maxWorkers : Int) (p : Pool)
    (hp : NewPool maxWorkers = some p)
    (hlo : -9223372036854775808 ≤ fromBlock) (hmb : 1 ≤ maxBlocks)
    (hov : toBlock + maxBlocks < 9223372036854775808) :
    (∃ fuel, (submitJobs sb attempts fromBlock toBlock maxBlocks
      p.GetLastCompleteJobOrder fuel).isSome) ∧
    ∀ (fuel : Nat) (js : List FetcherJob) (jo : Int),
      submitJobs sb attempts fromBlock toBlock maxBlocks p.GetLastCompleteJobOrder fuel
        = some (js, jo) →
      (∀ (k : Nat) (j : FetcherJob), js[k]? = some j → j.order = (k : Int) + 1) ∧
      jo = (js.length : Int) ∧
      ∀ a ∈ js, ∀ b ∈ js, a.order < b.order →
        a.to_ ≤ b.from_ ∧ a.from_ ≤ b.from_ ∧ a.to_ ≤ b.to_ := by
  have hfresh : p.GetLastCompleteJobOrder = 0 := by
    unfold NewPool at hp
    split_ifs at hp
    cases hp
    rfl
  rw [hfresh]
  obtain ⟨hterm, hall⟩ := submitJobs_spec sb attempts fromBlock toBlock maxBlocks 0 hlo hmb hov
  refine ⟨hterm, ?_⟩
  intro fuel js jo hrun
  have hd := hall fuel js jo hrun
  obtain ⟨hjo, hord⟩ := Decomp_orders sb attempts toBlock maxBlocks _ _ _ _ hd
  have hsorted := Decomp_sorted sb attempts toBlock maxBlocks hmb hov _ _ _ _ hd hlo
  have hle := Decomp_from_le_to sb attempts toBlock maxBlocks hmb hov _ _ _ _ hd hlo
  refine ⟨fun k j hj => by rw [hord k j hj]; omega, by omega, ?_⟩
  intro a ha b hb hab
  obtain ⟨ka, hka⟩ := List.mem_iff_getElem?.mp ha
  obtain ⟨kb, hkb⟩ := List.mem_iff_getElem?.mp hb
  have oa := hord ka a hka
  have ob := hord kb b hkb
  have hlt : ka < kb := by omega
  obtain ⟨hka1, hka2⟩ := List.getElem?_eq_some_iff.mp hka
  obtain ⟨hkb1, hkb2⟩ := List.getElem?_eq_some_iff.mp hkb
  have hrel := List.pairwise_iff_getElem.mp hsorted ka kb hka1 hkb1 hlt
  rw [hka2, hkb2] at hrel
  have h1 := hle a ha
  have h2 := hle b hb
  exact ⟨hrel, by omega, by omega⟩

/-- Witness of C4: a pool of 3 workers and the span `[0, 250]` in batches of
100 blocks. -/
theorem job_order_numbering_witness :
    (∃ fuel, (submitJobs ⟨0, 0, 0⟩ 5 0 250 100
      (Pool.GetLastCompleteJobOrder
        { workers := [.idle, .idle, .idle], closed := false, errCh := [], errCap := 3,
          lastCompletedJobOrder := 0, submitted := [], saveCalls := [], committed := [],
          received := [] }) fuel).isSome) ∧
    ∀ (fuel : Nat) (js : List FetcherJob) (jo : Int),
      submitJobs ⟨0, 0, 0⟩ 5 0 250 100
        (Pool.GetLastCompleteJobOrder
          { workers := [.idle, .idle, .idle], closed := false, errCh := [], errCap := 3,
            lastCompletedJobOrder := 0, submitted := [], saveCalls := [], committed := [],
            received := [] }) fuel = some (js, jo) →
      (∀ (k : Nat) (j : FetcherJob), js[k]? = some j → j.order = (k : Int) + 1) ∧
      jo = (js.length : Int) ∧
      ∀ a ∈ js, ∀ b ∈ js, a.order < b.order →
        a.to_ ≤ b.from_ ∧ a.from_ ≤ b.from_ ∧ a.to_ ≤ b.to_ :=
  job_order_numbering ⟨0, 0, 0⟩ 5 0 250 100 3 _ (by decide) (by decide) (by decide) (by decide)

/-- Counterexample to C4 as stated: on the span from 0 to `6 * 2^60` with
`maxBlocks = 5 * 2^60`, where the `int64` sum `i + maxBlocks` wraps, a fresh
pool gets 11 jobs with the orders 1 to 11, and the job of order 4 starts at
`-2^60`, to the left of the end `5 * 2^60` and of the start 0 of the job of
order 1. -/
theorem job_order_numbering_counterexample :
    ∃ (p : Pool) (js : List FetcherJob) (a b : FetcherJob),
      NewPool 2 = some p ∧
      submitJobs ⟨0, 0, 0⟩ 3 0 6917529027641081856 5764607523034234880
        p.GetLastCompleteJobOrder 11 = some (js, 11) ∧
      js[0]? = some a ∧ js[3]? = some b ∧ a.order = 1 ∧ b.order = 4 ∧ a.order < b.order ∧
      a.from_ = 0 ∧ a.to_ = 5764607523034234880 ∧ b.from_ = -1152921504606846976 ∧
      b.from_ < a.to_ ∧ b.from_ < a.from_ :=
  ⟨⟨List.replicate 2 WorkerState.idle, false, [], 2, 0, [], [], [], []⟩,
   [⟨1, 0, 5764607523034234880, 3⟩,
    ⟨2, 5764607523034234880, -6917529027641081856, 3⟩,
    ⟨3, -6917529027641081856, -1152921504606846976, 3⟩,
    ⟨4, -1152921504606846976, 4611686018427387904, 3⟩,
    ⟨5, 4611686018427387904, -8070450532247928832, 3⟩,
    ⟨6, -8070450532247928832, -2305843009213693952, 3⟩,
    ⟨7, -2305843009213693952, 3458764513820540928, 3⟩,
    ⟨8, 3458764513820540928, -9223372036854775808, 3⟩,
    ⟨9, -9223372036854775808, -3458764513820540928, 3⟩,
    ⟨10, -3458764513820540928, 2305843009213693952, 3⟩,
    ⟨11, 2305843009213693952, 6917529027641081856, 3⟩],
   ⟨1, 0, 5764607523034234880, 3⟩, ⟨4, -1152921504606846976, 4611686018427387904, 3⟩,
   by decide⟩

/-- C5 (no job spans a version boundary), as the code has it. For a span
with `0 ≤ from`, `maxBlocks ≥ 1` (and `to + maxBlocks` an `int64`) and
ascending starting blocks `V2 ≤ V3 ≤ V4`, the loop terminates; a batch is
split once, at the highest starting block inside it, so a submitted job
`[a, b)` has a starting block `V` with `a < V < b` only when `b` is a higher
starting block `W` of the same batch, `V < W < V + maxBlocks`. Hence, when
any two different starting blocks are at least `maxBlocks` apart, no
submitted job has a starting block strictly inside its range. -/
theorem no_job_spans_boundary (sb : StartingBlocks)
    (attempts fromBlock toBlock maxBlocks lastCompleted : Int)
    (h0 : 0 ≤ fromBlock) (hmb : 1 ≤ maxBlocks)
    (hov : toBlock + maxBlocks < 9223372036854775808)
    (hasc : sb.V2 ≤ sb.V3 ∧ sb.V3 ≤ sb.V4) :
    (∃ fuel, (submitJobs sb attempts fromBlock toBlock maxBlocks lastCompleted fuel).isSome) ∧
    ∀ (fuel : Nat) (js : List FetcherJob) (jo : Int),
      submitJobs sb attempts fromBlock toBlock maxBlocks lastCompleted fuel = some (js, jo) →
      (∀ j ∈ js, ∀ V : Nat, (V = sb.V2 ∨ V = sb.V3 ∨ V = sb.V4) →
        j.from_ < (V : Int) → (V : Int) < j.to_ →
        ∃ W : Nat, (W = sb.V3 ∨ W = sb.V4) ∧ j.to_ = (W : Int) ∧ V < W ∧
          (W : Int) < (V : Int) + maxBlocks) ∧
      (((sb.V2 = sb.V3 ∨ (sb.V2 : Int) + maxBlocks ≤ sb.V3) ∧
        (sb.V3 = sb.V4 ∨ (sb.V3 : Int) + maxBlocks ≤ sb.V4)) →
        ∀ j ∈ js, ∀ V : Nat, (V = sb.V2 ∨ V = sb.V3 ∨ V = sb.V4) →
          ¬ (j.from_ < (V : Int) ∧ (V : Int) < j.to_)) := by
  obtain ⟨hterm, hall⟩ := submitJobs_spec sb attempts fromBlock toBlock maxBlocks lastCompleted
    (by omega) hmb hov
  refine ⟨hterm, ?_⟩
  intro fuel js jo hrun
  have hd := hall fuel js jo hrun
  have key := Decomp_forall sb attempts toBlock maxBlocks 0 hmb _
    (fun i jo h1 h2 => submitBatch_boundaries sb attempts toBlock maxBlocks hmb hov hasc i jo h1 h2)
    _ _ _ _ hd h0
  refine ⟨key, ?_⟩
  intro hsep j hj V hV hin
  obtain ⟨W, hW, _, hVW, hWV⟩ := key j hj V hV hin.1 hin.2
  omega

/-- Witness of C5 as amended: starting blocks 150, 250 and 350 and the span
`[100, 400]` in batches of 100 blocks. -/
theorem no_job_spans_boundary_witness :
    (∃ fuel, (submitJobs ⟨150, 250, 350⟩ 5 100 400 100 0 fuel).isSome) ∧
    ∀ (fuel : Nat) (js : List FetcherJob) (jo : Int),
      submitJobs ⟨150, 250, 350⟩ 5 100 400 100 0 fuel = some (js, jo) →
      (∀ j ∈ js, ∀ V : Nat, (V = 150 ∨ V = 250 ∨ V = 350) →
        j.from_ < (V : Int) → (V : Int) < j.to_ →
        ∃ W : Nat, (W = 250 ∨ W = 350) ∧ j.to_ = (W : Int) ∧ V < W ∧
          (W : Int) < (V : Int) + 100) ∧
      ((((150 : Nat) = 250 ∨ ((150 : Nat) : Int) + 100 ≤ (250 : Nat)) ∧
        ((250 : Nat) = 350 ∨ ((250 : Nat) : Int) + 100 ≤ (350 : Nat))) →
        ∀ j ∈ js, ∀ V : Nat, (V = 150 ∨ V = 250 ∨ V = 350) →
          ¬ (j.from_ < (V : Int) ∧ (V : Int) < j.to_)) :=
  no_job_spans_boundary ⟨150, 250, 350⟩ 5 100 400 100 0 (by decide) (by decide) (by decide)
    (by decide)

/-- Counterexample to C5 as stated: with the ascending starting blocks 10, 20
and 30 and one batch `[0, 100)` (`maxBlocks = 200`), the loop splits at 30
only, and the job `[0, 30)` has the starting block 20 strictly inside. -/
theorem no_job_spans_boundary_counterexample :
    ∃ (js : List FetcherJob) (jo : Int),
      submitJobs ⟨10, 20, 30⟩ 5 0 100 200 0 1 = some (js, jo) ∧
      ∃ j ∈ js, j.from_ < ((20 : Nat) : Int) ∧ ((20 : Nat) : Int) < j.to_ :=
  ⟨[NewFetcherJob 1 0 30 5, NewFetcherJob 2 30 100 5], 2, by decide,
    NewFetcherJob 1 0 30 5, by simp, by decide⟩

/-- C6 (single-boundary split), as the code has it. When the whole span
`[from, to)` with `0 ≤ from` is one batch (`maxBlocks > to - from`, and
`to + maxBlocks` an `int64`), a starting block `V` lies strictly inside it
(`from < V < to`) and no other starting block lies in `(from, to]`, the loop
of a fresh pool submits exactly two jobs: `[from, V)` with order 1 and then
`[V, to)` with order 2. -/
theorem single_boundary_split (sb : StartingBlocks)
    (attempts fromBlock toBlock maxBlocks : Int) (V : Nat)
    (h0 : 0 ≤ fromBlock) (hmb : toBlock - fromBlock < maxBlocks)
    (hov : toBlock + maxBlocks < 9223372036854775808)
    (hV : V = sb.V2 ∨ V = sb.V3 ∨ V = sb.V4)
    (hin : fromBlock < (V : Int) ∧ (V : Int) < toBlock)
    (hone : ∀ W : Nat, (W = sb.V2 ∨ W = sb.V3 ∨ W = sb.V4) →
      fromBlock < (W : Int) → (W : Int) ≤ toBlock → W = V) :
    (∃ fuel, (submitJobs sb attempts fromBlock toBlock maxBlocks 0 fuel).isSome) ∧
    ∀ (fuel : Nat) (js : List FetcherJob) (jo : Int),
      submitJobs sb attempts fromBlock toBlock maxBlocks 0 fuel = some (js, jo) →
      js = [NewFetcherJob 1 fromBlock V attempts, NewFetcherJob 2 V toBlock attempts] ∧
      jo = 2 := by
  have hw : wrapInt64 (fromBlock + maxBlocks) = fromBlock + maxBlocks :=
    wrapInt64_eq _ (by omega) (by omega)
  have hmin : MinInt64 (fromBlock + maxBlocks) toBlock = toBlock := by
    unfold MinInt64; split_ifs <;> omega
  have c4 := split_cond_nonneg sb.V4 fromBlock toBlock h0 (by omega) (by omega)
  have c3 := split_cond_nonneg sb.V3 fromBlock toBlock h0 (by omega) (by omega)
  have c2 := split_cond_nonneg sb.V2 fromBlock toBlock h0 (by omega) (by omega)
  have eV : ofUint64 V = V := ofUint64_eq _ (by omega)
  have hbatch : submitBatch sb attempts fromBlock toBlock 0 =
      ([NewFetcherJob 1 fromBlock V attempts, NewFetcherJob 2 V toBlock attempts], 2) := by
    unfold submitBatch
    by_cases k4 : sb.V4 ≤ toUint64 toBlock ∧ toUint64 fromBlock < sb.V4
    · have b4 := c4.mp k4
      have := hone sb.V4 (Or.inr (Or.inr rfl)) b4.1 b4.2
      rw [if_pos k4, this, eV]; rfl
    · rw [if_neg k4]
      by_cases k3 : sb.V3 ≤ toUint64 toBlock ∧ toUint64 fromBlock < sb.V3
      · have b3 := c3.mp k3
        have := hone sb.V3 (Or.inr (Or.inl rfl)) b3.1 b3.2
        rw [if_pos k3, this, eV]; rfl
      · rw [if_neg k3]
        by_cases k2 : sb.V2 ≤ toUint64 toBlock ∧ toUint64 fromBlock < sb.V2
        · have b2 := c2.mp k2
          have := hone sb.V2 (Or.inl rfl) b2.1 b2.2
          rw [if_pos k2, this, eV]; rfl
        · exfalso
          rcases hV with rfl | rfl | rfl
          · exact k2 (c2.mpr ⟨hin.1, by omega⟩)
          · exact k3 (c3.mpr ⟨hin.1, by omega⟩)
          · exact k4 (c4.mpr ⟨hin.1, by omega⟩)
  have hrun : submitJobs sb attempts fromBlock toBlock maxBlocks 0 1 =
      some ([NewFetcherJob 1 fromBlock V attempts, NewFetcherJob 2 V toBlock attempts], 2) := by
    have h1 : fromBlock ≤ toBlock := by omega
    have h2 : ¬ fromBlock + maxBlocks ≤ toBlock := by omega
    simp only [submitJobs, submitLoop, h1, if_true, hw, hmin, hbatch, h2, if_false,
      List.nil_append]
  refine ⟨⟨1, by rw [hrun]; rfl⟩, ?_⟩
  intro fuel js jo h
  have := submitLoop_unique sb attempts toBlock maxBlocks _ _ _ _ _ _ _ h hrun
  cases this
  exact ⟨rfl, rfl⟩

/-- Witness of C6 as amended: `from = 100`, `to = 300`, a starting block at
200 and the other two at 0. -/
theorem single_boundary_split_witness :
    (∃ fuel, (submitJobs ⟨0, 0, 200⟩ 5 100 300 1000 0 fuel).isSome) ∧
    ∀ (fuel : Nat) (js : List FetcherJob) (jo : Int),
      submitJobs ⟨0, 0, 200⟩ 5 100 300 1000 0 fuel = some (js, jo) →
      js = [NewFetcherJob 1 100 (200 : Nat) 5, NewFetcherJob 2 (200 : Nat) 300 5] ∧ jo = 2 :=
  single_boundary_split ⟨0, 0, 200⟩ 5 100 300 1000 200 (by decide) (by decide) (by decide)
    (by decide) (by decide)
    (by
      intro W hW h1 h2
      rcases hW with rfl | rfl | rfl
      · exact absurd h1 (by decide)
      · exact absurd h1 (by decide)
      · rfl)

/-- Counterexample to C6 as stated: the span `[100, 300)` is one batch and 200
is the only starting block strictly inside it, but the starting block 300,
equal to `to`, is tested first: the loop submits `[100, 300)` and
`[300, 300)`, not `[100, 200)` and `[200, 300)`. -/
theorem single_boundary_split_counterexample :
    ∃ (js : List FetcherJob) (jo : Int),
      submitJobs ⟨0, 200, 300⟩ 5 100 300 1000 0 1 = some (js, jo) ∧
      js = [NewFetcherJob 1 100 300 5, NewFetcherJob 2 300 300 5] ∧
      js ≠ [NewFetcherJob 1 100 200 5, NewFetcherJob 2 200 300 5] :=
  ⟨[NewFetcherJob 1 100 300 5, NewFetcherJob 2 300 300 5], 2, by decide, rfl, by decide⟩

/-- C7 (non-empty ranges), as the code has it. For a span of `int64` block
numbers with `from ≤ to` and `maxBlocks ≥ 1` (and `to + maxBlocks` an
`int64`) the loop terminates and every submitted job has `from ≤ to`; a job
has an empty range `[x, x)` only when `x` is `to` (the last iteration, run for
`i = to`) or the `int64` value of a starting block (a batch that ends on
it). -/
theorem job_ranges_ordered (sb : StartingBlocks)
    (attempts fromBlock toBlock maxBlocks lastCompleted : Int)
    (hlo : -9223372036854775808 ≤ fromBlock) (hft : fromBlock ≤ toBlock) (hmb : 1 ≤ maxBlocks)
    (hov : toBlock + maxBlocks < 9223372036854775808) :
    (∃ fuel, (submitJobs sb attempts fromBlock toBlock maxBlocks lastCompleted fuel).isSome) ∧
    ∀ (fuel : Nat) (js : List FetcherJob) (jo : Int),
      submitJobs sb attempts fromBlock toBlock maxBlocks lastCompleted fuel = some (js, jo) →
      js ≠ [] ∧
      ∀ j ∈ js, j.from_ < j.to_ ∨ (j.from_ = j.to_ ∧ (j.to_ = toBlock ∨
        j.to_ = ofUint64 sb.V4 ∨ j.to_ = ofUint64 sb.V3 ∨ j.to_ = ofUint64 sb.V2)) := by
  obtain ⟨hterm, hall⟩ := submitJobs_spec sb attempts fromBlock toBlock maxBlocks lastCompleted
    hlo hmb hov
  refine ⟨hterm, ?_⟩
  intro fuel js jo hrun
  have hd := hall fuel js jo hrun
  refine ⟨?_, Decomp_forall sb attempts toBlock maxBlocks (-9223372036854775808) hmb _
    (fun i jo h1 h2 => submitBatch_ranges sb attempts toBlock maxBlocks hmb hov i jo h1 h2)
    _ _ _ _ hd hlo⟩
  exact Decomp_ne_nil sb attempts toBlock maxBlocks _ _ _ _ hd hft

/-- Witness of C7 as amended: the span `[0, 250]` in batches of 100 blocks. -/
theorem job_ranges_ordered_witness :
    (∃ fuel, (submitJobs ⟨0, 0, 0⟩ 5 0 250 100 0 fuel).isSome) ∧
    ∀ (fuel : Nat) (js : List FetcherJob) (jo : Int),
      submitJobs ⟨0, 0, 0⟩ 5 0 250 100 0 fuel = some (js, jo) →
      js ≠ [] ∧
      ∀ j ∈ js, j.from_ < j.to_ ∨ (j.from_ = j.to_ ∧ (j.to_ = 250 ∨
        j.to_ = ofUint64 0 ∨ j.to_ = ofUint64 0 ∨ j.to_ = ofUint64 0)) :=
  job_ranges_ordered ⟨0, 0, 0⟩ 5 0 250 100 0 (by decide) (by decide) (by decide) (by decide)

/-- Counterexample to C7 as stated: for the span from 0 to 100 in batches of
100 blocks the loop runs a second time with `i = 100 = to` and submits the
job `[100, 100)`, whose range is empty. -/
theorem job_ranges_ordered_counterexample :
    ∃ (js : List FetcherJob) (jo : Int),
      submitJobs ⟨0, 0, 0⟩ 5 0 100 100 0 2 = some (js, jo) ∧
      ∃ j ∈ js, ¬ (j.from_ < j.to_) :=
  ⟨[NewFetcherJob 1 0 100 5, NewFetcherJob 2 100 100 5], 2, by decide,
    NewFetcherJob 2 100 100 5, by simp, by decide⟩

/-! ## `float64` rounding and `requiredWorkers` -/

/-- Rounding to the nearest integer moves a number by at most one half. -/
theorem roundHalfEven_error (q : ℚ) :
    q - 1 / 2 ≤ (roundHalfEven q : ℚ) ∧ (roundHalfEven q : ℚ) ≤ q + 1 / 2 := by
  have h1 := Int.floor_le q
  have h2 := Int.lt_floor_add_one q
  unfold roundHalfEven
  split_ifs with a b c
  · constructor <;> linarith
  · push_cast; constructor <;> linarith
  · have : q - ⌊q⌋ = 1 / 2 := le_antisymm (not_lt.mp b) (not_lt.mp a)
    constructor <;> linarith
  · have : q - ⌊q⌋ = 1 / 2 := le_antisymm (not_lt.mp b) (not_lt.mp a)
    push_cast; constructor <;> linarith

/-- Rounding does not cross an integer. -/
theorem roundHalfEven_sandwich (q : ℚ) (N : Int) :
    ((N : ℚ) ≤ q → N ≤ roundHalfEven q) ∧ (q ≤ (N : ℚ) → roundHalfEven q ≤ N) := by
  have h1 := Int.floor_le q
  have h2 := Int.lt_floor_add_one q
  constructor
  · intro h
    have hf : N ≤ ⌊q⌋ := Int.le_floor.mpr h
    unfold roundHalfEven
    split_ifs <;> omega
  · intro h
    by_cases hq : q = (N : ℚ)
    · have hf : ⌊q⌋ = N := by rw [hq]; exact Int.floor_intCast N
      have hd : q - ⌊q⌋ < 1 / 2 := by rw [hf, hq]; norm_num
      unfold roundHalfEven
      rw [if_pos hd, hf]
    · have hlt : q < (N : ℚ) := lt_of_le_of_ne h hq
      have hf : ⌊q⌋ < N := Int.floor_lt.mpr hlt
      unfold roundHalfEven
      split_ifs <;> omega

/-- The binade of a positive rational. -/
theorem log2_bounds (q : ℚ) (hq : 0 < q) :
    (2 : ℚ) ^ Int.log 2 |q| ≤ q ∧ q < (2 : ℚ) ^ (Int.log 2 |q| + 1) := by
  rw [abs_of_pos hq]
  have h1 := Int.zpow_log_le_self (b := 2) (r := q) (by norm_num) hq
  have h2 := Int.lt_zpow_succ_log_self (b := 2) (by norm_num) q
  simp only [Nat.cast_ofNat] at h1 h2
  exact ⟨h1, h2⟩

/-- The rounding error of `roundFloat64` on a positive rational is at most
half the spacing of its binade, and the result stays in the closed binade. -/
theorem roundFloat64_pos (q : ℚ) (hq : 0 < q) :
    q - (2 : ℚ) ^ (Int.log 2 |q| - 53) ≤ roundFloat64 q ∧
    roundFloat64 q ≤ q + (2 : ℚ) ^ (Int.log 2 |q| - 53) ∧
    (2 : ℚ) ^ Int.log 2 |q| ≤ roundFloat64 q ∧
    roundFloat64 q ≤ (2 : ℚ) ^ (Int.log 2 |q| + 1) := by
  obtain ⟨hb1, hb2⟩ := log2_bounds q hq
  have hne : q ≠ 0 := ne_of_gt hq
  have hval : roundFloat64 q = (roundHalfEven (q / (2 : ℚ) ^ (Int.log 2 |q| - 52)) : ℚ) *
      (2 : ℚ) ^ (Int.log 2 |q| - 52) := by
    unfold roundFloat64; rw [if_neg hne]
  generalize Int.log 2 |q| = e at hb1 hb2 hval ⊢
  have hu : (0 : ℚ) < (2 : ℚ) ^ (e - 52) := zpow_pos (by norm_num) _
  have hhalf : (2 : ℚ) ^ (e - 53) = (2 : ℚ) ^ (e - 52) / 2 := by
    rw [show e - 53 = (e - 52) - 1 by ring, zpow_sub₀ (by norm_num : (2 : ℚ) ≠ 0), zpow_one]
  have hlow : (2 : ℚ) ^ e = 4503599627370496 * (2 : ℚ) ^ (e - 52) := by
    rw [show (4503599627370496 : ℚ) = (2 : ℚ) ^ (52 : ℤ) by norm_num,
      ← zpow_add₀ (by norm_num : (2 : ℚ) ≠ 0)]
    congr 1; ring
  have hhigh : (2 : ℚ) ^ (e + 1) = 9007199254740992 * (2 : ℚ) ^ (e - 52) := by
    rw [show (9007199254740992 : ℚ) = (2 : ℚ) ^ (53 : ℤ) by norm_num,
      ← zpow_add₀ (by norm_num : (2 : ℚ) ≠ 0)]
    congr 1; ring
  obtain ⟨e1, e2⟩ := roundHalfEven_error (q / (2 : ℚ) ^ (e - 52))
  obtain ⟨s1, _⟩ := roundHalfEven_sandwich (q / (2 : ℚ) ^ (e - 52)) 4503599627370496
  obtain ⟨_, s2⟩ := roundHalfEven_sandwich (q / (2 : ℚ) ^ (e - 52)) 9007199254740992
  have m1 : ((4503599627370496 : Int) : ℚ) ≤ q / (2 : ℚ) ^ (e - 52) := by
    rw [le_div_iff₀ hu]; push_cast; rw [← hlow]; exact hb1
  have m2 : q / (2 : ℚ) ^ (e - 52) ≤ ((9007199254740992 : Int) : ℚ) := by
    rw [div_le_iff₀ hu]; push_cast; rw [← hhigh]; exact le_of_lt hb2
  have r1 : ((4503599627370496 : Int) : ℚ) ≤ (roundHalfEven (q / (2 : ℚ) ^ (e - 52)) : ℚ) :=
    Int.cast_le.mpr (s1 m1)
  have r2 : (roundHalfEven (q / (2 : ℚ) ^ (e - 52)) : ℚ) ≤ ((9007199254740992 : Int) : ℚ) :=
    Int.cast_le.mpr (s2 m2)
  push_cast at r1 r2
  have hq' : q = q / (2 : ℚ) ^ (e - 52) * (2 : ℚ) ^ (e - 52) := by
    field_simp
  rw [hval, hhalf, hlow, hhigh]
  refine ⟨?_, ?_, ?_, ?_⟩
  · nlinarith
  · nlinarith
  · exact mul_le_mul_of_nonneg_right r1 (le_of_lt hu)
  · exact mul_le_mul_of_nonneg_right r2 (le_of_lt hu)

/-- An integer from 1 to `2^53 - 1` is a `float64`. -/
theorem roundFloat64_int (n : Int) (h1 : 1 ≤ n) (h2 : n < 9007199254740992) :
    roundFloat64 (n : ℚ) = n := by
  have hq : (0 : ℚ) < (n : ℚ) := by exact_mod_cast (by omega : 0 < n)
  obtain ⟨hb1, hb2⟩ := log2_bounds (n : ℚ) hq
  have hne : (n : ℚ) ≠ 0 := ne_of_gt hq
  have hval : roundFloat64 (n : ℚ) =
      (roundHalfEven ((n : ℚ) / (2 : ℚ) ^ (Int.log 2 |(n : ℚ)| - 52)) : ℚ) *
      (2 : ℚ) ^ (Int.log 2 |(n : ℚ)| - 52) := by
    unfold roundFloat64; rw [if_neg hne]
  generalize Int.log 2 |(n : ℚ)| = e at hb1 hb2 hval ⊢
  have hu : (0 : ℚ) < (2 : ℚ) ^ (e - 52) := zpow_pos (by norm_num) _
  have he1 : 0 ≤ e := by
    by_contra hneg
    have : (2 : ℚ) ^ (e + 1) ≤ (2 : ℚ) ^ (0 : ℤ) :=
      zpow_le_zpow_right₀ (by norm_num) (by omega)
    have h1' : (1 : ℚ) ≤ (n : ℚ) := by exact_mod_cast h1
    rw [zpow_zero] at this
    linarith
  have he2 : e ≤ 52 := by
    by_contra hbig
    have : (2 : ℚ) ^ (53 : ℤ) ≤ (2 : ℚ) ^ e := zpow_le_zpow_right₀ (by norm_num) (by omega)
    have h2' : (n : ℚ) < 9007199254740992 := by exact_mod_cast h2
    have h53 : (2 : ℚ) ^ (53 : ℤ) = 9007199254740992 := by norm_num
    linarith
  have hm : (n : ℚ) / (2 : ℚ) ^ (e - 52) = ((n * 2 ^ (52 - e).toNat : Int) : ℚ) := by
    rw [div_eq_iff (ne_of_gt hu)]
    push_cast
    rw [mul_assoc, ← zpow_natCast, ← zpow_add₀ (by norm_num : (2 : ℚ) ≠ 0)]
    have : ((52 - e).toNat : ℤ) + (e - 52) = 0 := by omega
    rw [this, zpow_zero, mul_one]
  have hr : roundHalfEven ((n : ℚ) / (2 : ℚ) ^ (e - 52)) = n * 2 ^ (52 - e).toNat := by
    obtain ⟨s1, s2⟩ := roundHalfEven_sandwich ((n : ℚ) / (2 : ℚ) ^ (e - 52))
      (n * 2 ^ (52 - e).toNat)
    exact le_antisymm (s2 (le_of_eq hm)) (s1 (le_of_eq hm.symm))
  rw [hval, hr, ← hm]
  field_simp

/-- The `float64` quotient of a width below `2^53` by a positive `maxBlocks`
has the same ceiling as the exact quotient. -/
theorem ceil_float64_div (S mb : Int) (hS1 : 1 ≤ S) (hS2 : S < 9007199254740992)
    (hmb : 1 ≤ mb) :
    ⌈roundFloat64 (roundFloat64 (S : ℚ) / roundFloat64 (mb : ℚ))⌉ = ⌈(S : ℚ) / (mb : ℚ)⌉ := by
  have hSq : (0 : ℚ) < (S : ℚ) := by exact_mod_cast (by omega : 0 < S)
  have hmq : (0 : ℚ) < (mb : ℚ) := by exact_mod_cast (by omega : 0 < mb)
  have hS2q : (S : ℚ) < 9007199254740992 := by exact_mod_cast hS2
  rw [roundFloat64_int S hS1 hS2]
  by_cases hsmall : mb < 9007199254740992
  · rw [roundFloat64_int mb hmb hsmall]
    have hq : (0 : ℚ) < (S : ℚ) / (mb : ℚ) := div_pos hSq hmq
    have hk1 := Int.ceil_lt_add_one ((S : ℚ) / (mb : ℚ))
    have hk2 := Int.le_ceil ((S : ℚ) / (mb : ℚ))
    generalize hk : ⌈(S : ℚ) / (mb : ℚ)⌉ = k at hk1 hk2
    have hkpos : 1 ≤ k := by
      have : (0 : ℚ) < (k : ℚ) := lt_of_lt_of_le hq hk2
      have : (0 : Int) < k := by exact_mod_cast this
      omega
    have hqS : (S : ℚ) / (mb : ℚ) ≤ (S : ℚ) := by
      rw [div_le_iff₀ hmq]
      have : (1 : ℚ) ≤ (mb : ℚ) := by exact_mod_cast hmb
      nlinarith
    by_cases hint : (S : ℚ) / (mb : ℚ) = (k : ℚ)
    · have hkS : k < 9007199254740992 := by
        have : (k : ℚ) < 9007199254740992 := by rw [← hint]; linarith
        exact_mod_cast this
      rw [hint, roundFloat64_int k hkpos hkS]
      exact Int.ceil_intCast k
    · have hlt : (S : ℚ) / (mb : ℚ) < (k : ℚ) := lt_of_le_of_ne hk2 hint
      have i1 : S < k * mb := by
        have : (S : ℚ) < (k : ℚ) * (mb : ℚ) := (div_lt_iff₀ hmq).mp hlt
        exact_mod_cast this
      have i2 : (k - 1) * mb < S := by
        have : ((k : ℚ) - 1) < (S : ℚ) / (mb : ℚ) := by linarith
        have : ((k : ℚ) - 1) * (mb : ℚ) < (S : ℚ) := (lt_div_iff₀ hmq).mp this
        exact_mod_cast this
      have j1 : (S : ℚ) + 1 ≤ (k : ℚ) * (mb : ℚ) := by exact_mod_cast (by omega : S + 1 ≤ k * mb)
      have j2 : ((k : ℚ) - 1) * (mb : ℚ) + 1 ≤ (S : ℚ) := by
        exact_mod_cast (by omega : (k - 1) * mb + 1 ≤ S)
      have g1 : (S : ℚ) / (mb : ℚ) + 1 / (mb : ℚ) ≤ (k : ℚ) := by
        rw [← add_div, div_le_iff₀ hmq]; exact j1
      have g2 : ((k : ℚ) - 1) + 1 / (mb : ℚ) ≤ (S : ℚ) / (mb : ℚ) := by
        rw [le_div_iff₀ hmq, add_mul, one_div, inv_mul_cancel₀ (ne_of_gt hmq)]; exact j2
      obtain ⟨f1, f2, _, _⟩ := roundFloat64_pos _ hq
      obtain ⟨hb1, _⟩ := log2_bounds _ hq
      generalize Int.log 2 |(S : ℚ) / (mb : ℚ)| = e at f1 f2 hb1
      have hhalf : (2 : ℚ) ^ (e - 53) < 1 / (mb : ℚ) := by
        rw [lt_div_iff₀ hmq, zpow_sub₀ (by norm_num : (2 : ℚ) ≠ 0)]
        have h53 : (2 : ℚ) ^ (53 : ℤ) = 9007199254740992 := by norm_num
        rw [h53, div_mul_eq_mul_div, div_lt_one (by norm_num)]
        have : (2 : ℚ) ^ e * (mb : ℚ) ≤ (S : ℚ) := by
          have := mul_le_mul_of_nonneg_right hb1 (le_of_lt hmq)
          rwa [div_mul_cancel₀ _ (ne_of_gt hmq)] at this
        linarith
      rw [Int.ceil_eq_iff]
      constructor
      · linarith
      · linarith
  · have hbig : (9007199254740992 : ℚ) ≤ (mb : ℚ) := by exact_mod_cast (not_lt.mp hsmall)
    obtain ⟨_, _, fb, _⟩ := roundFloat64_pos _ hmq
    obtain ⟨_, hb2⟩ := log2_bounds _ hmq
    generalize Int.log 2 |(mb : ℚ)| = e at fb hb2
    have he : 53 ≤ e := by
      by_contra hlt
      have : (2 : ℚ) ^ (e + 1) ≤ (2 : ℚ) ^ (53 : ℤ) := zpow_le_zpow_right₀ (by norm_num) (by omega)
      have h53 : (2 : ℚ) ^ (53 : ℤ) = 9007199254740992 := by norm_num
      linarith
    have hb : (9007199254740992 : ℚ) ≤ roundFloat64 (mb : ℚ) := by
      have : (2 : ℚ) ^ (53 : ℤ) ≤ (2 : ℚ) ^ e := zpow_le_zpow_right₀ (by norm_num) he
      have h53 : (2 : ℚ) ^ (53 : ℤ) = 9007199254740992 := by norm_num
      linarith
    have hbpos : (0 : ℚ) < roundFloat64 (mb : ℚ) := by linarith
    have hq : (0 : ℚ) < (S : ℚ) / roundFloat64 (mb : ℚ) := div_pos hSq hbpos
    have hq1 : (S : ℚ) / roundFloat64 (mb : ℚ) < 1 := by
      rw [div_lt_one hbpos]; linarith
    obtain ⟨_, _, f3, f4⟩ := roundFloat64_pos _ hq
    obtain ⟨hc1, _⟩ := log2_bounds _ hq
    generalize Int.log 2 |(S : ℚ) / roundFloat64 (mb : ℚ)| = e' at f3 f4 hc1
    have he' : e' + 1 ≤ 0 := by
      by_contra hpos
      have : (2 : ℚ) ^ (0 : ℤ) ≤ (2 : ℚ) ^ e' := zpow_le_zpow_right₀ (by norm_num) (by omega)
      rw [zpow_zero] at this
      linarith
    have hle1 : (2 : ℚ) ^ (e' + 1) ≤ 1 := by
      have : (2 : ℚ) ^ (e' + 1) ≤ (2 : ℚ) ^ (0 : ℤ) := zpow_le_zpow_right₀ (by norm_num) he'
      rwa [zpow_zero] at this
    have hpos : (0 : ℚ) < (2 : ℚ) ^ e' := zpow_pos (by norm_num) _
    have l1 : ⌈roundFloat64 ((S : ℚ) / roundFloat64 (mb : ℚ))⌉ = 1 := by
      rw [Int.ceil_eq_iff]
      constructor
      · push_cast; linarith
      · linarith
    have l2 : ⌈(S : ℚ) / (mb : ℚ)⌉ = 1 := by
      rw [Int.ceil_eq_iff]
      constructor
      · push_cast
        have := div_pos hSq hmq
        linarith
      · push_cast
        rw [div_le_one hmq]; linarith
    rw [l1, l2]

/-- The Go function on a span whose width is below `2^53`: the ceiling of the
exact quotient, capped at `maxWorkers`. -/
theorem requiredWorkers_eq (fromBlock toBlock maxBlocks maxWorkers : Int)
    (hft : fromBlock ≤ toBlock) (hexact : toBlock - fromBlock + 1 < 9007199254740992)
    (hmb : 1 ≤ maxBlocks) :
    requiredWorkers fromBlock toBlock maxBlocks maxWorkers =
      some (min ⌈((toBlock - fromBlock + 1 : Int) : ℚ) / (maxBlocks : ℚ)⌉ maxWorkers) := by
  have hw : wrapInt64 (wrapInt64 (wrapInt64 toBlock - wrapInt64 fromBlock) + 1) =
      toBlock - fromBlock + 1 := by
    unfold wrapInt64; omega
  have hc := ceil_float64_div (toBlock - fromBlock + 1) maxBlocks (by omega) hexact hmb
  have hSq : (0 : ℚ) < ((toBlock - fromBlock + 1 : Int) : ℚ) := by
    exact_mod_cast (by omega : 0 < toBlock - fromBlock + 1)
  have hmq : (1 : ℚ) ≤ (maxBlocks : ℚ) := by exact_mod_cast hmb
  have hk1 : 1 ≤ ⌈((toBlock - fromBlock + 1 : Int) : ℚ) / (maxBlocks : ℚ)⌉ := by
    have : (0 : ℚ) < ((toBlock - fromBlock + 1 : Int) : ℚ) / (maxBlocks : ℚ) :=
      div_pos hSq (by linarith)
    have := Int.ceil_pos.mpr this
    omega
  have hk2 : ⌈((toBlock - fromBlock + 1 : Int) : ℚ) / (maxBlocks : ℚ)⌉ ≤ toBlock - fromBlock + 1 := by
    apply Int.ceil_le.mpr
    rw [div_le_iff₀ (by linarith)]
    nlinarith
  unfold requiredWorkers
  rw [if_neg (by omega)]
  simp only [hw, hc]
  rw [if_pos ⟨by omega, by omega⟩]
  congr 1
  rcases lt_or_le ⌈((toBlock - fromBlock + 1 : Int) : ℚ) / (maxBlocks : ℚ)⌉ maxWorkers with h | h
  · rw [if_pos h, min_eq_left (le_of_lt h)]
  · rw [if_neg (not_lt.mpr h), min_eq_right h]

/-- C8 (`requiredWorkers` formula). For block numbers `from ≤ to` whose
width `to - from + 1` is below `2^53` (every such integer is a `float64`),
`maxBlocks ≥ 1` and any `maxWorkers`, the Go function, computed with
`float64` division and `math.Ceil`, returns
`min(ceil((to - from + 1) / maxBlocks), maxWorkers)` with the quotient and
the ceiling taken in exact rational arithmetic; so it returns fewer than
`maxWorkers` exactly when that number of jobs is smaller than
`maxWorkers`. -/
theorem requiredWorkers_formula (fromBlock toBlock maxBlocks maxWorkers : Int)
    (hft : fromBlock ≤ toBlock) (hexact : toBlock - fromBlock + 1 < 9007199254740992)
    (hmb : 1 ≤ maxBlocks) :
    requiredWorkers fromBlock toBlock maxBlocks maxWorkers =
      some (min ⌈((toBlock - fromBlock + 1 : Int) : ℚ) / (maxBlocks : ℚ)⌉ maxWorkers) ∧
    ∀ r : Int, requiredWorkers fromBlock toBlock maxBlocks maxWorkers = some r →
      (r < maxWorkers ↔ ⌈((toBlock - fromBlock + 1 : Int) : ℚ) / (maxBlocks : ℚ)⌉ < maxWorkers) := by
  have h := requiredWorkers_eq fromBlock toBlock maxBlocks maxWorkers hft hexact hmb
  refine ⟨h, ?_⟩
  intro r hr
  rw [h] at hr
  have hr' := Option.some.inj hr
  rw [← hr']
  exact min_lt_iff.trans ⟨fun h => h.resolve_right (lt_irrefl _), Or.inl⟩

/-- Witness of C8: `requiredWorkers(1, 250, 100, 5) = 3` and
`requiredWorkers(1, 1000, 100, 5) = 5`. -/
theorem requiredWorkers_formula_witness :
    requiredWorkers 1 250 100 5 = some 3 ∧ requiredWorkers 1 1000 100 5 = some 5 := by
  have h1 := (requiredWorkers_formula 1 250 100 5 (by decide) (by decide) (by decide)).1
  have h2 := (requiredWorkers_formula 1 1000 100 5 (by decide) (by decide) (by decide)).1
  have c1 : ⌈((250 - 1 + 1 : Int) : ℚ) / ((100 : Int) : ℚ)⌉ = 3 := by
    rw [Int.ceil_eq_iff]; norm_num
  have c2 : ⌈((1000 - 1 + 1 : Int) : ℚ) / ((100 : Int) : ℚ)⌉ = 10 := by
    rw [Int.ceil_eq_iff]; norm_num
  rw [c1] at h1
  rw [c2] at h2
  exact ⟨h1, h2⟩

/-- The number of submitted jobs against the number `b` of batches of the
span, `(b - 1) * maxBlocks ≤ toBlock - i < b * maxBlocks`: every batch gives
one or two jobs. -/
theorem Decomp_length (sb : StartingBlocks) (attempts toBlock maxBlocks : Int)
    (hmb : 1 ≤ maxBlocks) (i jo jo2 : Int) (js : List FetcherJob)
    (h : Decomp sb attempts toBlock maxBlocks i jo js jo2) :
    ∀ b : Int, i ≤ toBlock → (b - 1) * maxBlocks ≤ toBlock - i → toBlock - i < b * maxBlocks →
      b ≤ (js.length : Int) ∧ (js.length : Int) ≤ 2 * b := by
  induction h with
  | done i jo h => intro b hi; omega
  | batch i jo rest jo2 hi hrest ih =>
    intro b _ hb1 hb2
    obtain ⟨l1, l2⟩ := submitBatch_length sb attempts i (MinInt64 (i + maxBlocks) toBlock) jo
    rw [List.length_append]
    push_cast
    by_cases hnext : i + maxBlocks ≤ toBlock
    · have e1 : (b - 1 - 1) * maxBlocks = (b - 1) * maxBlocks - maxBlocks := by ring
      have e2 : (b - 1) * maxBlocks = b * maxBlocks - maxBlocks := by ring
      obtain ⟨r1, r2⟩ := ih (b - 1) hnext (by rw [e1]; omega) (by rw [e2]; omega)
      constructor <;> omega
    · have hnil := (Decomp_done sb attempts toBlock maxBlocks _ _ _ _ hrest (by omega)).1
      have hb : b = 1 := by
        have u1 : b < 2 := by
          by_contra hge
          have : maxBlocks ≤ (b - 1) * maxBlocks := by nlinarith
          omega
        have u2 : 0 < b := by
          by_contra hle
          have : b * maxBlocks ≤ 0 := by nlinarith
          omega
        omega
      rw [hnil, hb]
      simp only [List.length_nil]
      constructor <;> omega

/-- The number of batches of a span is the ceiling that `requiredWorkers`
computes. -/
theorem batches_eq_ceil (fromBlock toBlock maxBlocks : Int) (hmb : 1 ≤ maxBlocks) :
    (⌈((toBlock - fromBlock + 1 : Int) : ℚ) / (maxBlocks : ℚ)⌉ - 1) * maxBlocks
      ≤ toBlock - fromBlock ∧
    toBlock - fromBlock < ⌈((toBlock - fromBlock + 1 : Int) : ℚ) / (maxBlocks : ℚ)⌉ * maxBlocks := by
  have hmq : (0 : ℚ) < (maxBlocks : ℚ) := by exact_mod_cast (by omega : 0 < maxBlocks)
  have h1 := Int.ceil_lt_add_one (((toBlock - fromBlock + 1 : Int) : ℚ) / (maxBlocks : ℚ))
  have h2 := Int.le_ceil (((toBlock - fromBlock + 1 : Int) : ℚ) / (maxBlocks : ℚ))
  generalize ⌈((toBlock - fromBlock + 1 : Int) : ℚ) / (maxBlocks : ℚ)⌉ = b at h1 h2
  rw [div_le_iff₀ hmq] at h2
  have h1' : ((b : ℚ) - 1) * (maxBlocks : ℚ) < ((toBlock - fromBlock + 1 : Int) : ℚ) := by
    rw [← lt_div_iff₀ hmq]; linarith
  have a1 : (b - 1) * maxBlocks < toBlock - fromBlock + 1 := by exact_mod_cast h1'
  have a2 : toBlock - fromBlock + 1 ≤ b * maxBlocks := by exact_mod_cast h2
  constructor <;> omega

/-- `requiredWorkers` never exceeds the number of jobs the loop submits: it is
`min(b, maxWorkers)` for the number `b` of batches, and the loop submits
between `b` and `2 * b` jobs. -/
theorem requiredWorkers_le_jobs (sb : StartingBlocks)
    (attempts fromBlock toBlock maxBlocks maxWorkers lastCompleted : Int)
    (hlo : -9223372036854775808 ≤ fromBlock) (hft : fromBlock ≤ toBlock)
    (hexact : toBlock - fromBlock + 1 < 9007199254740992) (hmb : 1 ≤ maxBlocks)
    (hov : toBlock + maxBlocks < 9223372036854775808) :
    ∃ b : Int, requiredWorkers fromBlock toBlock maxBlocks maxWorkers = some (min b maxWorkers) ∧
      ∀ (fuel : Nat) (js : List FetcherJob) (jo : Int),
        submitJobs sb attempts fromBlock toBlock maxBlocks lastCompleted fuel = some (js, jo) →
        b ≤ (js.length : Int) ∧ (js.length : Int) ≤ 2 * b := by
  refine ⟨_, requiredWorkers_eq fromBlock toBlock maxBlocks maxWorkers hft hexact hmb, ?_⟩
  intro fuel js jo hrun
  have hd := (submitJobs_spec sb attempts fromBlock toBlock maxBlocks lastCompleted hlo hmb hov).2
    fuel js jo hrun
  obtain ⟨c1, c2⟩ := batches_eq_ceil fromBlock toBlock maxBlocks hmb
  exact Decomp_length sb attempts toBlock maxBlocks hmb _ _ _ _ hd _ hft c1 c2

/-- C9 (pool sizing against the real job count), the failing input: for the
span from 100 to 300 with `maxBlocks = 1000`, `maxWorkers = 5` and a
starting block at 200, `requiredWorkers` returns 1 while the loop submits the
two jobs `[100, 200)` and `[200, 300)`, so `min(n, maxWorkers) = 2`. -/
theorem pool_sizing_split_batch :
    requiredWorkers 100 300 1000 5 = some 1 ∧
    ∃ (js : List FetcherJob) (jo : Int),
      submitJobs ⟨0, 0, 200⟩ 5 100 300 1000 0 1 = some (js, jo) ∧
      js = [NewFetcherJob 1 100 200 5, NewFetcherJob 2 200 300 5] ∧
      min (js.length : Int) 5 = 2 := by
  refine ⟨?_, [NewFetcherJob 1 100 200 5, NewFetcherJob 2 200 300 5], 2, by decide, rfl,
    by decide⟩
  have h := requiredWorkers_eq 100 300 1000 5 (by decide) (by decide) (by decide)
  have c : ⌈((300 - 100 + 1 : Int) : ℚ) / ((1000 : Int) : ℚ)⌉ = 1 := by
    rw [Int.ceil_eq_iff]; norm_num
  rw [c] at h
  exact h

/-! ## `retry` -/

/-- The loop of `retry` entered after `c` failed calls, when the first
successful call is the `k`-th and enough iterations are left to reach it. -/
theorem retryLoop_succeed {σ : Type} (fn : ExecuteJob σ) (world : σ) (k : Nat)
    (hok : (tryOutcome fn world k).2 = none) :
    ∀ (n : Nat) (st : RetryRun σ) (c : Nat), st.world = worldAfter fn world c → st.calls = c →
      c < k → k ≤ c + n →
      (∀ m : Nat, c < m → m < k → (tryOutcome fn world m).2 ≠ none) →
      (retryLoop fn n st).calls = k ∧
      (retryLoop fn n st).result = (tryOutcome fn world k).1 ∧
      (retryLoop fn n st).err = none ∧
      (retryLoop fn n st).world = worldAfter fn world k ∧
      (retryLoop fn n st).sleeps = st.sleeps + (k - 1 - c) := by
  intro n
  induction n with
  | zero => intro st c _ _ h1 h2; omega
  | succ n ih =>
    intro st c hw hc h1 h2 hfail
    have hout : tryOutcome fn world (c + 1) = (fn st.world).1 := by
      simp only [tryOutcome, Nat.add_sub_cancel, hw]
    by_cases hk : c + 1 = k
    · rw [← hk, hout] at hok
      have hwk : worldAfter fn world k = (fn st.world).2 := by
        rw [← hk, hw]; rfl
      have hr : retryLoop fn (n + 1) st =
          ⟨(fn st.world).1.1, none, (fn st.world).2, st.calls + 1, st.sleeps⟩ := by
        simp only [retryLoop, hok]
      rw [hr]
      refine ⟨by simp only; omega, ?_, rfl, hwk.symm, by simp only; omega⟩
      rw [← hk, hout]
    · have hf := hfail (c + 1) (by omega) (by omega)
      rw [hout] at hf
      obtain ⟨e, he⟩ := Option.ne_none_iff_exists'.mp hf
      have hr : retryLoop fn (n + 1) st = retryLoop fn n
          ⟨(fn st.world).1.1, some e, (fn st.world).2, st.calls + 1, st.sleeps + 1⟩ := by
        simp only [retryLoop, he]
      rw [hr]
      have := ih ⟨(fn st.world).1.1, some e, (fn st.world).2, st.calls + 1, st.sleeps + 1⟩ (c + 1)
        (by rw [hw]; rfl) (by simp only; omega) (by omega) (by omega)
        (fun m hm1 hm2 => hfail m (by omega) hm2)
      refine ⟨this.1, this.2.1, this.2.2.1, this.2.2.2.1, ?_⟩
      rw [this.2.2.2.2]
      simp only
      omega

/-- C10 (retry then succeed). If the first successful call of the fetch
function is the `k`-th, with `1 ≤ k ≤ attempts`, then `retry` calls the
function exactly `k` times, returns the records of the `k`-th call with a
`nil` error, and leaves the world as it is right after that call (no later
call is made). -/
theorem retry_then_succeed {σ : Type} (fn : ExecuteJob σ) (world : σ) (attempts : Int) (k : Nat)
    (hk1 : 1 ≤ k) (hk2 : (k : Int) ≤ attempts)
    (hfail : ∀ m : Nat, 1 ≤ m → m < k → (tryOutcome fn world m).2 ≠ none)
    (hok : (tryOutcome fn world k).2 = none) :
    (retry fn attempts world).calls = k ∧
    (retry fn attempts world).result = (tryOutcome fn world k).1 ∧
    (retry fn attempts world).err = none ∧
    (retry fn attempts world).world = worldAfter fn world k := by
  have := retryLoop_succeed fn world k hok attempts.toNat
    ⟨[], none, world, 0, 0⟩ 0 rfl rfl
    (by omega) (by omega) (fun m hm1 hm2 => hfail m (by omega) hm2)
  exact ⟨this.1, this.2.1, this.2.2.1, this.2.2.2.1⟩

/-- Witness of C10: a fetch that fails twice and then succeeds, with
`attempts = 3`: three calls, the records of the third call, no error. -/
theorem retry_then_succeed_witness :
    (retry flakyFetch 3 0).calls = 3 ∧
    (retry flakyFetch 3 0).result = [7, 8] ∧
    (retry flakyFetch 3 0).err = none ∧
    (retry flakyFetch 3 0).world = 3 :=
  retry_then_succeed flakyFetch 0 3 3 (by decide) (by decide)
    (by
      intro m h1 h2
      have hm : m = 1 ∨ m = 2 := by omega
      rcases hm with rfl | rfl <;> decide)
    (by decide)

/-- The loop of `retry` when each of the next `n` calls fails: all `n` calls
are made, each followed by a sleep, and the loop ends with the result and the
error of the last call. -/
theorem retryLoop_exhaust {σ : Type} (fn : ExecuteJob σ) (world : σ) :
    ∀ (n : Nat) (st : RetryRun σ) (c : Nat), st.world = worldAfter fn world c → st.calls = c →
      (∀ m : Nat, c < m → m ≤ c + n → (tryOutcome fn world m).2 ≠ none) →
      (retryLoop fn n st).calls = c + n ∧
      (retryLoop fn n st).world = worldAfter fn world (c + n) ∧
      (retryLoop fn n st).sleeps = st.sleeps + n ∧
      (1 ≤ n → (retryLoop fn n st).err = (tryOutcome fn world (c + n)).2 ∧
        (retryLoop fn n st).result = (tryOutcome fn world (c + n)).1) := by
  intro n
  induction n with
  | zero =>
    intro st c hw hc _
    exact ⟨hc, hw, rfl, fun h => absurd h (by omega)⟩
  | succ n ih =>
    intro st c hw hc hfail
    have hout : tryOutcome fn world (c + 1) = (fn st.world).1 := by
      simp only [tryOutcome, Nat.add_sub_cancel, hw]
    have hf := hfail (c + 1) (by omega) (by omega)
    rw [hout] at hf
    obtain ⟨e, he⟩ := Option.ne_none_iff_exists'.mp hf
    have hr : retryLoop fn (n + 1) st = retryLoop fn n
        ⟨(fn st.world).1.1, some e, (fn st.world).2, st.calls + 1, st.sleeps + 1⟩ := by
      simp only [retryLoop, he]
    rw [hr]
    obtain ⟨h1, h2, h3, h4⟩ :=
      ih ⟨(fn st.world).1.1, some e, (fn st.world).2, st.calls + 1, st.sleeps + 1⟩ (c + 1)
        (by rw [hw]; rfl) (by simp only; omega)
        (fun m hm1 hm2 => hfail m (by omega) (by omega))
    have hcn : c + 1 + n = c + (n + 1) := by omega
    rw [hcn] at h1 h2 h4
    refine ⟨h1, h2, by rw [h3]; simp only; omega, fun _ => ?_⟩
    by_cases hn : 1 ≤ n
    · exact h4 hn
    · have hn0 : n = 0 := by omega
      subst hn0
      simp only [retryLoop]
      rw [hout]
      exact ⟨he.symm, rfl⟩

/-- C11 (retry exhaustion). If each of the first `attempts` calls of the fetch
function fails, with `attempts ≥ 1`, then `retry` calls the function exactly
`attempts` times and returns the error of the last, `attempts`-th call, which
is not `nil` (together with the result of that call). -/
theorem retry_exhaustion {σ : Type} (fn : ExecuteJob σ) (world : σ) (attempts : Int)
    (h1 : 1 ≤ attempts)
    (hfail : ∀ m : Nat, 1 ≤ m → (m : Int) ≤ attempts → (tryOutcome fn world m).2 ≠ none) :
    (retry fn attempts world).calls = attempts.toNat ∧
    (retry fn attempts world).err = (tryOutcome fn world attempts.toNat).2 ∧
    (retry fn attempts world).err ≠ none ∧
    (retry fn attempts world).result = (tryOutcome fn world attempts.toNat).1 ∧
    (retry fn attempts world).world = worldAfter fn world attempts.toNat := by
  obtain ⟨a, b, _, d⟩ := retryLoop_exhaust fn world attempts.toNat ⟨[], none, world, 0, 0⟩ 0 rfl rfl
    (fun m hm1 hm2 => hfail m (by omega) (by omega))
  rw [Nat.zero_add] at a b d
  obtain ⟨d1, d2⟩ := d (by omega)
  refine ⟨a, d1, ?_, d2, b⟩
  unfold retry
  rw [d1]
  exact hfail attempts.toNat (by omega) (by omega)

/-- Witness of C11: a fetch that always fails, with `attempts = 3`: three
calls, and the error of the third call is returned. -/
theorem retry_exhaustion_witness :
    (retry failingFetch 3 0).calls = 3 ∧
    (retry failingFetch 3 0).err = some "timeout 3" ∧
    (retry failingFetch 3 0).err ≠ none ∧
    (retry failingFetch 3 0).result = [] ∧
    (retry failingFetch 3 0).world = 3 :=
  retry_exhaustion failingFetch 0 3 (by decide)
    (by
      intro m h1 h2
      have hm : m = 1 ∨ m = 2 ∨ m = 3 := by omega
      rcases hm with rfl | rfl | rfl <;> decide)

/-! ## Jobs in the hands of the workers -/

/-- Replacing one element of a list changes the sum of a function over it by
the difference at that element. -/
theorem sum_map_set (g : WorkerState → Nat) : ∀ (l : List WorkerState) (w : Nat)
    (a b : WorkerState), l.get? w = some a →
    ((l.set w b).map g).sum + g a = (l.map g).sum + g b := by
  intro l
  induction l with
  | nil => intro w a b h; simp at h
  | cons x xs ih =>
    intro w a b h
    cases w with
    | zero =>
      simp only [List.get?_cons_zero, Option.some.injEq] at h
      subst h
      simp only [List.set_cons_zero, List.map_cons, List.sum_cons]
      omega
    | succ w =>
      simp only [List.get?_cons_succ] at h
      have := ih w a b h
      simp only [List.set_cons_succ, List.map_cons, List.sum_cons]
      omega

/-- The number of workers holding `j` after the state of worker `w` changes
from `a` to `b`. -/
theorem heldCount_set (ws : List WorkerState) (w : Nat) (a b : WorkerState) (j : FetcherJob)
    (h : ws.get? w = some a) :
    heldCount (ws.set w b) j + (if a.job? = some j then 1 else 0) =
      heldCount ws j + (if b.job? = some j then 1 else 0) :=
  sum_map_set (fun s => if s.job? = some j then 1 else 0) ws w a b h

/-- A worker that takes the job `j0` in hand. -/
theorem heldCount_take (ws : List WorkerState) (w : Nat) (a b : WorkerState) (j0 j : FetcherJob)
    (h : ws.get? w = some a) (ha : a.job? = none) (hb : b.job? = some j0) :
    heldCount (ws.set w b) j = heldCount ws j + (if j0 = j then 1 else 0) := by
  have := heldCount_set ws w a b j h
  rw [ha, hb] at this
  simp only [reduceCtorEq, if_false, Option.some.injEq, Nat.add_zero] at this
  exact this

/-- A worker that lets go of the job `j0`. -/
theorem heldCount_drop (ws : List WorkerState) (w : Nat) (a b : WorkerState) (j0 j : FetcherJob)
    (h : ws.get? w = some a) (ha : a.job? = some j0) (hb : b.job? = none) :
    heldCount (ws.set w b) j + (if j0 = j then 1 else 0) = heldCount ws j := by
  have := heldCount_set ws w a b j h
  rw [ha, hb] at this
  simp only [reduceCtorEq, if_false, Option.some.injEq, Nat.add_zero] at this
  exact this

/-- A worker whose job in hand stays the same. -/
theorem heldCount_keep (ws : List WorkerState) (w : Nat) (a b : WorkerState) (j : FetcherJob)
    (h : ws.get? w = some a) (hab : b.job? = a.job?) :
    heldCount (ws.set w b) j = heldCount ws j := by
  have := heldCount_set ws w a b j h
  rw [hab] at this
  omega

/-- A job is passed to `SaveTradeLogs` at most as often as it was handed to
the pool: the calls for `j` and the workers that still hold `j` together
never outnumber the hand-overs of `j`. -/
theorem Pool.step_held (p q : Pool) (ev : Event) (h : p.step ev = some q) (j : FetcherJob)
    (hinv : (p.saveCalls.map Prod.fst).count j + heldCount p.workers j ≤ p.submitted.count j) :
    (q.saveCalls.map Prod.fst).count j + heldCount q.workers j ≤ q.submitted.count j := by
  cases ev with
  | run w j0 =>
    simp only [Pool.step] at h
    split_ifs at h
    split at h
    · rename_i hw
      cases h
      have := heldCount_take p.workers w _ (WorkerState.executing j0) j0 j hw rfl rfl
      simp only [List.count_append, List.count_singleton, beq_iff_eq]
      rw [this]
      omega
    · cases h
  | executed w tradeLogs err =>
    simp only [Pool.step] at h
    split at h
    · rename_i j0 hw
      split at h
      · rename_i e
        cases h
        have := heldCount_drop p.workers w _ (WorkerState.reportingExec e) j0 j hw rfl rfl
        simp only
        omega
      · cases h
        have := heldCount_keep p.workers w _ (WorkerState.awaitingTurn j0 tradeLogs) j hw rfl
        simp only
        omega
    · cases h
  | report w =>
    simp only [Pool.step] at h
    split_ifs at h
    split at h
    · rename_i e hw
      cases h
      have := heldCount_keep p.workers w _ WorkerState.stopped j hw rfl
      simp only
      omega
    · rename_i e hw
      cases h
      have := heldCount_keep p.workers w _ WorkerState.idle j hw rfl
      simp only
      omega
    · cases h
  | commitTurn w saveErr =>
    simp only [Pool.step] at h
    split at h
    · rename_i j0 tradeLogs hw
      split_ifs at h with hturn
      · split at h
        · cases h
          have := heldCount_drop p.workers w _ WorkerState.idle j0 j hw rfl rfl
          simp only [List.map_append, List.map_cons, List.map_nil, List.count_append,
            List.count_singleton, beq_iff_eq]
          omega
        · rename_i e
          cases h
          have := heldCount_drop p.workers w _ (WorkerState.reportingSave e) j0 j hw rfl rfl
          simp only [List.map_append, List.map_cons, List.map_nil, List.count_append,
            List.count_singleton, beq_iff_eq]
          omega
      · cases h; exact hinv
    · cases h
  | closeJobs =>
    simp only [Pool.step] at h
    split_ifs at h
    cases h; exact hinv
  | leave w =>
    simp only [Pool.step] at h
    split_ifs at h
    split at h
    · rename_i hw
      cases h
      have := heldCount_keep p.workers w _ WorkerState.stopped j hw rfl
      simp only
      omega
    · cases h
  | recvErr =>
    simp only [Pool.step] at h
    split at h
    · cases h; exact hinv
    · cases h

/-- The bound of `Pool.step_held` after every sequence of steps. -/
theorem Pool.run_held (evs : List Event) : ∀ (p q : Pool), p.run evs = some q →
    ∀ j : FetcherJob,
    (p.saveCalls.map Prod.fst).count j + heldCount p.workers j ≤ p.submitted.count j →
    (q.saveCalls.map Prod.fst).count j + heldCount q.workers j ≤ q.submitted.count j := by
  induction evs with
  | nil => intro p q h j hinv; simp only [Pool.run] at h; cases h; exact hinv
  | cons ev evs ih =>
    intro p q h j hinv
    simp only [Pool.run] at h
    split at h
    · rename_i r hr
      exact ih r q h j (Pool.step_held p r ev hr j hinv)
    · cases h

/-- In a new pool no worker holds a job. -/
theorem NewPool_idle (maxWorkers : Int) (p : Pool) (h : NewPool maxWorkers = some p)
    (j : FetcherJob) : heldCount p.workers j = 0 ∧ p.submitted = [] ∧ p.errCh = [] ∧
      p.workers = List.replicate maxWorkers.toNat WorkerState.idle ∧
      p.errCap = maxWorkers.toNat := by
  unfold NewPool at h
  split_ifs at h
  cases h
  refine ⟨?_, rfl, rfl, rfl, rfl⟩
  simp only [heldCount]
  generalize maxWorkers.toNat = n
  induction n with
  | zero => rfl
  | succ n ih => simp [List.replicate_succ, WorkerState.job?, ih]

/-- A worker that has stopped stays stopped. -/
theorem Pool.step_stopped (p q : Pool) (ev : Event) (h : p.step ev = some q) (w : Nat)
    (hw : p.workers.get? w = some WorkerState.stopped) :
    q.workers.get? w = some WorkerState.stopped := by
  have key : ∀ (v : Nat) (a b : WorkerState), p.workers.get? v = some a → a ≠ WorkerState.stopped →
      (p.workers.set v b).get? w = some WorkerState.stopped := by
    intro v a b hv ha
    have hne : v ≠ w := by
      intro hvw
      rw [hvw, hw] at hv
      exact ha (Option.some.inj hv).symm
    rw [List.get?_eq_getElem?, List.getElem?_set_ne hne, ← List.get?_eq_getElem?]
    exact hw
  cases ev with
  | run v j0 =>
    simp only [Pool.step] at h
    split_ifs at h
    split at h
    · rename_i hv; cases h; exact key v _ _ hv (by simp)
    · cases h
  | executed v tradeLogs err =>
    simp only [Pool.step] at h
    split at h
    · rename_i j0 hv
      split at h <;> (cases h; exact key v _ _ hv (by simp))
    · cases h
  | report v =>
    simp only [Pool.step] at h
    split_ifs at h
    split at h
    · rename_i e hv; cases h; exact key v _ _ hv (by simp)
    · rename_i e hv; cases h; exact key v _ _ hv (by simp)
    · cases h
  | commitTurn v saveErr =>
    simp only [Pool.step] at h
    split at h
    · rename_i j0 tradeLogs hv
      split_ifs at h
      · split at h <;> (cases h; exact key v _ _ hv (by simp))
      · cases h; exact hw
    · cases h
  | closeJobs =>
    simp only [Pool.step] at h
    split_ifs at h
    cases h; exact hw
  | leave v =>
    simp only [Pool.step] at h
    split_ifs at h
    split at h
    · rename_i hv; cases h; exact key v _ _ hv (by simp)
    · cases h
  | recvErr =>
    simp only [Pool.step] at h
    split at h
    · cases h; exact hw
    · cases h

/-- After a failed execution the report of the error stops the worker for
good: it takes no further job in any later run. -/
theorem Pool.exec_failure_stops (p q r : Pool) (w : Nat) (e : Error) (evs : List Event)
    (hw : p.workers.get? w = some (WorkerState.reportingExec e))
    (hq : p.step (Event.report w) = some q) (hr : q.run evs = some r) :
    r.workers.get? w = some WorkerState.stopped := by
  have hq' : q.workers.get? w = some WorkerState.stopped := by
    simp only [Pool.step, hw] at hq
    split_ifs at hq
    cases hq
    have hlt : w < p.workers.length := by
      rw [List.get?_eq_getElem?] at hw
      exact (List.getElem?_eq_some_iff.mp hw).1
    rw [List.get?_eq_getElem?, List.getElem?_set_self hlt]
  clear hq hw
  induction evs generalizing q with
  | nil => simp only [Pool.run] at hr; cases hr; exact hq'
  | cons ev evs ih =>
    simp only [Pool.run] at hr
    split at hr
    · rename_i s hs
      exact ih s hr (Pool.step_stopped q s ev hs w hq')
    · cases hr

/-- C16 (worker stops on a fatal error), the failing input: on a pool of one
worker, `SaveTradeLogs` fails for job 1 and the worker reports the error; the
`break` after the report leaves the save loop only, so the worker is back at
the job channel, takes job 2 and executes it. -/
theorem worker_continues_after_failed_save :
    NewPool 1 = some soloStart ∧
    soloStart.run (failedSaveEvents.take 4) =
      some { failedSaveEnd with
        workers := [WorkerState.idle], submitted := [NewFetcherJob 1 0 100 3] } ∧
    soloStart.run failedSaveEvents = some failedSaveEnd ∧
    failedSaveEnd.errCh = ["db is down"] ∧
    failedSaveEnd.workers.get? 0 = some (WorkerState.executing (NewFetcherJob 2 100 200 3)) :=
  ⟨by decide, by decide, by decide, rfl, rfl⟩

/-- C17 (error reports never block), the failing input: on a pool of one
worker, whose error channel has capacity 1, the worker reports the failed save
of job 1, takes job 2 and fails to execute it; with the first error still in
the channel its second send cannot go through. Two errors were sent or are
being sent, on a pool of one worker. -/
theorem second_report_blocks :
    NewPool 1 = some soloStart ∧
    soloStart.run (failedSaveEvents ++ [Event.executed 0 [] (some "timeout")]) =
      some blockedReport ∧
    blockedReport.errCap = 1 ∧
    blockedReport.errCh.length + blockedReport.received.length +
      (blockedReport.workers.filter WorkerState.reporting).length = 2 ∧
    blockedReport.step (Event.report 0) = none :=
  ⟨by decide, by decide, rfl, by decide, by decide⟩

/-- What one step does to the list of the jobs handed to the pool. -/
theorem Pool.step_submitted (p q : Pool) (ev : Event) (h : p.step ev = some q) :
    (∃ (w : Nat) (j : FetcherJob), ev = Event.run w j ∧ q.submitted = p.submitted ++ [j]) ∨
    ((∀ (w : Nat) (j : FetcherJob), ev ≠ Event.run w j) ∧ q.submitted = p.submitted) := by
  cases ev with
  | run w j0 =>
    left
    simp only [Pool.step] at h
    split_ifs at h
    split at h
    · cases h; exact ⟨w, j0, rfl, rfl⟩
    · cases h
  | executed w tradeLogs err =>
    right
    simp only [Pool.step] at h
    split at h
    · split at h <;> (cases h; exact ⟨by simp, rfl⟩)
    · cases h
  | report w =>
    right
    simp only [Pool.step] at h
    split_ifs at h
    split at h
    · cases h; exact ⟨by simp, rfl⟩
    · cases h; exact ⟨by simp, rfl⟩
    · cases h
  | commitTurn w saveErr =>
    right
    simp only [Pool.step] at h
    split at h
    · split_ifs at h
      · split at h <;> (cases h; exact ⟨by simp, rfl⟩)
      · cases h; exact ⟨by simp, rfl⟩
    · cases h
  | closeJobs =>
    right
    simp only [Pool.step] at h
    split_ifs at h
    cases h; exact ⟨by simp, rfl⟩
  | leave w =>
    right
    simp only [Pool.step] at h
    split_ifs at h
    split at h
    · cases h; exact ⟨by simp, rfl⟩
    · cases h
  | recvErr =>
    right
    simp only [Pool.step] at h
    split at h
    · cases h; exact ⟨by simp, rfl⟩
    · cases h

/-- A run followed by one more step is a run. -/
theorem Pool.run_snoc (evs : List Event) : ∀ (p q r : Pool) (ev : Event),
    p.run evs = some q → q.step ev = some r → p.run (evs ++ [ev]) = some r := by
  induction evs with
  | nil =>
    intro p q r ev h1 h2
    simp only [Pool.run] at h1
    cases h1
    simp only [List.nil_append, Pool.run, h2]
  | cons e evs ih =>
    intro p q r ev h1 h2
    simp only [Pool.run] at h1
    split at h1
    · rename_i s hs
      simp only [List.cons_append, Pool.run, hs]
      exact ih s q r ev h1 h2
    · cases h1

/-- Every successful save is among the calls of `SaveTradeLogs`. -/
theorem Pool.run_committed_sub (evs : List Event) : ∀ (p q : Pool), p.run evs = some q →
    (∀ e ∈ p.committed, e ∈ p.saveCalls) → ∀ e ∈ q.committed, e ∈ q.saveCalls := by
  induction evs with
  | nil => intro p q h hinv; simp only [Pool.run] at h; cases h; exact hinv
  | cons ev evs ih =>
    intro p q h hinv
    simp only [Pool.run] at h
    split at h
    · rename_i r hr
      refine ih r q h ?_
      rcases Pool.step_commit p r ev hr with ⟨_, h2, h3⟩ | ⟨_, j, tl, _, _, _, _, hcalls, hcase⟩
      · rw [h2, h3]; exact hinv
      · rcases hcase with ⟨_, _, h2⟩ | ⟨_, _, h2⟩
        · rw [h2, hcalls]
          intro e he
          rcases List.mem_append.mp he with he | he
          · exact List.mem_append_left _ (hinv e he)
          · exact List.mem_append_right _ he
        · rw [h2, hcalls]
          intro e he
          exact List.mem_append_left _ (hinv e he)
    · cases h

/-- In every state a pool reaches from `NewPool`, a job is passed to
`SaveTradeLogs` at most as often as it was handed to the pool, and every
saved job was handed to the pool. -/
theorem Pool.reachable_calls (maxWorkers : Int) (p0 p : Pool) (evs : List Event)
    (h0 : NewPool maxWorkers = some p0) (hrun : p0.run evs = some p) :
    (∀ j : FetcherJob, (p.saveCalls.map Prod.fst).count j + heldCount p.workers j
      ≤ p.submitted.count j) ∧
    (∀ e ∈ p.committed, e ∈ p.saveCalls) ∧
    (∀ e ∈ p.committed, e.1 ∈ p.submitted) := by
  obtain ⟨f1, f2, f3⟩ := NewPool_fresh maxWorkers p0 h0
  have hheld : ∀ j : FetcherJob, (p.saveCalls.map Prod.fst).count j + heldCount p.workers j
      ≤ p.submitted.count j := by
    intro j
    refine Pool.run_held evs p0 p hrun j ?_
    rw [f3, (NewPool_idle maxWorkers p0 h0 j).1]
    simp
  have hsub := Pool.run_committed_sub evs p0 p hrun (by rw [f2]; simp)
  refine ⟨hheld, hsub, ?_⟩
  intro e he
  have h1 : e.1 ∈ p.saveCalls.map Prod.fst := List.mem_map.mpr ⟨e, hsub e he, rfl⟩
  have h2 : 0 < (p.saveCalls.map Prod.fst).count e.1 := List.count_pos_iff.mpr h1
  have h3 := hheld e.1
  exact List.count_pos_iff.mp (by omega)

/-- C18 (commit at most once, no retry). In every state a pool reaches from
`NewPool`, and after every further step, `SaveTradeLogs` has been called for a
job at most as often as the job was handed to the pool, so at most once for a
job handed over once. When a step is a call of `SaveTradeLogs` that returns an
error `e`, the step leaves `lastCompletedJobOrder` and the saved jobs
unchanged, the worker stands at the send of `e` on the error channel (the
send, when it goes through, appends `e` to the channel) and no longer holds
the job: it cannot run the save loop again. -/
theorem commit_at_most_once (maxWorkers : Int) (p0 p q : Pool) (evs : List Event) (ev : Event)
    (h0 : NewPool maxWorkers = some p0) (hrun : p0.run evs = some p)
    (hstep : p.step ev = some q) :
    (∀ j : FetcherJob, (q.saveCalls.map Prod.fst).count j ≤ q.submitted.count j) ∧
    ∀ (w : Nat) (e : Error) (j : FetcherJob) (tradeLogs : List TradeLog),
      ev = Event.commitTurn w (some e) →
      p.workers.get? w = some (WorkerState.awaitingTurn j tradeLogs) →
      j.order = p.lastCompletedJobOrder + 1 →
      q.saveCalls = p.saveCalls ++ [(j, tradeLogs)] ∧
      q.lastCompletedJobOrder = p.lastCompletedJobOrder ∧
      q.committed = p.committed ∧
      q.workers.get? w = some (WorkerState.reportingSave e) ∧
      (∀ r : Pool, q.step (Event.report w) = some r → r.errCh = q.errCh ++ [e]) ∧
      (∀ saveErr : Option Error, q.step (Event.commitTurn w saveErr) = none) ∧
      (q.saveCalls.map Prod.fst).count j + heldCount q.workers j ≤ q.submitted.count j := by
  have hq := Pool.run_snoc evs p0 p q ev hrun hstep
  obtain ⟨hheld, _, _⟩ := Pool.reachable_calls maxWorkers p0 q _ h0 hq
  refine ⟨fun j => by have := hheld j; omega, ?_⟩
  intro w e j tradeLogs hev hw hturn
  subst hev
  simp only [Pool.step, hw, hturn, if_true] at hstep
  cases hstep
  have hlt : w < p.workers.length := by
    rw [List.get?_eq_getElem?] at hw
    exact (List.getElem?_eq_some_iff.mp hw).1
  have hwq : (p.workers.set w (WorkerState.reportingSave e)).get? w =
      some (WorkerState.reportingSave e) := by
    rw [List.get?_eq_getElem?, List.getElem?_set_self hlt]
  refine ⟨rfl, rfl, rfl, hwq, ?_, ?_, hheld j⟩
  · intro r hr
    simp only [Pool.step, hwq] at hr
    split_ifs at hr
    cases hr
    rfl
  · intro saveErr
    simp only [Pool.step, hwq]

/-- Witness of C18: on the pool of one worker, the call of `SaveTradeLogs` for
job 1 fails with "db is down". -/
theorem commit_at_most_once_witness :
    (∀ j : FetcherJob,
      (soloSaveFailed.saveCalls.map Prod.fst).count j ≤ soloSaveFailed.submitted.count j) ∧
    ∀ (w : Nat) (e : Error) (j : FetcherJob) (tradeLogs : List TradeLog),
      Event.commitTurn 0 (some "db is down") = Event.commitTurn w (some e) →
      soloFetched.workers.get? w = some (WorkerState.awaitingTurn j tradeLogs) →
      j.order = soloFetched.lastCompletedJobOrder + 1 →
      soloSaveFailed.saveCalls = soloFetched.saveCalls ++ [(j, tradeLogs)] ∧
      soloSaveFailed.lastCompletedJobOrder = soloFetched.lastCompletedJobOrder ∧
      soloSaveFailed.committed = soloFetched.committed ∧
      soloSaveFailed.workers.get? w = some (WorkerState.reportingSave e) ∧
      (∀ r : Pool, soloSaveFailed.step (Event.report w) = some r →
        r.errCh = soloSaveFailed.errCh ++ [e]) ∧
      (∀ saveErr : Option Error, soloSaveFailed.step (Event.commitTurn w saveErr) = none) ∧
      (soloSaveFailed.saveCalls.map Prod.fst).count j + heldCount soloSaveFailed.workers j
        ≤ soloSaveFailed.submitted.count j :=
  commit_at_most_once 1 soloStart soloFetched soloSaveFailed (failedSaveEvents.take 2)
    (Event.commitTurn 0 (some "db is down")) (by decide) (by decide) (by decide)

/-! ## The done signal of a span -/

/-- The jobs of every run of the submitting loop that ends carry consecutive
order numbers, whatever the block numbers are. -/
theorem submitLoop_orders (sb : StartingBlocks) (attempts toBlock maxBlocks base : Int) :
    ∀ (fuel : Nat) (i jobOrder : Int) (acc : List FetcherJob) (r : List FetcherJob × Int),
      submitLoop sb attempts toBlock maxBlocks fuel i jobOrder acc = some r →
      jobOrder = base + (acc.length : Int) →
      (∀ (k : Nat) (j : FetcherJob), acc[k]? = some j → j.order = base + (k : Int) + 1) →
      r.2 = base + (r.1.length : Int) ∧
      ∀ (k : Nat) (j : FetcherJob), r.1[k]? = some j → j.order = base + (k : Int) + 1 := by
  intro fuel
  induction fuel with
  | zero =>
    intro i jobOrder acc r h hjo hacc
    simp only [submitLoop] at h
    split_ifs at h
    cases h
    exact ⟨hjo, hacc⟩
  | succ fuel ih =>
    intro i jobOrder acc r h hjo hacc
    simp only [submitLoop] at h
    split_ifs at h
    · obtain ⟨hb1, hb2⟩ := submitBatch_orders sb attempts i
        (MinInt64 (wrapInt64 (i + maxBlocks)) toBlock) jobOrder
      refine ih _ _ _ r h ?_ ?_
      · rw [hb1, hjo, List.length_append]; push_cast; omega
      · intro k j hj
        by_cases hlt : k < acc.length
        · rw [List.getElem?_append_left hlt] at hj
          exact hacc k j hj
        · have hge : acc.length ≤ k := by omega
          rw [List.getElem?_append_right hge] at hj
          rw [hb2 _ j hj, hjo]
          push_cast [Nat.cast_sub hge]
          omega
    · cases h
      exact ⟨hjo, hacc⟩

/-- What one step of a span does: the counter target stays; either the pool
and the pending jobs stay, and `done` can only be raised, with no job pending
and the counter of the pool at the target; or the pool makes a step, which is
the hand-over of the next pending job or leaves the pending jobs alone. -/
theorem Crawl.step_cases (c d : Crawl) (ev : CrawlEvent) (h : c.step ev = some d) :
    d.jobOrder = c.jobOrder ∧
    ((d.pool = c.pool ∧ d.pending = c.pending ∧
        (d.done = c.done ∨
          (d.done = true ∧ c.pending = [] ∧ c.jobOrder ≤ c.pool.lastCompletedJobOrder))) ∨
      (d.done = c.done ∧
        ((∃ (w : Nat) (j : FetcherJob), c.pending = j :: d.pending ∧
            c.pool.step (Event.run w j) = some d.pool) ∨
          (d.pending = c.pending ∧ ∃ pev : Event, (∀ (w : Nat) (j : FetcherJob), pev ≠ Event.run w j) ∧
            c.pool.step pev = some d.pool)))) := by
  cases ev with
  | submit w =>
    simp only [Crawl.step] at h
    split at h
    · rename_i j rest hp
      split at h
      · rename_i q hq
        cases h
        exact ⟨rfl, Or.inr ⟨rfl, Or.inl ⟨w, j, hp, hq⟩⟩⟩
      · cases h
    · cases h
  | poll =>
    simp only [Crawl.step] at h
    split at h
    · rename_i hp
      split_ifs at h with h1 h2
      · cases h; exact ⟨rfl, Or.inl ⟨rfl, rfl, Or.inl rfl⟩⟩
      · cases h
        refine ⟨rfl, Or.inl ⟨rfl, rfl, Or.inr ⟨rfl, hp, ?_⟩⟩⟩
        simp only [Pool.GetLastCompleteJobOrder] at h2
        omega
    · cases h
  | pool pev =>
    cases pev with
    | run w j => simp only [Crawl.step] at h; cases h
    | closeJobs =>
      simp only [Crawl.step] at h
      split_ifs at h
      split at h
      · rename_i q hq
        cases h
        exact ⟨rfl, Or.inr ⟨rfl, Or.inr ⟨rfl, Event.closeJobs, by simp, hq⟩⟩⟩
      · cases h
    | executed w tl err =>
      simp only [Crawl.step] at h
      split at h
      · rename_i q hq
        cases h
        exact ⟨rfl, Or.inr ⟨rfl, Or.inr ⟨rfl, _, by simp, hq⟩⟩⟩
      · cases h
    | report w =>
      simp only [Crawl.step] at h
      split at h
      · rename_i q hq
        cases h
        exact ⟨rfl, Or.inr ⟨rfl, Or.inr ⟨rfl, _, by simp, hq⟩⟩⟩
      · cases h
    | commitTurn w se =>
      simp only [Crawl.step] at h
      split at h
      · rename_i q hq
        cases h
        exact ⟨rfl, Or.inr ⟨rfl, Or.inr ⟨rfl, _, by simp, hq⟩⟩⟩
      · cases h
    | leave w =>
      simp only [Crawl.step] at h
      split at h
      · rename_i q hq
        cases h
        exact ⟨rfl, Or.inr ⟨rfl, Or.inr ⟨rfl, _, by simp, hq⟩⟩⟩
      · cases h
    | recvErr =>
      simp only [Crawl.step] at h
      split at h
      · rename_i q hq
        cases h
        exact ⟨rfl, Or.inr ⟨rfl, Or.inr ⟨rfl, _, by simp, hq⟩⟩⟩
      · cases h

/-- The invariant of a span: its pool is a pool reached from the start, the
jobs handed over and the jobs pending are together the jobs of the span, and
once `done` is raised nothing is pending and the counter of the pool has
reached the target. -/
theorem Crawl.run_inv (p0 : Pool) (js : List FetcherJob) (jo : Int) (evs : List CrawlEvent) :
    ∀ (c d : Crawl), c.run evs = some d →
      c.jobOrder = jo → (∃ pevs, p0.run pevs = some c.pool) →
      c.pool.submitted ++ c.pending = js →
      (c.done = true → c.pending = [] ∧ jo ≤ c.pool.lastCompletedJobOrder) →
      d.jobOrder = jo ∧ (∃ pevs, p0.run pevs = some d.pool) ∧
      d.pool.submitted ++ d.pending = js ∧
      (d.done = true → d.pending = [] ∧ jo ≤ d.pool.lastCompletedJobOrder) := by
  induction evs with
  | nil =>
    intro c d h h1 h2 h3 h4
    simp only [Crawl.run] at h
    cases h
    exact ⟨h1, h2, h3, h4⟩
  | cons ev evs ih =>
    intro c d h h1 h2 h3 h4
    simp only [Crawl.run] at h
    split at h
    · rename_i m hm
      obtain ⟨s1, s2⟩ := Crawl.step_cases c m ev hm
      refine ih m d h (by rw [s1, h1]) ?_ ?_ ?_
      · rcases s2 with ⟨hp, _, _⟩ | ⟨_, ⟨w, j, _, hq⟩ | ⟨_, pev, _, hq⟩⟩
        · rw [hp]; exact h2
        · obtain ⟨pevs, hpevs⟩ := h2
          exact ⟨_, Pool.run_snoc pevs p0 c.pool m.pool _ hpevs hq⟩
        · obtain ⟨pevs, hpevs⟩ := h2
          exact ⟨_, Pool.run_snoc pevs p0 c.pool m.pool _ hpevs hq⟩
      · rcases s2 with ⟨hp, hpend, _⟩ | ⟨_, ⟨w, j, hpend, hq⟩ | ⟨hpend, pev, hne, hq⟩⟩
        · rw [hp, hpend]; exact h3
        · rcases Pool.step_submitted c.pool m.pool _ hq with ⟨w', j', hev, hsub⟩ | ⟨hne, _⟩
          · cases hev
            rw [hsub, List.append_assoc, List.singleton_append, ← hpend]
            exact h3
          · exact absurd rfl (hne w j)
        · rcases Pool.step_submitted c.pool m.pool _ hq with ⟨w', j', hev, _⟩ | ⟨_, hsub⟩
          · exact absurd hev (hne w' j')
          · rw [hsub, hpend]; exact h3
      · intro hdone
        rcases s2 with ⟨hp, hpend, hd | ⟨_, hnil, hle⟩⟩ | ⟨hd, hrest⟩
        · rw [hp, hpend]; exact h4 (by rw [← hd]; exact hdone)
        · rw [hp, hpend]; exact ⟨hnil, by rw [← h1]; exact hle⟩
        · have hc := h4 (by rw [← hd]; exact hdone)
          rcases hrest with ⟨w, j, hpend, _⟩ | ⟨hpend, pev, _, hq⟩
          · rw [hc.1] at hpend; cases hpend
          · refine ⟨by rw [hpend]; exact hc.1, ?_⟩
            have := Pool.run_mono [pev] c.pool m.pool (by simp only [Pool.run, hq])
            omega
    · cases h

/-- C19 (done means all committed). For the pool `NewPool` returns and the
jobs `js` the submitting loop of the span produces from its counter, in every
state the span reaches in which the goroutine has sent on `doneCh`: no job is
left to submit, the pool was handed exactly the jobs `js`, its
`lastCompletedJobOrder` is at least the final `jobOrder`, which is the order
of the last job, and every job of the span has been saved successfully. When
the span yields no job the very first test of the goroutine raises `done`. -/
theorem done_means_all_committed (sb : StartingBlocks)
    (attempts fromBlock toBlock maxBlocks maxWorkers : Int) (fuel : Nat) (p0 : Pool)
    (js : List FetcherJob) (jo : Int) (evs : List CrawlEvent) (c : Crawl)
    (hp : NewPool maxWorkers = some p0)
    (hjobs : submitJobs sb attempts fromBlock toBlock maxBlocks p0.GetLastCompleteJobOrder fuel
      = some (js, jo))
    (hrun : (Crawl.start p0 js jo).run evs = some c) (hdone : c.done = true) :
    c.pending = [] ∧ c.pool.submitted = js ∧
    jo ≤ c.pool.lastCompletedJobOrder ∧
    (∀ j ∈ js, j.order ≤ jo) ∧
    (∀ j ∈ js, ∃ tradeLogs : List TradeLog, (j, tradeLogs) ∈ c.pool.committed) ∧
    (js = [] → (Crawl.start p0 js jo).step CrawlEvent.poll =
      some { Crawl.start p0 js jo with done := true }) := by
  obtain ⟨f1, f2, f3⟩ := NewPool_fresh maxWorkers p0 hp
  have hsub0 := (NewPool_idle maxWorkers p0 hp (NewFetcherJob 0 0 0 0)).2.1
  have hbase : p0.GetLastCompleteJobOrder = 0 := f1
  rw [hbase] at hjobs
  obtain ⟨hjo, hord⟩ := submitLoop_orders sb attempts toBlock maxBlocks 0 fuel fromBlock 0 []
    (js, jo) hjobs (by simp) (by intro k j hj; simp at hj)
  simp only [Int.zero_add] at hjo hord
  obtain ⟨_, ⟨pevs, hpevs⟩, hall, hd⟩ := Crawl.run_inv p0 js jo evs (Crawl.start p0 js jo) c hrun
    rfl ⟨[], rfl⟩ (by simp only [Crawl.start, hsub0, List.nil_append])
    (by intro h; simp [Crawl.start] at h)
  obtain ⟨hnil, hle⟩ := hd hdone
  rw [hnil, List.append_nil] at hall
  obtain ⟨hlast, hcord⟩ := Pool.run_ordered pevs p0 c.pool hpevs (by rw [f1, f2]; rfl)
    (by intro k e hk; rw [f2] at hk; simp at hk)
  obtain ⟨_, _, hmem⟩ := Pool.reachable_calls maxWorkers p0 c.pool pevs hp hpevs
  refine ⟨hnil, hall, hle, ?_, ?_, ?_⟩
  · intro j hj
    obtain ⟨k, hk⟩ := List.mem_iff_getElem?.mp hj
    have := hord k j hk
    have hlt := (List.getElem?_eq_some_iff.mp hk).1
    omega
  · intro j hj
    obtain ⟨k, hk⟩ := List.mem_iff_getElem?.mp hj
    have hjk := hord k j hk
    have hlt := (List.getElem?_eq_some_iff.mp hk).1
    have hklt : k < c.pool.committed.length := by omega
    have he : c.pool.committed[k]? = some c.pool.committed[k] := List.getElem?_eq_getElem hklt
    have heo := hcord k _ he
    have hein : c.pool.committed[k] ∈ c.pool.committed := List.getElem_mem hklt
    have hejs : (c.pool.committed[k]).1 ∈ js := by rw [← hall]; exact hmem _ hein
    obtain ⟨k', hk'⟩ := List.mem_iff_getElem?.mp hejs
    have hjk' := hord k' _ hk'
    have hkk : k' = k := by omega
    rw [hkk, hk] at hk'
    have hje : j = (c.pool.committed[k]).1 := Option.some.inj hk'
    refine ⟨(c.pool.committed[k]).2, ?_⟩
    rw [hje]
    exact hein
  · intro hjs
    subst hjs
    simp only [List.length_nil, Nat.cast_zero] at hjo
    simp only [Crawl.step, Crawl.start, Pool.GetLastCompleteJobOrder, f1, hjo]
    simp

/-- Witness of C19: the span `[0, 50]` with `maxBlocks = 100` on the pool of
one worker: one job, which is handed over, fetched and saved before the
goroutine finds the counter at 1 and raises `done`. -/
theorem done_means_all_committed_witness :
    (Crawl.start soloStart [NewFetcherJob 1 0 50 3] 1).run
      [CrawlEvent.submit 0, CrawlEvent.poll, CrawlEvent.pool (Event.executed 0 [5] none),
        CrawlEvent.pool (Event.commitTurn 0 none), CrawlEvent.poll] = some soloDone ∧
    (soloDone.pending = [] ∧ soloDone.pool.submitted = [NewFetcherJob 1 0 50 3] ∧
    (1 : Int) ≤ soloDone.pool.lastCompletedJobOrder ∧
    (∀ j ∈ [NewFetcherJob 1 0 50 3], j.order ≤ 1) ∧
    (∀ j ∈ [NewFetcherJob 1 0 50 3],
      ∃ tradeLogs : List TradeLog, (j, tradeLogs) ∈ soloDone.pool.committed) ∧
    ([NewFetcherJob 1 0 50 3] = [] → (Crawl.start soloStart [NewFetcherJob 1 0 50 3] 1).step
      CrawlEvent.poll = some { Crawl.start soloStart [NewFetcherJob 1 0 50 3] 1 with done := true })) :=
  ⟨by decide,
    done_means_all_committed ⟨0, 0, 0⟩ 3 0 50 100 1 1 soloStart [NewFetcherJob 1 0 50 3] 1
      [CrawlEvent.submit 0, CrawlEvent.poll, CrawlEvent.pool (Event.executed 0 [5] none),
        CrawlEvent.pool (Event.commitTurn 0 none), CrawlEvent.poll] soloDone
      (by decide) (by decide) (by decide) (by decide)⟩

/-! ## `retry`: sleeps and the attempt budget -/

/-- A loop of `retry` that runs at least one iteration and ends with a non-nil
error has seen each of its calls fail. -/
theorem retryLoop_failed {σ : Type} (fn : ExecuteJob σ) (world : σ) :
    ∀ (n : Nat) (st : RetryRun σ) (c : Nat), st.world = worldAfter fn world c → st.calls = c →
      1 ≤ n → (retryLoop fn n st).err ≠ none →
      ∀ m : Nat, c < m → m ≤ c + n → (tryOutcome fn world m).2 ≠ none := by
  intro n
  induction n with
  | zero => intro st c _ _ h; omega
  | succ n ih =>
    intro st c hw hc _ herr m hm1 hm2
    have hout : tryOutcome fn world (c + 1) = (fn st.world).1 := by
      simp only [tryOutcome, Nat.add_sub_cancel, hw]
    cases he : (fn st.world).1.2 with
    | none =>
      exfalso
      apply herr
      simp only [retryLoop, he]
    | some e =>
      have hr : retryLoop fn (n + 1) st = retryLoop fn n
          ⟨(fn st.world).1.1, some e, (fn st.world).2, st.calls + 1, st.sleeps + 1⟩ := by
        simp only [retryLoop, he]
      rw [hr] at herr
      by_cases hm : m = c + 1
      · rw [hm, hout, he]
        exact Option.some_ne_none e
      · have hn : 1 ≤ n := by omega
        exact ih ⟨(fn st.world).1.1, some e, (fn st.world).2, st.calls + 1, st.sleeps + 1⟩ (c + 1)
          (by rw [hw]; rfl) (by simp only; omega) hn herr m (by omega) (by omega)

/-- When each of the `attempts` calls fails, `retry` sleeps after every one of
them, the last included: as many sleeps as calls. -/
theorem retry_sleeps_exhausted {σ : Type} (fn : ExecuteJob σ) (world : σ) (attempts : Int)
    (hfail : ∀ m : Nat, 1 ≤ m → (m : Int) ≤ attempts → (tryOutcome fn world m).2 ≠ none) :
    (retry fn attempts world).calls = attempts.toNat ∧
    (retry fn attempts world).sleeps = attempts.toNat := by
  obtain ⟨a, _, c, _⟩ := retryLoop_exhaust fn world attempts.toNat ⟨[], none, world, 0, 0⟩ 0 rfl rfl
    (fun m hm1 hm2 => hfail m (by omega) (by omega))
  rw [Nat.zero_add] at a c
  exact ⟨a, c⟩

/-- When the `k`-th call is the first to succeed, `retry` has slept `k - 1`
times, once after each failed call. -/
theorem retry_sleeps_succeeded {σ : Type} (fn : ExecuteJob σ) (world : σ) (attempts : Int)
    (k : Nat) (hk1 : 1 ≤ k) (hk2 : (k : Int) ≤ attempts)
    (hfail : ∀ m : Nat, 1 ≤ m → m < k → (tryOutcome fn world m).2 ≠ none)
    (hok : (tryOutcome fn world k).2 = none) :
    (retry fn attempts world).calls = k ∧ (retry fn attempts world).sleeps = k - 1 := by
  have := retryLoop_succeed fn world k hok attempts.toNat
    ⟨[], none, world, 0, 0⟩ 0 rfl rfl
    (by omega) (by omega) (fun m hm1 hm2 => hfail m (by omega) hm2)
  refine ⟨this.1, ?_⟩
  unfold retry
  rw [this.2.2.2.2]
  simp only
  omega

/-- C23 (back-off only between tries). The code sleeps after every failed
try, also after the last one: with a function that always fails and
`attempts = 3` the run makes 3 calls and 3 sleeps, not 2, and with
`attempts = 1` it makes 1 call and still sleeps once before it returns the
error. Where a try succeeds the count is the claimed one: a function that
fails twice and then succeeds is called 3 times with 2 sleeps. -/
theorem retry_sleeps_after_last_try :
    (retry failingFetch 3 0).calls = 3 ∧ (retry failingFetch 3 0).sleeps = 3 ∧
    (retry failingFetch 3 0).err = some "timeout 3" ∧
    (retry failingFetch 1 0).calls = 1 ∧ (retry failingFetch 1 0).sleeps = 1 ∧
    (retry failingFetch 1 0).err = some "timeout 1" ∧
    (retry flakyFetch 3 0).calls = 3 ∧ (retry flakyFetch 3 0).sleeps = 2 ∧
    (retry flakyFetch 3 0).err = none := by
  decide

/-- C25 (retry with a non-positive attempt budget). For `attempts ≤ 0` the
function is never called and `retry` returns an empty (`nil`) list of records
with a `nil` error, without sleeping. Hence, whenever `retry` returns a
non-nil error, `attempts ≥ 1`, the function was called exactly `attempts`
times and each of these calls failed. -/
theorem retry_nonpositive {σ : Type} (fn : ExecuteJob σ) (world : σ) (attempts : Int) :
    (attempts ≤ 0 →
      (retry fn attempts world).calls = 0 ∧ (retry fn attempts world).result = [] ∧
      (retry fn attempts world).err = none ∧ (retry fn attempts world).world = world ∧
      (retry fn attempts world).sleeps = 0) ∧
    ((retry fn attempts world).err ≠ none →
      1 ≤ attempts ∧ (retry fn attempts world).calls = attempts.toNat ∧
      ∀ m : Nat, 1 ≤ m → (m : Int) ≤ attempts → (tryOutcome fn world m).2 ≠ none) := by
  have h0 : attempts ≤ 0 → retry fn attempts world = ⟨[], none, world, 0, 0⟩ := by
    intro h
    have : attempts.toNat = 0 := by omega
    unfold retry
    rw [this]
    rfl
  refine ⟨fun h => ?_, fun herr => ?_⟩
  · rw [h0 h]
    exact ⟨rfl, rfl, rfl, rfl, rfl⟩
  · have h1 : 1 ≤ attempts := by
      by_contra hneg
      apply herr
      rw [h0 (by omega)]
    have hall := retryLoop_failed fn world attempts.toNat ⟨[], none, world, 0, 0⟩ 0 rfl rfl
      (by omega) herr
    have hfail : ∀ m : Nat, 1 ≤ m → (m : Int) ≤ attempts → (tryOutcome fn world m).2 ≠ none :=
      fun m hm1 hm2 => hall m (by omega) (by omega)
    exact ⟨h1, (retry_sleeps_exhausted fn world attempts hfail).1, hfail⟩

/-- Witness of C25: with `attempts = 0` and with `attempts = -2` a function
that would fail is not called and `retry` reports success; with `attempts = 3`
its error comes after exactly 3 calls. -/
theorem retry_nonpositive_witness :
    ((retry failingFetch 0 0).calls = 0 ∧ (retry failingFetch 0 0).result = [] ∧
      (retry failingFetch 0 0).err = none ∧ (retry failingFetch 0 0).world = 0 ∧
      (retry failingFetch 0 0).sleeps = 0) ∧
    ((retry failingFetch (-2) 0).calls = 0 ∧ (retry failingFetch (-2) 0).result = [] ∧
      (retry failingFetch (-2) 0).err = none ∧ (retry failingFetch (-2) 0).world = 0 ∧
      (retry failingFetch (-2) 0).sleeps = 0) ∧
    (1 ≤ (3 : Int) ∧ (retry failingFetch 3 0).calls = 3) :=
  ⟨(retry_nonpositive failingFetch 0 0).1 (by decide),
   (retry_nonpositive failingFetch 0 (-2)).1 (by decide),
   ((retry_nonpositive failingFetch 0 3).2 (by decide)).1,
   ((retry_nonpositive failingFetch 0 3).2 (by decide)).2.1⟩

/-! ## The iterations of the submitting loop -/

/-- The submitting loop needs more than `fuel` iterations when `fuel` batches
do not reach past `toBlock`. -/
theorem submitLoop_short (sb : StartingBlocks) (attempts toBlock maxBlocks : Int)
    (hmb : 1 ≤ maxBlocks) (hov : toBlock + maxBlocks < 9223372036854775808) :
    ∀ (fuel : Nat) (i jobOrder : Int) (acc : List FetcherJob),
      -9223372036854775808 ≤ i → (fuel : Int) * maxBlocks ≤ toBlock - i →
      submitLoop sb attempts toBlock maxBlocks fuel i jobOrder acc = none := by
  intro fuel
  induction fuel with
  | zero =>
    intro i jobOrder acc _ hf
    have hi : i ≤ toBlock := by
      simp only [Nat.cast_zero, Int.zero_mul] at hf
      omega
    simp [submitLoop, hi]
  | succ fuel ih =>
    intro i jobOrder acc hlo hf
    have hnn : 0 ≤ (fuel : Int) * maxBlocks :=
      Int.mul_nonneg (Int.ofNat_nonneg fuel) (by omega)
    have he : ((fuel + 1 : Nat) : Int) * maxBlocks = (fuel : Int) * maxBlocks + maxBlocks := by
      push_cast; ring
    rw [he] at hf
    have hi : i ≤ toBlock := by omega
    have hw : wrapInt64 (i + maxBlocks) = i + maxBlocks := wrapInt64_eq _ (by omega) (by omega)
    simp only [submitLoop, hi, if_true, hw]
    exact ih _ _ _ (by omega) (by omega)

/-- The submitting loop is done within `fuel` iterations when `fuel` batches
reach past `toBlock`. -/
theorem submitLoop_enough (sb : StartingBlocks) (attempts toBlock maxBlocks : Int)
    (hmb : 1 ≤ maxBlocks) (hov : toBlock + maxBlocks < 9223372036854775808) :
    ∀ (fuel : Nat) (i jobOrder : Int) (acc : List FetcherJob),
      -9223372036854775808 ≤ i → toBlock - i < (fuel : Int) * maxBlocks →
      (submitLoop sb attempts toBlock maxBlocks fuel i jobOrder acc).isSome = true := by
  intro fuel
  induction fuel with
  | zero =>
    intro i jobOrder acc _ hf
    have hi : ¬ i ≤ toBlock := by
      simp only [Nat.cast_zero, Int.zero_mul] at hf
      omega
    simp [submitLoop, hi]
  | succ fuel ih =>
    intro i jobOrder acc hlo hf
    have he : ((fuel + 1 : Nat) : Int) * maxBlocks = (fuel : Int) * maxBlocks + maxBlocks := by
      push_cast; ring
    rw [he] at hf
    by_cases hi : i ≤ toBlock
    · have hw : wrapInt64 (i + maxBlocks) = i + maxBlocks := wrapInt64_eq _ (by omega) (by omega)
      simp only [submitLoop, hi, if_true, hw]
      exact ih _ _ _ (by omega) (by omega)
    · simp [submitLoop, hi]

/-- C27 (decomposition terminates with a bounded job count). For
`0 ≤ from ≤ to`, `maxBlocks ≥ 1` and `to + maxBlocks` below `2^63`, the
submitting loop makes exactly `(to - from) / maxBlocks + 1` iterations: that
many are enough for it to end, one fewer are not. Every iteration submits one
or two jobs, and the number `n` of submitted jobs lies between the number of
iterations and twice that number. For `from > to` the loop ends without an
iteration and without a job. -/
theorem decomposition_bounded (sb : StartingBlocks)
    (attempts fromBlock toBlock maxBlocks lastCompleted : Int) :
    (0 ≤ fromBlock → fromBlock ≤ toBlock → 1 ≤ maxBlocks →
      toBlock + maxBlocks < 9223372036854775808 →
      (∃ js jo, submitJobs sb attempts fromBlock toBlock maxBlocks lastCompleted
          (((toBlock - fromBlock) / maxBlocks).toNat + 1) = some (js, jo) ∧
        ((toBlock - fromBlock) / maxBlocks).toNat + 1 ≤ js.length ∧
        js.length ≤ 2 * (((toBlock - fromBlock) / maxBlocks).toNat + 1)) ∧
      submitJobs sb attempts fromBlock toBlock maxBlocks lastCompleted
        ((toBlock - fromBlock) / maxBlocks).toNat = none ∧
      ∀ i e jo : Int, 1 ≤ (submitBatch sb attempts i e jo).1.length ∧
        (submitBatch sb attempts i e jo).1.length ≤ 2) ∧
    (toBlock < fromBlock → ∀ fuel : Nat,
      submitJobs sb attempts fromBlock toBlock maxBlocks lastCompleted fuel =
        some ([], lastCompleted)) := by
  constructor
  · intro h0 hft hmb hov
    have hq0 : 0 ≤ (toBlock - fromBlock) / maxBlocks :=
      Int.ediv_nonneg (by omega) (by omega)
    have hq1 : (toBlock - fromBlock) / maxBlocks * maxBlocks ≤ toBlock - fromBlock :=
      Int.ediv_mul_le _ (by omega)
    have hq2 : toBlock - fromBlock < ((toBlock - fromBlock) / maxBlocks + 1) * maxBlocks :=
      Int.lt_ediv_add_one_mul_self _ (by omega)
    have hcast : ((((toBlock - fromBlock) / maxBlocks).toNat + 1 : Nat) : Int) =
        (toBlock - fromBlock) / maxBlocks + 1 := by
      push_cast
      rw [Int.toNat_of_nonneg hq0]
    have hcast0 : ((((toBlock - fromBlock) / maxBlocks).toNat : Nat) : Int) =
        (toBlock - fromBlock) / maxBlocks := Int.toNat_of_nonneg hq0
    refine ⟨?_, ?_, fun i e jo => submitBatch_length sb attempts i e jo⟩
    · have hsome := submitLoop_enough sb attempts toBlock maxBlocks hmb hov
        (((toBlock - fromBlock) / maxBlocks).toNat + 1) fromBlock lastCompleted []
        (by omega) (by rw [hcast]; exact hq2)
      obtain ⟨⟨js, jo⟩, hrun⟩ := Option.isSome_iff_exists.mp hsome
      have hd := (submitJobs_spec sb attempts fromBlock toBlock maxBlocks lastCompleted
        (by omega) hmb hov).2 _ js jo hrun
      have hlen := Decomp_length sb attempts toBlock maxBlocks hmb _ _ _ _ hd
        ((toBlock - fromBlock) / maxBlocks + 1) hft
        (by rw [Int.add_sub_cancel]; exact hq1) hq2
      refine ⟨js, jo, hrun, ?_, ?_⟩
      · have := hlen.1
        omega
      · have := hlen.2
        omega
    · exact submitLoop_short sb attempts toBlock maxBlocks hmb hov _ fromBlock lastCompleted []
        (by omega) (by rw [hcast0]; exact hq1)
  · intro hlt fuel
    have hi : ¬ fromBlock ≤ toBlock := by omega
    cases fuel with
    | zero => simp [submitJobs, submitLoop, hi]
    | succ fuel => simp [submitJobs, submitLoop, hi]

/-- Witness of C27: the span `[0, 250]` with `maxBlocks = 100` and a starting
block at 150 takes 3 iterations (2 are not enough) and gives 4 jobs; the span
from 10 to 5 gives no job. -/
theorem decomposition_bounded_witness :
    ((∃ js jo, submitJobs ⟨0, 0, 150⟩ 3 0 250 100 0 (((250 - 0 : Int) / 100).toNat + 1) =
          some (js, jo) ∧
        ((250 - 0 : Int) / 100).toNat + 1 ≤ js.length ∧
        js.length ≤ 2 * (((250 - 0 : Int) / 100).toNat + 1)) ∧
      submitJobs ⟨0, 0, 150⟩ 3 0 250 100 0 ((250 - 0 : Int) / 100).toNat = none ∧
      ∀ i e jo : Int, 1 ≤ (submitBatch ⟨0, 0, 150⟩ 3 i e jo).1.length ∧
        (submitBatch ⟨0, 0, 150⟩ 3 i e jo).1.length ≤ 2) ∧
    (∀ fuel : Nat, submitJobs ⟨0, 0, 150⟩ 3 10 5 100 0 fuel = some ([], 0)) ∧
    (submitJobs ⟨0, 0, 150⟩ 3 0 250 100 0 3).map (fun r => r.1.length) = some 4 :=
  ⟨(decomposition_bounded ⟨0, 0, 150⟩ 3 0 250 100 0).1 (by decide) (by decide) (by decide)
      (by decide),
   (decomposition_bounded ⟨0, 0, 150⟩ 3 10 5 100 0).2 (by decide),
   by decide⟩

/-! ## The size of the pool -/

/-- The binade exponent of a positive rational against a power of two. -/
theorem log2_le (q : ℚ) (hq : 0 < q) (k : Int) :
    ((2 : ℚ) ^ k ≤ q → k ≤ Int.log 2 |q|) ∧ (q < (2 : ℚ) ^ k → Int.log 2 |q| < k) := by
  obtain ⟨hb1, hb2⟩ := log2_bounds q hq
  generalize Int.log 2 |q| = e at hb1 hb2
  refine ⟨fun h => ?_, fun h => ?_⟩
  · by_contra hneg
    have : (2 : ℚ) ^ (e + 1) ≤ (2 : ℚ) ^ k := zpow_le_zpow_right₀ (by norm_num) (by omega)
    linarith
  · by_contra hneg
    have : (2 : ℚ) ^ k ≤ (2 : ℚ) ^ e := zpow_le_zpow_right₀ (by norm_num) (by omega)
    linarith

/-- The `float64` nearest to a rational that is at least 1 is at least 1. -/
theorem roundFloat64_ge_one (q : ℚ) (h1 : 1 ≤ q) : 1 ≤ roundFloat64 q := by
  have hq : 0 < q := by linarith
  obtain ⟨_, _, r3, _⟩ := roundFloat64_pos q hq
  have he := (log2_le q hq 0).1 (by rw [zpow_zero]; exact h1)
  have : (2 : ℚ) ^ (0 : ℤ) ≤ (2 : ℚ) ^ Int.log 2 |q| := zpow_le_zpow_right₀ (by norm_num) he
  rw [zpow_zero] at this
  linarith

/-- The `float64` nearest to a positive rational below `2^63 - 512` is at
most `2^63 - 1024`, the largest `float64` below `2^63`. -/
theorem roundFloat64_below (q : ℚ) (h0 : 0 < q) (h : q < 9223372036854775296) :
    roundFloat64 q ≤ 9223372036854774784 := by
  obtain ⟨_, _, _, r4⟩ := roundFloat64_pos q h0
  have he := (log2_le q h0 63).2 (by norm_num; linarith)
  have hval : roundFloat64 q = (roundHalfEven (q / (2 : ℚ) ^ (Int.log 2 |q| - 52)) : ℚ) *
      (2 : ℚ) ^ (Int.log 2 |q| - 52) := by
    unfold roundFloat64; rw [if_neg (ne_of_gt h0)]
  generalize Int.log 2 |q| = e at r4 he hval
  by_cases h62 : e = 62
  · subst h62
    have hu : (2 : ℚ) ^ ((62 : ℤ) - 52) = 1024 := by norm_num
    rw [hu] at hval
    have hy : q / 1024 + 1 / 2 < 9007199254740992 := by
      rw [div_add' _ _ _ (by norm_num : (1024 : ℚ) ≠ 0), div_lt_iff₀ (by norm_num)]
      linarith
    have hr := (roundHalfEven_error (q / 1024)).2
    have hlt : (roundHalfEven (q / 1024) : ℚ) < ((9007199254740992 : Int) : ℚ) := by
      push_cast; linarith
    have hle : roundHalfEven (q / 1024) ≤ 9007199254740991 := by
      have := Int.cast_lt.mp hlt
      omega
    have hleq : (roundHalfEven (q / 1024) : ℚ) ≤ 9007199254740991 := by exact_mod_cast hle
    rw [hval]
    linarith
  · have : (2 : ℚ) ^ (e + 1) ≤ (2 : ℚ) ^ (62 : ℤ) := zpow_le_zpow_right₀ (by norm_num) (by omega)
    have h62v : (2 : ℚ) ^ (62 : ℤ) = 4611686018427387904 := by norm_num
    rw [h62v] at this
    linarith

/-- The `float64` quotient and its ceiling for a width below `2^63 - 512`:
the number of jobs `requiredWorkers` computes is at least 1 and inside the
`int` range. -/
theorem jobs_float64_range (S mb : Int) (hS1 : 1 ≤ S) (hS2 : S < 9223372036854775296)
    (hmb : 1 ≤ mb) :
    1 ≤ ⌈roundFloat64 (roundFloat64 (S : ℚ) / roundFloat64 (mb : ℚ))⌉ ∧
    ⌈roundFloat64 (roundFloat64 (S : ℚ) / roundFloat64 (mb : ℚ))⌉ ≤ 9223372036854774784 := by
  have hSq : (1 : ℚ) ≤ (S : ℚ) := by exact_mod_cast hS1
  have hS2q : (S : ℚ) < 9223372036854775296 := by exact_mod_cast hS2
  have a1 := roundFloat64_ge_one (S : ℚ) hSq
  have a2 := roundFloat64_below (S : ℚ) (by linarith) hS2q
  have hm1 := roundFloat64_ge_one (mb : ℚ) (by exact_mod_cast hmb)
  generalize roundFloat64 (S : ℚ) = a at a1 a2
  generalize roundFloat64 (mb : ℚ) = m at hm1
  have hm0 : 0 < m := by linarith
  have hq0 : 0 < a / m := div_pos (by linarith) hm0
  have hq1 : a / m ≤ 9223372036854774784 := by
    rw [div_le_iff₀ hm0]
    nlinarith
  obtain ⟨_, _, r3, _⟩ := roundFloat64_pos (a / m) hq0
  have r5 := roundFloat64_below (a / m) hq0 (by linarith)
  have hpos : 0 < roundFloat64 (a / m) := lt_of_lt_of_le (zpow_pos (by norm_num) _) r3
  constructor
  · have := Int.ceil_pos.mpr hpos
    omega
  · apply Int.ceil_le.mpr
    push_cast
    exact r5

/-- A power of two, positive or negative, is a `float64`. -/
theorem roundFloat64_zpow (k : Int) :
    roundFloat64 ((2 : ℚ) ^ k) = (2 : ℚ) ^ k ∧ roundFloat64 (-(2 : ℚ) ^ k) = -(2 : ℚ) ^ k := by
  have hpos : (0 : ℚ) < (2 : ℚ) ^ k := zpow_pos (by norm_num) _
  have hlog : Int.log 2 ((2 : ℚ) ^ k) = k := Int.log_zpow (by norm_num) k
  have hu : (0 : ℚ) < (2 : ℚ) ^ (k - 52) := zpow_pos (by norm_num) _
  have hdiv : (2 : ℚ) ^ k / (2 : ℚ) ^ (k - 52) = ((4503599627370496 : Int) : ℚ) := by
    rw [div_eq_iff (ne_of_gt hu)]
    have h52 : ((4503599627370496 : Int) : ℚ) = (2 : ℚ) ^ (52 : ℤ) := by norm_num
    rw [h52, ← zpow_add₀ (by norm_num : (2 : ℚ) ≠ 0)]
    congr 1
    omega
  have hint : ∀ n : Int, roundHalfEven (n : ℚ) = n := by
    intro n
    obtain ⟨s1, s2⟩ := roundHalfEven_sandwich (n : ℚ) n
    exact le_antisymm (s2 (le_refl _)) (s1 (le_refl _))
  constructor
  · unfold roundFloat64
    rw [if_neg (ne_of_gt hpos), abs_of_pos hpos, hlog, hdiv, hint, ← hdiv]
    field_simp
  · have hneg : -(2 : ℚ) ^ k ≠ 0 := by linarith
    have hdivn : -(2 : ℚ) ^ k / (2 : ℚ) ^ (k - 52) = ((-4503599627370496 : Int) : ℚ) := by
      rw [neg_div, hdiv]; push_cast; ring
    unfold roundFloat64
    rw [if_neg hneg, abs_neg, abs_of_pos hpos, hlog, hdivn, hint, ← hdivn]
    field_simp

/-- C28 (pool size is valid). For block numbers `from ≤ to` whose width
`to - from + 1` is below `2^63 - 512` (it rounds to a `float64` below `2^63`),
`maxBlocks ≥ 1` and `maxWorkers ≥ 1`, the function `requiredWorkers`, computed
in `float64`, returns a number `r` with `1 ≤ r ≤ maxWorkers`, and `NewPool`
called with it creates a pool of `r` workers whose error channel has capacity
`r`. -/
theorem pool_size_valid (fromBlock toBlock maxBlocks maxWorkers : Int)
    (hft : fromBlock ≤ toBlock) (hwidth : toBlock - fromBlock + 1 < 9223372036854775296)
    (hmb : 1 ≤ maxBlocks) (hmw : 1 ≤ maxWorkers) :
    ∃ (r : Int) (p : Pool), requiredWorkers fromBlock toBlock maxBlocks maxWorkers = some r ∧
      1 ≤ r ∧ r ≤ maxWorkers ∧ NewPool r = some p ∧
      (p.workers.length : Int) = r ∧ (p.errCap : Int) = r ∧ 1 ≤ p.errCap := by
  have hw : wrapInt64 (wrapInt64 (wrapInt64 toBlock - wrapInt64 fromBlock) + 1) =
      toBlock - fromBlock + 1 := by
    unfold wrapInt64; omega
  obtain ⟨j1, j2⟩ := jobs_float64_range (toBlock - fromBlock + 1) maxBlocks (by omega) hwidth hmb
  have hreq : requiredWorkers fromBlock toBlock maxBlocks maxWorkers =
      some (if ⌈roundFloat64 (roundFloat64 ((toBlock - fromBlock + 1 : Int) : ℚ) /
          roundFloat64 (maxBlocks : ℚ))⌉ < maxWorkers then
        ⌈roundFloat64 (roundFloat64 ((toBlock - fromBlock + 1 : Int) : ℚ) /
          roundFloat64 (maxBlocks : ℚ))⌉ else maxWorkers) := by
    unfold requiredWorkers
    rw [if_neg (by omega)]
    simp only [hw]
    rw [if_pos ⟨by omega, by omega⟩]
  generalize ⌈roundFloat64 (roundFloat64 ((toBlock - fromBlock + 1 : Int) : ℚ) /
    roundFloat64 (maxBlocks : ℚ))⌉ = jobs at j1 j2 hreq
  have hr : ∀ r : Int, 1 ≤ r → ∃ p : Pool, NewPool r = some p ∧
      (p.workers.length : Int) = r ∧ (p.errCap : Int) = r ∧ 1 ≤ p.errCap := by
    intro r hr1
    refine ⟨_, by unfold NewPool; rw [if_neg (by omega)], ?_, ?_, ?_⟩
    · simp only [List.length_replicate]; omega
    · simp only; omega
    · simp only; omega
  by_cases hj : jobs < maxWorkers
  · rw [if_pos hj] at hreq
    obtain ⟨p, hp⟩ := hr jobs j1
    exact ⟨jobs, p, hreq, j1, by omega, hp⟩
  · rw [if_neg hj] at hreq
    obtain ⟨p, hp⟩ := hr maxWorkers hmw
    exact ⟨maxWorkers, p, hreq, hmw, le_refl _, hp⟩

/-- Witness of C28: for the span from 1 to 250 with `maxBlocks = 100` and
`maxWorkers = 5` the pool has between 1 and 5 workers. -/
theorem pool_size_valid_witness :
    ∃ (r : Int) (p : Pool), requiredWorkers 1 250 100 5 = some r ∧
      1 ≤ r ∧ r ≤ 5 ∧ NewPool r = some p ∧
      (p.workers.length : Int) = r ∧ (p.errCap : Int) = r ∧ 1 ≤ p.errCap :=
  pool_size_valid 1 250 100 5 (by decide) (by decide) (by decide) (by decide)

/-- Counterexample to C28 as stated: for `from = 0` and `to = 2^63 - 1` the
`int64` width `to - from + 1` wraps to `-2^63`, and with `maxBlocks = 1` and
`maxWorkers = 1` the function returns `-2^63`, with which `NewPool` cannot
make its error channel. -/
theorem pool_size_valid_counterexample :
    (0 : Int) ≤ 9223372036854775807 ∧
    requiredWorkers 0 9223372036854775807 1 1 = some (-9223372036854775808) ∧
    NewPool (-9223372036854775808) = none := by
  refine ⟨by decide, ?_, by decide⟩
  have hw : wrapInt64 (wrapInt64 (wrapInt64 9223372036854775807 - wrapInt64 0) + 1) =
      -9223372036854775808 := by decide
  have h63 : ((-9223372036854775808 : Int) : ℚ) = -(2 : ℚ) ^ (63 : ℤ) := by norm_num
  have h1 : roundFloat64 ((1 : Int) : ℚ) = 1 := by
    have := roundFloat64_int 1 (by decide) (by decide)
    exact_mod_cast this
  have hj : ⌈roundFloat64 (roundFloat64 ((-9223372036854775808 : Int) : ℚ) /
      roundFloat64 ((1 : Int) : ℚ))⌉ = -9223372036854775808 := by
    rw [h1, h63, (roundFloat64_zpow 63).2, div_one, (roundFloat64_zpow 63).2, ← h63]
    exact Int.ceil_intCast _
  unfold requiredWorkers
  rw [if_neg (by decide)]
  simp only [hw, hj]
  decide

end Tradelogs

namespace Accounting

/-! ## `EtherscanTransactionFetcher.fetch` -/

/-- The transactions of the pages `1, ..., n`, in page order. -/
theorem pages_succ {σ : Type} (fn : FetchFn σ) (addr : String) (sb eb : Option Int) (world : σ)
    (n : Nat) :
    ((List.range (n + 1)).map (fun k => (pageOutcome fn addr sb eb world (k + 1)).1)).flatten =
      ((List.range n).map (fun k => (pageOutcome fn addr sb eb world (k + 1)).1)).flatten ++
        (pageOutcome fn addr sb eb world (n + 1)).1 := by
  rw [List.range_succ, List.map_append, List.flatten_append]
  simp

/-- The page loop entered at page `c + 1` after `c` pages without error, when
the pages up to `n` come without error and page `n + 1` comes with an error:
the loop requests the pages up to `n + 1` and returns there. -/
theorem fetchPages_spec {σ : Type} (noTx : Error → Bool) (fn : FetchFn σ) (addr : String)
    (sb eb : Option Int) (world : σ) (n : Nat) (e : Error)
    (hpages : ∀ k : Nat, 1 ≤ k → k ≤ n → (pageOutcome fn addr sb eb world k).2 = none)
    (hend : (pageOutcome fn addr sb eb world (n + 1)).2 = some e) :
    ∀ (d c fuel : Nat), c + d = n → d + 1 ≤ fuel →
      fetchPages noTx fn addr sb eb fuel ((c : Int) + 1)
        ((List.range c).map (fun k => (pageOutcome fn addr sb eb world (k + 1)).1)).flatten
        (worldAfterPages fn addr sb eb world c)
        ((List.range c).map (fun k => pageRequest addr sb eb (k + 1))) =
      { returned := true
        results := if noTx e then
            ((List.range n).map (fun k => (pageOutcome fn addr sb eb world (k + 1)).1)).flatten
          else []
        err := if noTx e then none else some e
        world := worldAfterPages fn addr sb eb world (n + 1)
        requests := (List.range (n + 1)).map (fun k => pageRequest addr sb eb (k + 1)) } := by
  intro d
  induction d with
  | zero =>
    intro c fuel hc hfuel
    obtain ⟨fuel, rfl⟩ : ∃ f, fuel = f + 1 := ⟨fuel - 1, by omega⟩
    have hcn : c = n := by omega
    subst hcn
    have hreq : (⟨addr, sb, eb, (c : Int) + 1, 500⟩ : PageRequest) =
        pageRequest addr sb eb (c + 1) := by
      simp [pageRequest]
    have hout : (fn (pageRequest addr sb eb (c + 1)) (worldAfterPages fn addr sb eb world c)).1 =
        pageOutcome fn addr sb eb world (c + 1) := rfl
    have hw : (fn (pageRequest addr sb eb (c + 1)) (worldAfterPages fn addr sb eb world c)).2 =
        worldAfterPages fn addr sb eb world (c + 1) := rfl
    have hreqs : (List.range (c + 1)).map (fun k => pageRequest addr sb eb (k + 1)) =
        (List.range c).map (fun k => pageRequest addr sb eb (k + 1)) ++
          [pageRequest addr sb eb (c + 1)] := by
      rw [List.range_succ, List.map_append]; rfl
    simp only [fetchPages, hreq, hout, hw, hend, IsEtherscanNotransactionFound, hreqs]
    by_cases hno : noTx e = true
    · simp [hno]
    · simp [hno]
  | succ d ih =>
    intro c fuel hc hfuel
    obtain ⟨fuel, rfl⟩ : ∃ f, fuel = f + 1 := ⟨fuel - 1, by omega⟩
    have hreq : (⟨addr, sb, eb, (c : Int) + 1, 500⟩ : PageRequest) =
        pageRequest addr sb eb (c + 1) := by
      simp [pageRequest]
    have hout : (fn (pageRequest addr sb eb (c + 1)) (worldAfterPages fn addr sb eb world c)).1 =
        pageOutcome fn addr sb eb world (c + 1) := rfl
    have hw : (fn (pageRequest addr sb eb (c + 1)) (worldAfterPages fn addr sb eb world c)).2 =
        worldAfterPages fn addr sb eb world (c + 1) := rfl
    have hok := hpages (c + 1) (by omega) (by omega)
    have hreqs : (List.range (c + 1)).map (fun k => pageRequest addr sb eb (k + 1)) =
        (List.range c).map (fun k => pageRequest addr sb eb (k + 1)) ++
          [pageRequest addr sb eb (c + 1)] := by
      rw [List.range_succ, List.map_append]; rfl
    have hnext := ih (c + 1) fuel (by omega) (by omega)
    rw [pages_succ, hreqs] at hnext
    simp only [fetchPages, hreq, hout, hw, hok, IsEtherscanNotransactionFound]
    have hcast : ((c : Int) + 1 + 1) = ((c + 1 : Nat) : Int) + 1 := by push_cast; ring
    rw [hcast]
    simpa using hnext

/-- The bounds that `fetch` passes on when it accepts them are `from` and
`to - 1`. -/
theorem fetch_accepted {σ : Type} (noTx : Error → Bool) (fn : FetchFn σ) (addr : String)
    (from_ to_ : Option Int) (world : σ) (fuel : Nat)
    (hfrom : ∀ f, from_ = some f → IsInt64 f = true)
    (hto : ∀ t, to_ = some t → IsInt64 (t - 1) = true) :
    EtherscanTransactionFetcher.fetch noTx fn addr from_ to_ world fuel =
      fetchPages noTx fn addr from_ (to_.map (fun t => t - 1)) fuel 1 [] world [] := by
  have hwrap : ∀ x : Int, IsInt64 x = true → Tradelogs.wrapInt64 x = x := by
    intro x hx
    simp only [IsInt64, decide_eq_true_eq] at hx
    unfold Tradelogs.wrapInt64
    omega
  unfold EtherscanTransactionFetcher.fetch
  cases from_ with
  | none =>
    cases to_ with
    | none => rfl
    | some t =>
      have h2 := hto t rfl
      simp only [h2, if_true, hwrap _ h2, Option.map_some']
  | some f =>
    have h1 := hfrom f rfl
    cases to_ with
    | none => simp only [h1, if_true, hwrap _ h1, Option.map_none']
    | some t =>
      have h2 := hto t rfl
      simp only [h1, h2, if_true, hwrap _ h1, hwrap _ h2, Option.map_some']

/-- C12 (pagination termination). When `fetch` accepts the bounds, the data
source returns the pages `1, ..., n` without error and answers the request
for page `n + 1` with the "no transactions found" error, `fetch` returns
(with `n + 1` iterations of fuel or more) the transactions of the pages
`1, ..., n` concatenated in page order and a `nil` error, after exactly
`n + 1` requests: the pages `1, 2, ..., n + 1`, each with page size 500, the
same address, `from` as start block and `to - 1` as end block. -/
theorem pagination_termination {σ : Type} (noTx : Error → Bool) (fn : FetchFn σ) (addr : String)
    (from_ to_ : Option Int) (world : σ) (n : Nat) (fuel : Nat)
    (hfrom : ∀ f, from_ = some f → IsInt64 f = true)
    (hto : ∀ t, to_ = some t → IsInt64 (t - 1) = true)
    (hpages : ∀ k : Nat, 1 ≤ k → k ≤ n →
      (pageOutcome fn addr from_ (to_.map (fun t => t - 1)) world k).2 = none)
    (hend : IsEtherscanNotransactionFound noTx
      (pageOutcome fn addr from_ (to_.map (fun t => t - 1)) world (n + 1)).2 = true)
    (hfuel : n + 1 ≤ fuel) :
    (EtherscanTransactionFetcher.fetch noTx fn addr from_ to_ world fuel).returned = true ∧
    (EtherscanTransactionFetcher.fetch noTx fn addr from_ to_ world fuel).results =
      ((List.range n).map (fun k =>
        (pageOutcome fn addr from_ (to_.map (fun t => t - 1)) world (k + 1)).1)).flatten ∧
    (EtherscanTransactionFetcher.fetch noTx fn addr from_ to_ world fuel).err = none ∧
    (EtherscanTransactionFetcher.fetch noTx fn addr from_ to_ world fuel).requests =
      (List.range (n + 1)).map (fun k : Nat =>
        (⟨addr, from_, to_.map (fun t => t - 1), (k : Int) + 1, 500⟩ : PageRequest)) := by
  rw [fetch_accepted noTx fn addr from_ to_ world fuel hfrom hto]
  cases he : (pageOutcome fn addr from_ (to_.map (fun t => t - 1)) world (n + 1)).2 with
  | none => rw [he] at hend; simp [IsEtherscanNotransactionFound] at hend
  | some e =>
    rw [he] at hend
    simp only [IsEtherscanNotransactionFound] at hend
    have h := fetchPages_spec noTx fn addr from_ (to_.map (fun t => t - 1)) world n e hpages he
      n 0 fuel (by omega) hfuel
    simp only [List.range_zero, List.map_nil, List.flatten_nil, worldAfterPages, Nat.cast_zero,
      Int.zero_add] at h
    rw [h]
    refine ⟨rfl, by simp [hend], by simp [hend], ?_⟩
    simp [pageRequest]

/-- Witness of C12: pages of 500, 500 and then "no transactions found" give
1000 transactions after 3 requests. -/
theorem pagination_termination_witness :
    (EtherscanTransactionFetcher.fetch exampleNoTx twoPageSource "0xabc" (some 1000) (some 1100)
      0 3).returned = true ∧
    (EtherscanTransactionFetcher.fetch exampleNoTx twoPageSource "0xabc" (some 1000) (some 1100)
      0 3).results.length = 1000 ∧
    (EtherscanTransactionFetcher.fetch exampleNoTx twoPageSource "0xabc" (some 1000) (some 1100)
      0 3).err = none ∧
    (EtherscanTransactionFetcher.fetch exampleNoTx twoPageSource "0xabc" (some 1000) (some 1100)
      0 3).requests.length = 3 := by
  obtain ⟨h1, h2, h3, h4⟩ := pagination_termination exampleNoTx twoPageSource "0xabc"
    (some 1000) (some 1100) 0 2 3
    (by intro f hf; cases hf; decide) (by intro t ht; cases ht; decide)
    (by
      intro k hk1 hk2
      have hk : k = 1 ∨ k = 2 := by omega
      rcases hk with rfl | rfl <;> decide)
    (by decide) (by decide)
  have p1 : (pageOutcome twoPageSource "0xabc" (some 1000)
      ((some 1100 : Option Int).map (fun t => t - 1)) 0 1).1 = List.replicate 500 1 := rfl
  have p2 : (pageOutcome twoPageSource "0xabc" (some 1000)
      ((some 1100 : Option Int).map (fun t => t - 1)) 0 2).1 = List.replicate 500 2 := rfl
  have r2 : List.range 2 = [0, 1] := rfl
  refine ⟨h1, ?_, h3, ?_⟩
  · rw [h2, r2]
    simp only [List.map, List.flatten, List.append_nil, Nat.zero_add, Nat.reduceAdd]
    rw [p1, p2, List.length_append, List.length_replicate, List.length_replicate]
  · rw [h4, List.length_map, List.length_range]

/-- C13 (pagination error propagation). When `fetch` accepts the bounds, the
data source returns the pages `1, ..., n` without error and answers the
request for page `n + 1` with an error that is not "no transactions found",
`fetch` returns exactly that error and no transactions (`nil`), and the
request for page `n + 1` is its last one. -/
theorem pagination_error {σ : Type} (noTx : Error → Bool) (fn : FetchFn σ) (addr : String)
    (from_ to_ : Option Int) (world : σ) (n : Nat) (fuel : Nat) (e : Error)
    (hfrom : ∀ f, from_ = some f → IsInt64 f = true)
    (hto : ∀ t, to_ = some t → IsInt64 (t - 1) = true)
    (hpages : ∀ k : Nat, 1 ≤ k → k ≤ n →
      (pageOutcome fn addr from_ (to_.map (fun t => t - 1)) world k).2 = none)
    (herr : (pageOutcome fn addr from_ (to_.map (fun t => t - 1)) world (n + 1)).2 = some e)
    (hother : IsEtherscanNotransactionFound noTx (some e) = false)
    (hfuel : n + 1 ≤ fuel) :
    (EtherscanTransactionFetcher.fetch noTx fn addr from_ to_ world fuel).returned = true ∧
    (EtherscanTransactionFetcher.fetch noTx fn addr from_ to_ world fuel).results = [] ∧
    (EtherscanTransactionFetcher.fetch noTx fn addr from_ to_ world fuel).err = some e ∧
    (EtherscanTransactionFetcher.fetch noTx fn addr from_ to_ world fuel).requests =
      (List.range (n + 1)).map (fun k : Nat =>
        (⟨addr, from_, to_.map (fun t => t - 1), (k : Int) + 1, 500⟩ : PageRequest)) := by
  rw [fetch_accepted noTx fn addr from_ to_ world fuel hfrom hto]
  simp only [IsEtherscanNotransactionFound] at hother
  have h := fetchPages_spec noTx fn addr from_ (to_.map (fun t => t - 1)) world n e hpages herr
    n 0 fuel (by omega) hfuel
  simp only [List.range_zero, List.map_nil, List.flatten_nil, worldAfterPages, Nat.cast_zero,
    Int.zero_add] at h
  rw [h]
  refine ⟨rfl, by simp [hother], by simp [hother], ?_⟩
  simp [pageRequest]

/-- Witness of C13: a data source that fails on page 2 with "rate limit
reached"; the three transactions of page 1 are given up. -/
theorem pagination_error_witness :
    (EtherscanTransactionFetcher.fetch exampleNoTx brokenSource "0xabc" (some 1000) (some 1100)
      0 5).returned = true ∧
    (EtherscanTransactionFetcher.fetch exampleNoTx brokenSource "0xabc" (some 1000) (some 1100)
      0 5).results = [] ∧
    (EtherscanTransactionFetcher.fetch exampleNoTx brokenSource "0xabc" (some 1000) (some 1100)
      0 5).err = some "rate limit reached" ∧
    (EtherscanTransactionFetcher.fetch exampleNoTx brokenSource "0xabc" (some 1000) (some 1100)
      0 5).requests =
      (List.range (1 + 1)).map (fun k : Nat =>
        (⟨"0xabc", some 1000, (some 1100 : Option Int).map (fun t => t - 1), (k : Int) + 1, 500⟩ :
          PageRequest)) :=
  pagination_error exampleNoTx brokenSource "0xabc" (some 1000) (some 1100) 0 1 5
    "rate limit reached"
    (by intro f hf; cases hf; decide) (by intro t ht; cases ht; decide)
    (by
      intro k hk1 hk2
      have hk : k = 1 := by omega
      subst hk
      decide)
    (by decide) (by decide) (by decide)

/-- Every request of the page loop carries the address, the bounds and the
page size the loop was entered with. -/
theorem fetchPages_requests {σ : Type} (noTx : Error → Bool) (fn : FetchFn σ) (addr : String)
    (sb eb : Option Int) :
    ∀ (fuel : Nat) (page : Int) (results : List Tx) (world : σ) (requests : List PageRequest),
      (∀ r ∈ requests, r.address = addr ∧ r.startBlock = sb ∧ r.endBlock = eb ∧ r.offset = 500) →
      ∀ r ∈ (fetchPages noTx fn addr sb eb fuel page results world requests).requests,
        r.address = addr ∧ r.startBlock = sb ∧ r.endBlock = eb ∧ r.offset = 500 := by
  intro fuel
  induction fuel with
  | zero => intro page results world requests h r hr; exact h r hr
  | succ fuel ih =>
    intro page results world requests h r hr
    have hext : ∀ r ∈ requests ++ [(⟨addr, sb, eb, page, 500⟩ : PageRequest)],
        r.address = addr ∧ r.startBlock = sb ∧ r.endBlock = eb ∧ r.offset = 500 := by
      intro r hr
      rcases List.mem_append.mp hr with hr | hr
      · exact h r hr
      · simp only [List.mem_singleton] at hr
        subst hr
        exact ⟨rfl, rfl, rfl, rfl⟩
    simp only [fetchPages] at hr
    split_ifs at hr
    · exact hext r hr
    · split at hr
      · exact hext r hr
      · exact ih _ _ _ _ hext r hr

/-- A run of the page loop with fuel left has requested page 1 first. -/
theorem fetchPages_first {σ : Type} (noTx : Error → Bool) (fn : FetchFn σ) (addr : String)
    (sb eb : Option Int) :
    ∀ (fuel : Nat) (page : Int) (results : List Tx) (world : σ) (requests : List PageRequest)
      (r0 : PageRequest), requests.head? = some r0 →
      (fetchPages noTx fn addr sb eb fuel page results world requests).requests.head? = some r0 := by
  intro fuel
  induction fuel with
  | zero => intro page results world requests r0 h; exact h
  | succ fuel ih =>
    intro page results world requests r0 h
    have hext : (requests ++ [(⟨addr, sb, eb, page, 500⟩ : PageRequest)]).head? = some r0 := by
      rw [List.head?_append, h]; rfl
    simp only [fetchPages]
    split_ifs
    · exact hext
    · split
      · exact hext
      · exact ih _ _ _ _ _ hext

/-- C14 (inclusive/exclusive translation). Every request that `fetch` makes
carries the address it was called with, page size 500, `startBlock = from`
and `endBlock = to - 1` (the half-open `[from, to)` becomes the inclusive
`from .. to - 1`); a `nil` bound is passed on as `nil`. This holds for every
amount of fuel, so for every request made, whether or not the loop ends. -/
theorem bound_translation {σ : Type} (noTx : Error → Bool) (fn : FetchFn σ) (addr : String)
    (from_ to_ : Option Int) (world : σ) (fuel : Nat) :
    ∀ r ∈ (EtherscanTransactionFetcher.fetch noTx fn addr from_ to_ world fuel).requests,
      r.address = addr ∧ r.startBlock = from_ ∧ r.endBlock = to_.map (fun t => t - 1) ∧
        r.offset = 500 := by
  by_cases hfrom : ∀ f, from_ = some f → IsInt64 f = true
  · by_cases hto : ∀ t, to_ = some t → IsInt64 (t - 1) = true
    · rw [fetch_accepted noTx fn addr from_ to_ world fuel hfrom hto]
      exact fetchPages_requests noTx fn addr from_ _ fuel 1 [] world []
        (fun r hr => absurd hr (List.not_mem_nil r))
    · push_neg at hto
      obtain ⟨t, ht, hbad⟩ := hto
      subst ht
      intro r hr
      unfold EtherscanTransactionFetcher.fetch at hr
      cases from_ with
      | none => simp [hbad] at hr
      | some f => simp [hfrom f rfl, hbad] at hr
  · push_neg at hfrom
    obtain ⟨f, hf, hbad⟩ := hfrom
    subst hf
    intro r hr
    unfold EtherscanTransactionFetcher.fetch at hr
    simp [hbad] at hr

/-- Witness of C14: the range `[1000, 1100)` is queried as the blocks
`1000 .. 1099`, on each of the three pages requested. -/
theorem bound_translation_witness :
    (EtherscanTransactionFetcher.fetch exampleNoTx twoPageSource "0xabc" (some 1000) (some 1100)
      0 3).requests =
      [⟨"0xabc", some 1000, some 1099, 1, 500⟩, ⟨"0xabc", some 1000, some 1099, 2, 500⟩,
        ⟨"0xabc", some 1000, some 1099, 3, 500⟩] ∧
    ∀ r ∈ (EtherscanTransactionFetcher.fetch exampleNoTx twoPageSource "0xabc" (some 1000)
        (some 1100) 0 3).requests,
      r.address = "0xabc" ∧ r.startBlock = some 1000 ∧ r.endBlock = some 1099 ∧ r.offset = 500 :=
  ⟨by decide, bound_translation exampleNoTx twoPageSource "0xabc" (some 1000) (some 1100) 0 3⟩

/-- C15 (block bounds fail fast), as the code has it. The check of the upper
bound is made on `to - 1`, the value sent to the data source: `fetch` returns
an "unsupported block" error without any page request exactly when `from` is
not `nil` and does not fit in an `int64`, or `to` is not `nil` and `to - 1`
does not fit in an `int64`. The error names `from` in the first case and
`to - 1` otherwise. In every other case a run with fuel starts with the
request for page 1. -/
theorem block_bounds_check {σ : Type} (noTx : Error → Bool) (fn : FetchFn σ) (addr : String)
    (from_ to_ : Option Int) (world : σ) (fuel : Nat) :
    (((∃ f, from_ = some f ∧ IsInt64 f = false) ∨ (∃ t, to_ = some t ∧ IsInt64 (t - 1) = false)) ↔
      ((EtherscanTransactionFetcher.fetch noTx fn addr from_ to_ world fuel).returned = true ∧
        (EtherscanTransactionFetcher.fetch noTx fn addr from_ to_ world fuel).requests = [] ∧
        (EtherscanTransactionFetcher.fetch noTx fn addr from_ to_ world fuel).results = [] ∧
        ∃ n : Int, (EtherscanTransactionFetcher.fetch noTx fn addr from_ to_ world fuel).err =
          some (unsupportedBlock n) ∧
          (from_ = some n ∧ IsInt64 n = false ∨ to_ = some (n + 1) ∧ IsInt64 n = false))) ∧
    (¬ ((∃ f, from_ = some f ∧ IsInt64 f = false) ∨
        (∃ t, to_ = some t ∧ IsInt64 (t - 1) = false)) → 1 ≤ fuel →
      (EtherscanTransactionFetcher.fetch noTx fn addr from_ to_ world fuel).requests.head? =
        some ⟨addr, from_, to_.map (fun t => t - 1), 1, 500⟩) := by
  have hacc : ¬ ((∃ f, from_ = some f ∧ IsInt64 f = false) ∨
      (∃ t, to_ = some t ∧ IsInt64 (t - 1) = false)) → 1 ≤ fuel →
      (EtherscanTransactionFetcher.fetch noTx fn addr from_ to_ world fuel).requests.head? =
        some ⟨addr, from_, to_.map (fun t => t - 1), 1, 500⟩ := by
    intro hno hfuel
    push_neg at hno
    have hfrom : ∀ f, from_ = some f → IsInt64 f = true := by
      intro f hf
      have := hno.1 f hf
      simpa using this
    have hto : ∀ t, to_ = some t → IsInt64 (t - 1) = true := by
      intro t ht
      have := hno.2 t ht
      simpa using this
    rw [fetch_accepted noTx fn addr from_ to_ world fuel hfrom hto]
    obtain ⟨fuel, rfl⟩ : ∃ f, fuel = f + 1 := ⟨fuel - 1, by omega⟩
    simp only [fetchPages]
    split_ifs
    · rfl
    · split
      · rfl
      · exact fetchPages_first noTx fn addr from_ _ fuel _ _ _ _ _ rfl
  refine ⟨⟨?_, ?_⟩, hacc⟩
  · rintro (⟨f, hf, hbad⟩ | ⟨t, ht, hbad⟩)
    · subst hf
      unfold EtherscanTransactionFetcher.fetch
      simp only [hbad]
      exact ⟨rfl, rfl, rfl, f, rfl, Or.inl ⟨rfl, hbad⟩⟩
    · subst ht
      unfold EtherscanTransactionFetcher.fetch
      cases from_ with
      | none =>
        simp only [hbad]
        exact ⟨rfl, rfl, rfl, t - 1, rfl, Or.inr ⟨by simp, hbad⟩⟩
      | some f =>
        by_cases hf : IsInt64 f = true
        · simp only [hf, hbad, if_true]
          exact ⟨rfl, rfl, rfl, t - 1, rfl, Or.inr ⟨by simp, hbad⟩⟩
        · have hf' : IsInt64 f = false := by simpa using hf
          simp only [hf']
          exact ⟨rfl, rfl, rfl, f, rfl, Or.inl ⟨rfl, hf'⟩⟩
  · rintro ⟨hret, hreq, _, _⟩
    by_contra hno
    by_cases hfuel : 1 ≤ fuel
    · have := hacc hno hfuel
      rw [hreq] at this
      simp at this
    · have h0 : fuel = 0 := by omega
      subst h0
      push_neg at hno
      have hfrom : ∀ f, from_ = some f → IsInt64 f = true := by
        intro f hf
        have := hno.1 f hf
        simpa using this
      have hto : ∀ t, to_ = some t → IsInt64 (t - 1) = true := by
        intro t ht
        have := hno.2 t ht
        simpa using this
      rw [fetch_accepted noTx fn addr from_ to_ world 0 hfrom hto] at hret
      simp [fetchPages] at hret

/-- Counterexample to C15 as stated: `to = 2^63` does not fit in an `int64`,
yet `fetch` does not fail: it requests page 1 with `endBlock = 2^63 - 1` and
returns the result of the paging. -/
theorem block_bounds_check_counterexample :
    IsInt64 9223372036854775808 = false ∧
    (EtherscanTransactionFetcher.fetch exampleNoTx twoPageSource "0xabc" (some 0)
      (some 9223372036854775808) 0 3).err = none ∧
    (EtherscanTransactionFetcher.fetch exampleNoTx twoPageSource "0xabc" (some 0)
      (some 9223372036854775808) 0 3).requests.head? =
      some ⟨"0xabc", some 0, some 9223372036854775807, 1, 500⟩ :=
  ⟨by decide, by decide, by decide⟩

/-- The page loop after `c` pages without error, when the next `d` pages come
without error too: `d` iterations later the loop stands at page `c + d + 1`
with the records of the pages `1 .. c + d`. -/
theorem fetchPages_advance {σ : Type} (noTx : Error → Bool) (fn : FetchFn σ) (addr : String)
    (sb eb : Option Int) (world : σ) :
    ∀ (d c fuel : Nat),
      (∀ k : Nat, c < k → k ≤ c + d → (pageOutcome fn addr sb eb world k).2 = none) →
      fetchPages noTx fn addr sb eb (fuel + d) ((c : Int) + 1)
        ((List.range c).map (fun k => (pageOutcome fn addr sb eb world (k + 1)).1)).flatten
        (worldAfterPages fn addr sb eb world c)
        ((List.range c).map (fun k => pageRequest addr sb eb (k + 1))) =
      fetchPages noTx fn addr sb eb fuel (((c + d : Nat) : Int) + 1)
        ((List.range (c + d)).map (fun k => (pageOutcome fn addr sb eb world (k + 1)).1)).flatten
        (worldAfterPages fn addr sb eb world (c + d))
        ((List.range (c + d)).map (fun k => pageRequest addr sb eb (k + 1))) := by
  intro d
  induction d with
  | zero => intro c fuel _; rfl
  | succ d ih =>
    intro c fuel hpages
    have hreq : (⟨addr, sb, eb, (c : Int) + 1, 500⟩ : PageRequest) =
        pageRequest addr sb eb (c + 1) := by
      simp [pageRequest]
    have hout : (fn (pageRequest addr sb eb (c + 1)) (worldAfterPages fn addr sb eb world c)).1 =
        pageOutcome fn addr sb eb world (c + 1) := rfl
    have hw : (fn (pageRequest addr sb eb (c + 1)) (worldAfterPages fn addr sb eb world c)).2 =
        worldAfterPages fn addr sb eb world (c + 1) := rfl
    have hok := hpages (c + 1) (by omega) (by omega)
    have hreqs : (List.range (c + 1)).map (fun k => pageRequest addr sb eb (k + 1)) =
        (List.range c).map (fun k => pageRequest addr sb eb (k + 1)) ++
          [pageRequest addr sb eb (c + 1)] := by
      rw [List.range_succ, List.map_append]; rfl
    have hnext := ih (c + 1) fuel (fun k hk1 hk2 => hpages k (by omega) (by omega))
    rw [pages_succ, hreqs] at hnext
    have hfd : fuel + (d + 1) = (fuel + d) + 1 := by omega
    have hcd : c + (d + 1) = c + 1 + d := by omega
    rw [hfd, hcd, ← hnext]
    simp only [fetchPages, hreq, hout, hw, hok, IsEtherscanNotransactionFound]
    have hcast : ((c : Int) + 1 + 1) = ((c + 1 : Nat) : Int) + 1 := by push_cast; ring
    rw [hcast]
    simp

/-- The page loop only adds requests at the end of its log. -/
theorem fetchPages_log_grows {σ : Type} (noTx : Error → Bool) (fn : FetchFn σ) (addr : String)
    (sb eb : Option Int) :
    ∀ (fuel : Nat) (page : Int) (results : List Tx) (world : σ) (requests : List PageRequest),
      requests <+: (fetchPages noTx fn addr sb eb fuel page results world requests).requests := by
  intro fuel
  induction fuel with
  | zero => intro page results world requests; exact List.prefix_refl _
  | succ fuel ih =>
    intro page results world requests
    simp only [fetchPages]
    split_ifs
    · exact List.prefix_append _ _
    · split
      · exact List.prefix_append _ _
      · exact (List.prefix_append _ _).trans (ih _ _ _ _)

/-- An iteration of the page loop requests its page. -/
theorem fetchPages_log_next {σ : Type} (noTx : Error → Bool) (fn : FetchFn σ) (addr : String)
    (sb eb : Option Int) (fuel : Nat) (page : Int) (results : List Tx) (world : σ)
    (requests : List PageRequest) :
    requests ++ [⟨addr, sb, eb, page, 500⟩] <+:
      (fetchPages noTx fn addr sb eb (fuel + 1) page results world requests).requests := by
  simp only [fetchPages]
  split_ifs
  · exact List.prefix_refl _
  · split
    · exact List.prefix_refl _
    · exact fetchPages_log_grows noTx fn addr sb eb _ _ _ _ _

/-- C26 (pagination stops only on the sentinel or an error). For accepted
bounds: if the pages `1 .. k` all come without error, whatever number of
records they hold, then a run that is given at least `k + 1` iterations
requests the pages `1, 2, ..., k + 1` first, so page `k + 1` is requested.
Against a data source whose every page comes without error, the function has
not returned after any number `fuel` of iterations: by then it has made
exactly `fuel` requests, for the pages `1 .. fuel`, and holds the records of
all of them. -/
theorem pagination_unbounded {σ : Type} (noTx : Error → Bool) (fn : FetchFn σ) (addr : String)
    (from_ to_ : Option Int) (world : σ)
    (hfrom : ∀ f, from_ = some f → IsInt64 f = true)
    (hto : ∀ t, to_ = some t → IsInt64 (t - 1) = true) :
    (∀ (k fuel : Nat),
      (∀ m : Nat, 1 ≤ m → m ≤ k →
        (pageOutcome fn addr from_ (to_.map (fun t => t - 1)) world m).2 = none) →
      k + 1 ≤ fuel →
      (List.range (k + 1)).map
          (fun i : Nat => (⟨addr, from_, to_.map (fun t => t - 1), (i : Int) + 1, 500⟩ : PageRequest)) <+:
        (EtherscanTransactionFetcher.fetch noTx fn addr from_ to_ world fuel).requests) ∧
    ((∀ m : Nat, 1 ≤ m →
        (pageOutcome fn addr from_ (to_.map (fun t => t - 1)) world m).2 = none) →
      ∀ fuel : Nat,
        (EtherscanTransactionFetcher.fetch noTx fn addr from_ to_ world fuel).returned = false ∧
        (EtherscanTransactionFetcher.fetch noTx fn addr from_ to_ world fuel).requests =
          (List.range fuel).map
            (fun i : Nat => (⟨addr, from_, to_.map (fun t => t - 1), (i : Int) + 1, 500⟩ : PageRequest)) ∧
        (EtherscanTransactionFetcher.fetch noTx fn addr from_ to_ world fuel).requests.length = fuel ∧
        (EtherscanTransactionFetcher.fetch noTx fn addr from_ to_ world fuel).results =
          ((List.range fuel).map (fun i =>
            (pageOutcome fn addr from_ (to_.map (fun t => t - 1)) world (i + 1)).1)).flatten) := by
  have hreqs : ∀ n : Nat, (List.range n).map
      (fun i : Nat => (⟨addr, from_, to_.map (fun t => t - 1), (i : Int) + 1, 500⟩ : PageRequest)) =
      (List.range n).map (fun i => pageRequest addr from_ (to_.map (fun t => t - 1)) (i + 1)) := by
    intro n
    apply List.map_congr_left
    intro i _
    simp [pageRequest]
  constructor
  · intro k fuel hpages hfuel
    obtain ⟨f, rfl⟩ : ∃ f, fuel = f + 1 + k := ⟨fuel - (k + 1), by omega⟩
    rw [fetch_accepted noTx fn addr from_ to_ world _ hfrom hto]
    have h := fetchPages_advance noTx fn addr from_ (to_.map (fun t => t - 1)) world k 0 (f + 1)
      (fun m hm1 hm2 => hpages m (by omega) (by omega))
    simp only [List.range_zero, List.map_nil, List.flatten_nil, Nat.cast_zero, Int.zero_add,
      Nat.zero_add, worldAfterPages] at h
    rw [h, hreqs, List.range_succ, List.map_append]
    have hnext := fetchPages_log_next noTx fn addr from_ (to_.map (fun t => t - 1)) f ((k : Int) + 1)
      ((List.range k).map (fun i =>
        (pageOutcome fn addr from_ (to_.map (fun t => t - 1)) world (i + 1)).1)).flatten
      (worldAfterPages fn addr from_ (to_.map (fun t => t - 1)) world k)
      ((List.range k).map (fun i => pageRequest addr from_ (to_.map (fun t => t - 1)) (i + 1)))
    have hreq : (⟨addr, from_, to_.map (fun t => t - 1), (k : Int) + 1, 500⟩ : PageRequest) =
        pageRequest addr from_ (to_.map (fun t => t - 1)) (k + 1) := by
      simp [pageRequest]
    rw [hreq] at hnext
    exact hnext
  · intro hall fuel
    rw [fetch_accepted noTx fn addr from_ to_ world _ hfrom hto]
    have h := fetchPages_advance noTx fn addr from_ (to_.map (fun t => t - 1)) world fuel 0 0
      (fun m hm1 _ => hall m (by omega))
    simp only [List.range_zero, List.map_nil, List.flatten_nil, Nat.cast_zero, Int.zero_add,
      Nat.zero_add, worldAfterPages] at h
    rw [h, hreqs]
    simp only [fetchPages, List.length_map, List.length_range, and_self]

/-- Witness of C26: against a data source whose pages are all empty and
without error, the request for page 4 follows three empty pages, and after 5
iterations the function has made 5 requests and has not returned. -/
theorem pagination_unbounded_witness :
    ((List.range 4).map
        (fun i : Nat => (⟨"0xabc", some 1000, some 1099, (i : Int) + 1, 500⟩ : PageRequest)) <+:
      (EtherscanTransactionFetcher.fetch exampleNoTx emptySource "0xabc" (some 1000) (some 1100)
        0 5).requests) ∧
    (EtherscanTransactionFetcher.fetch exampleNoTx emptySource "0xabc" (some 1000) (some 1100)
      0 5).returned = false ∧
    (EtherscanTransactionFetcher.fetch exampleNoTx emptySource "0xabc" (some 1000) (some 1100)
      0 5).requests.length = 5 := by
  have hacc1 : ∀ f, (some 1000 : Option Int) = some f → IsInt64 f = true := by
    intro f hf; cases hf; decide
  have hacc2 : ∀ t, (some 1100 : Option Int) = some t → IsInt64 (t - 1) = true := by
    intro t ht; cases ht; decide
  have h := pagination_unbounded exampleNoTx emptySource "0xabc" (some 1000) (some 1100) 0
    hacc1 hacc2
  have h1 := h.1 3 5 (fun m _ _ => rfl) (by decide)
  have h2 := h.2 (fun m _ => rfl) 5
  exact ⟨h1, h2.1, h2.2.2.1⟩

end Accounting

namespace Gateway

/-! ## `NonceValidator` -/

/-- A parsed nonce is a `uint64`. -/
theorem ParseUint_lt (s : String) (n : Nat) (h : ParseUint s = Except.ok n) :
    n < 18446744073709551616 := by
  unfold ParseUint at h
  cases hs : s.data with
  | nil => rw [hs] at h; cases h
  | cons c cs =>
    rw [hs] at h
    simp only at h
    cases hd : parseDigits (c :: cs) 0 with
    | none => rw [hd] at h; cases h
    | some m =>
      rw [hd] at h
      simp only at h
      split_ifs at h with hlt
      cases h
      exact hlt

/-- What `Validate` returns when neither `serverTime - TimeGap` nor
`serverTime + TimeGap` wraps around: `nil` exactly for a header that parses
to a nonce within `TimeGap` of the server time, bounds included,
`ErrNonceNotInRange` for a nonce farther away, the parse error otherwise. -/
theorem Validate_no_wrap (v : NonceValidator) (serverTime : Nat) (nonceHeader : String)
    (hlow : v.TimeGap ≤ serverTime) (hhigh : serverTime + v.TimeGap < 18446744073709551616) :
    (v.Validate serverTime nonceHeader = none ↔
      ∃ n : Nat, ParseUint nonceHeader = Except.ok n ∧
        serverTime ≤ n + v.TimeGap ∧ n ≤ serverTime + v.TimeGap) ∧
    (∀ n : Nat, ParseUint nonceHeader = Except.ok n →
      ¬ (serverTime ≤ n + v.TimeGap ∧ n ≤ serverTime + v.TimeGap) →
      v.Validate serverTime nonceHeader = some ErrNonceNotInRange) ∧
    (∀ e : Error, ParseUint nonceHeader = Except.error e →
      v.Validate serverTime nonceHeader = some e) := by
  have hsub : subUint64 serverTime v.TimeGap = serverTime - v.TimeGap := by
    unfold subUint64; omega
  have hadd : addUint64 serverTime v.TimeGap = serverTime + v.TimeGap := by
    unfold addUint64; omega
  unfold NonceValidator.Validate
  rw [hsub, hadd]
  cases hp : ParseUint nonceHeader with
  | error e =>
    refine ⟨⟨fun h => ?_, fun ⟨n, hn, _⟩ => ?_⟩, fun n hn => ?_, ?_⟩
    · simp at h
    · cases hn
    · cases hn
    · intro e' he'
      cases he'
      rfl
  | ok n =>
    refine ⟨⟨?_, ?_⟩, ?_, fun e he => ?_⟩
    · intro h
      simp only at h
      split_ifs at h with hc
      exact ⟨n, rfl, by omega, by omega⟩
    · rintro ⟨m, hm, h1, h2⟩
      cases hm
      simp only
      rw [if_neg (by omega)]
    · intro m hm hout
      cases hm
      simp only
      rw [if_pos (by omega)]
    · cases he

/-- C20 (nonce window), the failing input: a validator whose `TimeGap` is the
largest `uint64` and the nonce `1700000000000` at the server time
`1700000000000`. The nonce parses and its distance from the server time is 0,
yet `serverTime - TimeGap` wraps around to `serverTime + 1` and `Validate`
returns `ErrNonceNotInRange`. The default validator has `TimeGap = 30000`. -/
theorem nonce_window_wraps :
    ParseUint "1700000000000" = Except.ok 1700000000000 ∧
    NonceValidator.Validate ⟨18446744073709551615⟩ 1700000000000 "1700000000000" =
      some ErrNonceNotInRange ∧
    subUint64 1700000000000 18446744073709551615 = 1700000000001 ∧
    addUint64 1700000000000 18446744073709551615 = 1699999999999 ∧
    NewNonceValidator.TimeGap = 30000 ∧
    NonceValidator.Validate NewNonceValidator 1700000000000 "1700000000000" = none := by
  refine ⟨rfl, by decide, by decide, by decide, rfl, by decide⟩

end Gateway

namespace Logschema

/-! ## The field names of the trade log schema -/

/-- The map `tradeLogSchemaFields` agrees with the line comments of the
constants: it has one key for each of the 28 constants, the text of its line
comment, and maps it to that constant. -/
theorem tradeLogSchemaFields_lineComments :
    lineComments.length = 28 ∧ tradeLogSchemaFields.length = 28 ∧
    (tradeLogSchemaFields.map Prod.fst).Nodup ∧
    (∀ c ∈ lineComments, lookupField c.2 = some c.1) ∧
    (∀ e ∈ tradeLogSchemaFields, (e.2, e.1) ∈ lineComments) := by
  decide

/-- C21 (field-name round trip). The constants of `schema.go` are the 28
values 0 (`Time`) to 27 (`ReceiverAddress`). For each of them `String()`
returns the name of its line comment, and the map `tradeLogSchemaFields` leads
from that name back to the constant. Conversely, for every key `s` of the map,
`tradeLogSchemaFields[s].String()` is `s`. A value that is no constant has a
name that is no key of the map. -/
theorem FieldName_roundtrip :
    lineComments.map Prod.fst = (List.range 28).map (fun k : Nat => (k : Int)) ∧
    (Time = 0 ∧ ReceiverAddress = 27) ∧
    (∀ c ∈ lineComments,
      FieldName.String c.1 = c.2 ∧ lookupField (FieldName.String c.1) = some c.1) ∧
    (∀ e ∈ tradeLogSchemaFields,
      lookupField e.1 = some e.2 ∧ (lookupField e.1).map FieldName.String = some e.1) ∧
    (FieldName.String 28 = "FieldName(28)" ∧ lookupField (FieldName.String 28) = none ∧
      FieldName.String (-1) = "FieldName(-1)" ∧ lookupField (FieldName.String (-1)) = none) := by
  decide

end Logschema

namespace Influx

/-! ## `Storage.SaveTradeLogs` and the `traded` set -/

/-- When `SaveTradeLogs` returns `nil`, the set `traded` is empty afterwards. -/
theorem SaveTradeLogs_resets_on_success {σ : Type} (is : Storage) (cl : Client σ) (db : σ)
    (logs : List TradelogV4) (h : (is.SaveTradeLogs cl db logs).err = none) :
    (is.SaveTradeLogs cl db logs).storage.traded = [] := by
  unfold Storage.SaveTradeLogs at h ⊢
  cases hb : cl.newBatchPoints with
  | some e => simp [hb] at h
  | none =>
    rcases hp : Storage.addPoints cl db logs is [] with ⟨⟨bp, perr⟩, is1⟩
    cases perr with
    | some e => simp [hb, hp] at h
    | none =>
      cases hw : (cl.write bp db).1 with
      | some e => simp [hb, hp, hw] at h
      | none => simp [hb, hp, hw]

/-- C22 (first-trade bookkeeping is per call). A call of `SaveTradeLogs` that
returns an error leaves the set `traded` as the call filled it: the reset is
the last statement of the success path only. With a new storage and an
unreachable database, saving the first trade of user 7 returns the error of
`Write` and leaves `traded = {7}`, with nothing written. The next call, with
the database back, saves the same trade without a `first_trades` point, while
a storage with an empty `traded` set writes one; the database then holds no
`first_trades` point of user 7. -/
theorem traded_survives_failed_save :
    NewInfluxStorage.traded = [] ∧
    (NewInfluxStorage.SaveTradeLogs dbClient ⟨[], true⟩ [firstTrade]).err =
      some "influxdb is unreachable" ∧
    (NewInfluxStorage.SaveTradeLogs dbClient ⟨[], true⟩ [firstTrade]).storage.traded = [7] ∧
    (NewInfluxStorage.SaveTradeLogs dbClient ⟨[], true⟩ [firstTrade]).db = ⟨[], true⟩ ∧
    ((NewInfluxStorage.SaveTradeLogs dbClient ⟨[], true⟩ [firstTrade]).storage.SaveTradeLogs
      dbClient ⟨[], false⟩ [firstTrade]).err = none ∧
    ((NewInfluxStorage.SaveTradeLogs dbClient ⟨[], true⟩ [firstTrade]).storage.SaveTradeLogs
      dbClient ⟨[], false⟩ [firstTrade]).written = some [Point.trades firstTrade] ∧
    ((NewInfluxStorage.SaveTradeLogs dbClient ⟨[], true⟩ [firstTrade]).storage.SaveTradeLogs
      dbClient ⟨[], false⟩ [firstTrade]).db = ⟨[Point.trades firstTrade], false⟩ ∧
    (NewInfluxStorage.SaveTradeLogs dbClient ⟨[], false⟩ [firstTrade]).written =
      some [Point.trades firstTrade, Point.first_trades 7] := by
  decide

end Influx

namespace Blockchain

/-! ## `TokenInfoGetter.getNameOrSymbol` -/

/-- The loop over resolvers that are all skipped, followed by further ones. -/
theorem resolveLoop_skip {σ : Type} :
    ∀ (pre rest : List (GetNameOrSymbolFunc σ)) (st : Resolution σ),
      allSkipped pre st.world = true → pre ≠ [] →
      ∃ (result : String) (err : Error), skipped (some err) = true ∧
        resolveLoop (pre ++ rest) st =
          resolveLoop rest ⟨result, some err, worldAfterResolvers pre st.world,
            st.calls + pre.length⟩ := by
  intro pre
  induction pre with
  | nil => intro rest st _ h; exact absurd rfl h
  | cons fn pre ih =>
    intro rest st hall _
    simp only [allSkipped, Bool.and_eq_true] at hall
    obtain ⟨h1, h2⟩ := hall
    cases he : (fn st.world).1.2 with
    | none => rw [he] at h1; simp [skipped] at h1
    | some e =>
      rw [he] at h1
      have hs : stringsContains e "abi: cannot marshal" = true := h1
      have hstep : resolveLoop (fn :: pre ++ rest) st =
          resolveLoop (pre ++ rest) ⟨(fn st.world).1.1, some e, (fn st.world).2, st.calls + 1⟩ := by
        rw [List.cons_append]
        simp only [resolveLoop, he, hs, if_true]
      rw [hstep]
      by_cases hp : pre = []
      · subst hp
        exact ⟨(fn st.world).1.1, e, h1, by simp [worldAfterResolvers]⟩
      · obtain ⟨r, e2, hk, hrun⟩ :=
          ih rest ⟨(fn st.world).1.1, some e, (fn st.world).2, st.calls + 1⟩ h2 hp
        refine ⟨r, e2, hk, ?_⟩
        rw [hrun]
        simp only [worldAfterResolvers, List.length_cons]
        congr 2
        omega

/-- The loop entered with resolvers to skip and then one that is not skipped:
that one decides the outcome. -/
theorem resolveLoop_first {σ : Type} (pre post : List (GetNameOrSymbolFunc σ))
    (fn : GetNameOrSymbolFunc σ) (st : Resolution σ)
    (hall : allSkipped pre st.world = true)
    (hstop : skipped (fn (worldAfterResolvers pre st.world)).1.2 = false) :
    resolveLoop (pre ++ fn :: post) st =
      ⟨(fn (worldAfterResolvers pre st.world)).1.1, (fn (worldAfterResolvers pre st.world)).1.2,
        (fn (worldAfterResolvers pre st.world)).2, st.calls + pre.length + 1⟩ := by
  have hlast : ∀ st2 : Resolution σ, skipped (fn st2.world).1.2 = false →
      resolveLoop (fn :: post) st2 =
        ⟨(fn st2.world).1.1, (fn st2.world).1.2, (fn st2.world).2, st2.calls + 1⟩ := by
    intro st2 h
    cases he : (fn st2.world).1.2 with
    | none => simp only [resolveLoop, he]
    | some e =>
      rw [he] at h
      have hs : stringsContains e "abi: cannot marshal" = false := h
      simp [resolveLoop, he, hs]
  by_cases hp : pre = []
  · subst hp
    exact hlast st hstop
  · obtain ⟨r, e, _, hrun⟩ := resolveLoop_skip pre (fn :: post) st hall hp
    rw [hrun]
    exact hlast _ hstop

/-- C24 (name/symbol fallback). The resolvers are called in order. When the
resolvers `pre` all fail with an error whose message contains
`abi: cannot marshal` and the next one, `fn`, succeeds or fails with another
error, `getNameOrSymbol` returns the result and the error of `fn` after
`pre.length + 1` calls, leaving the world as `fn` left it: the resolvers
`post` are not called. When all resolvers of a non-empty list `pre ++ [fn]`
fail with such an error, the function returns the result and the error of the
last one, `fn`, which is not `nil`, after calling each resolver once. -/
theorem name_symbol_fallback {σ : Type} (pre post : List (GetNameOrSymbolFunc σ))
    (fn : GetNameOrSymbolFunc σ) (world : σ) :
    (allSkipped pre world = true →
      skipped (fn (worldAfterResolvers pre world)).1.2 = false →
      getNameOrSymbol (pre ++ fn :: post) world =
        ⟨(fn (worldAfterResolvers pre world)).1.1, (fn (worldAfterResolvers pre world)).1.2,
          (fn (worldAfterResolvers pre world)).2, pre.length + 1⟩) ∧
    (allSkipped (pre ++ [fn]) world = true →
      getNameOrSymbol (pre ++ [fn]) world =
        ⟨(fn (worldAfterResolvers pre world)).1.1, (fn (worldAfterResolvers pre world)).1.2,
          (fn (worldAfterResolvers pre world)).2, (pre ++ [fn]).length⟩ ∧
      (getNameOrSymbol (pre ++ [fn]) world).err ≠ none ∧
      skipped (getNameOrSymbol (pre ++ [fn]) world).err = true) := by
  constructor
  · intro hall hstop
    have := resolveLoop_first pre post fn ⟨"", none, world, 0⟩ hall hstop
    simp only [Nat.zero_add] at this
    exact this
  · intro hall
    have hsplit : ∀ (l : List (GetNameOrSymbolFunc σ)) (w : σ), allSkipped (l ++ [fn]) w = true →
        allSkipped l w = true ∧ skipped (fn (worldAfterResolvers l w)).1.2 = true := by
      intro l
      induction l with
      | nil => intro w h; simpa [allSkipped, worldAfterResolvers] using h
      | cons g l ih =>
        intro w h
        simp only [List.cons_append, allSkipped, Bool.and_eq_true] at h
        obtain ⟨a, b⟩ := ih _ h.2
        exact ⟨by simp only [allSkipped, Bool.and_eq_true]; exact ⟨h.1, a⟩, b⟩
    obtain ⟨h1, h2⟩ := hsplit pre world hall
    have hrun : getNameOrSymbol (pre ++ [fn]) world =
        ⟨(fn (worldAfterResolvers pre world)).1.1, (fn (worldAfterResolvers pre world)).1.2,
          (fn (worldAfterResolvers pre world)).2, (pre ++ [fn]).length⟩ := by
      have hone : ∀ st2 : Resolution σ, skipped (fn st2.world).1.2 = true →
          resolveLoop [fn] st2 =
            ⟨(fn st2.world).1.1, (fn st2.world).1.2, (fn st2.world).2, st2.calls + 1⟩ := by
        intro st2 h
        cases he : (fn st2.world).1.2 with
        | none => rw [he] at h; simp [skipped] at h
        | some e =>
          rw [he] at h
          have hs : stringsContains e "abi: cannot marshal" = true := h
          simp [resolveLoop, he, hs]
      unfold getNameOrSymbol
      by_cases hp : pre = []
      · subst hp
        have := hone ⟨"", none, world, 0⟩ h2
        simpa [worldAfterResolvers] using this
      · obtain ⟨r, e, _, hskip⟩ := resolveLoop_skip pre [fn] ⟨"", none, world, 0⟩ h1 hp
        rw [hskip, hone _ h2]
        simp
    refine ⟨hrun, ?_, ?_⟩
    · rw [hrun]
      intro hnone
      simp only at hnone
      rw [hnone] at h2
      simp [skipped] at h2
    · rw [hrun]
      exact h2

/-- Witness of C24: the first resolver fails to unpack a `bytes32` symbol, the
second reads `MKR`, and a third one is not called; two resolvers that both fail
to unpack give the error of the second; a resolver that cannot reach the node
ends the run with its error, the next one is not called. -/
theorem name_symbol_fallback_witness :
    getNameOrSymbol [stringResolver, bytes32Resolver, offlineResolver] 0 =
      ⟨"MKR", none, 2, 2⟩ ∧
    (getNameOrSymbol [stringResolver, stringResolver] 0 =
      ⟨"", some "abi: cannot marshal in to go type: length insufficient 32 require 64", 2, 2⟩ ∧
      (getNameOrSymbol [stringResolver, stringResolver] 0).err ≠ none ∧
      skipped (getNameOrSymbol [stringResolver, stringResolver] 0).err = true) ∧
    getNameOrSymbol [offlineResolver, bytes32Resolver] 0 =
      ⟨"", some "dial tcp: connection refused", 1, 1⟩ :=
  ⟨(name_symbol_fallback [stringResolver] [offlineResolver] bytes32Resolver 0).1
      (by decide) (by decide),
   (name_symbol_fallback [stringResolver] [] stringResolver 0).2 (by decide),
   (name_symbol_fallback [] [bytes32Resolver] offlineResolver 0).1 (by decide) (by decide)⟩

end Blockchain

namespace Listedtokenstorage

/-! ## The assembly of listed tokens in `ListedTokenDB.GetTokens` -/

/-- The rows of a key after one more row. -/
theorem rowsOf_snoc (result : List ListedToken) (token : ListedToken) (key : String) :
    rowsOf (result ++ [token]) key =
      rowsOf result key ++ (if tokenKey token = key then [token] else []) := by
  unfold rowsOf
  rw [List.filter_append]
  by_cases h : tokenKey token = key <;> simp [List.filter, h]

/-- One more row keeps the description of the map. -/
theorem assembleToken_assembled (m : TokenMap) (result : List ListedToken) (token : ListedToken)
    (key : String) (h : Assembled m result key) :
    Assembled (assembleToken m token) (result ++ [token]) key := by
  unfold Assembled at h ⊢
  rw [rowsOf_snoc]
  by_cases hk : tokenKey token = key
  · subst hk
    rw [if_pos rfl]
    cases hm : m (tokenKey token) with
    | none =>
      rw [hm] at h
      simp only [] at h
      have hset : assembleToken m token (tokenKey token) =
          some ⟨token.Address, token.Name, token.Symbol, token.Timestamp, []⟩ := by
        simp [assembleToken, hm, TokenMap.set]
      rw [hset, h]
      simp only [List.nil_append, List.map_cons, List.map_nil, List.head?_cons]
      exact ⟨List.Perm.refl _, by simp, token, rfl, rfl, rfl⟩
    | some t =>
      rw [hm] at h
      simp only [] at h
      obtain ⟨hperm, hold, first, hfirst, hname⟩ := h
      have hhead : (rowsOf result (tokenKey token) ++ [token]).head? =
          (rowsOf result (tokenKey token)).head? := by
        cases hr : rowsOf result (tokenKey token) with
        | nil => rw [hr] at hfirst; simp at hfirst
        | cons a l => rfl
      by_cases hlt : token.Timestamp < t.Timestamp
      · have hset : assembleToken m token (tokenKey token) =
            some ⟨t.Address, t.Name, t.Symbol, t.Timestamp,
              t.Old ++ [⟨token.Address, token.Timestamp⟩]⟩ := by
          simp [assembleToken, hm, hlt, TokenMap.set]
        rw [hset]
        simp only [List.map_append, List.map_cons, List.map_nil]
        refine ⟨?_, ?_, first, by rw [hhead]; exact hfirst, hname⟩
        · have : listing ⟨t.Address, t.Name, t.Symbol, t.Timestamp,
              t.Old ++ [⟨token.Address, token.Timestamp⟩]⟩ = listing t := rfl
          rw [this, ← List.cons_append]
          exact List.Perm.append_right _ hperm
        · intro o ho
          rcases List.mem_append.mp ho with ho | ho
          · exact hold o ho
          · simp only [List.mem_singleton] at ho
            subst ho
            exact le_of_lt hlt
      · have hset : assembleToken m token (tokenKey token) =
            some ⟨token.Address, t.Name, t.Symbol, token.Timestamp,
              t.Old ++ [⟨t.Address, t.Timestamp⟩]⟩ := by
          simp [assembleToken, hm, hlt, TokenMap.set]
        rw [hset]
        simp only [List.map_append, List.map_cons, List.map_nil]
        refine ⟨?_, ?_, first, by rw [hhead]; exact hfirst, hname⟩
        · have h1 : listing ⟨token.Address, t.Name, t.Symbol, token.Timestamp,
              t.Old ++ [⟨t.Address, t.Timestamp⟩]⟩ = listing token := rfl
          rw [h1]
          have h2 : (t.Old ++ [listing t]).Perm (listing t :: t.Old) :=
            List.perm_append_singleton _ _
          have h3 : (listing token :: (t.Old ++ [listing t])).Perm
              (listing token :: (rowsOf result (tokenKey token)).map listing) :=
            List.Perm.cons _ (h2.trans hperm)
          exact h3.trans (List.perm_append_singleton _ _).symm
        · intro o ho
          rcases List.mem_append.mp ho with ho | ho
          · exact le_trans (hold o ho) (not_lt.mp hlt)
          · simp only [List.mem_singleton] at ho
            subst ho
            exact not_lt.mp hlt
  · rw [if_neg hk, List.append_nil]
    have hsame : assembleToken m token key = m key := by
      have hne : ¬ key = tokenKey token := fun h => hk h.symm
      unfold assembleToken
      cases m (tokenKey token) with
      | none => simp [TokenMap.set, hne]
      | some t =>
        simp only []
        split_ifs <;> simp [TokenMap.set, hne]
    rw [hsame]
    exact h

/-- The map of `GetTokens` is described by `Assembled` at every key. -/
theorem GetTokens_assembled (result : List ListedToken) (key : String) :
    Assembled (GetTokens result) result key := by
  induction result using List.reverseRecOn with
  | nil => simp [Assembled, GetTokens, rowsOf]
  | append_singleton result token ih =>
    have : GetTokens (result ++ [token]) = assembleToken (GetTokens result) token := by
      simp [GetTokens, List.foldl_append]
    rw [this]
    exact assembleToken_assembled _ _ _ _ ih

/-- C29 (listed-token grouping). For every list of rows and every key: the
map of `GetTokens` has an entry under the key exactly when some row has the
key `<symbol>-<name>`; the entry has the address and timestamp of one of
these rows, no row of the key has a larger timestamp, its `Old` list holds the
other rows of the key, each once (the token's own listing followed by `Old` is
a rearrangement of the listings of the rows of the key), so `len(Old)` is the
number of these rows minus one and no `Old` timestamp is above the token's. -/
theorem listed_token_grouping (result : List ListedToken) (key : String) :
    (GetTokens result key = none ↔ rowsOf result key = []) ∧
    ∀ t : ListedToken, GetTokens result key = some t →
      (listing t :: t.Old).Perm ((rowsOf result key).map listing) ∧
      (∃ row ∈ rowsOf result key, row.Address = t.Address ∧ row.Timestamp = t.Timestamp) ∧
      (∀ row ∈ rowsOf result key, row.Timestamp ≤ t.Timestamp) ∧
      t.Old.length + 1 = (rowsOf result key).length ∧
      (∀ o ∈ t.Old, o.Timestamp ≤ t.Timestamp) := by
  have h := GetTokens_assembled result key
  unfold Assembled at h
  constructor
  · cases hm : GetTokens result key with
    | none => rw [hm] at h; simpa using h
    | some t =>
      rw [hm] at h
      simp only [] at h
      obtain ⟨_, _, first, hfirst, _⟩ := h
      constructor
      · intro hc; cases hc
      · intro hnil; rw [hnil] at hfirst; simp at hfirst
  · intro t ht
    rw [ht] at h
    simp only [] at h
    obtain ⟨hperm, hold, _⟩ := h
    refine ⟨hperm, ?_, ?_, ?_, hold⟩
    · have hmem : listing t ∈ (rowsOf result key).map listing :=
        hperm.subset (List.mem_cons_self _ _)
      obtain ⟨row, hrow, hl⟩ := List.mem_map.mp hmem
      refine ⟨row, hrow, ?_, ?_⟩
      · exact congrArg OldListedToken.Address hl
      · exact congrArg OldListedToken.Timestamp hl
    · intro row hrow
      have hmem : listing row ∈ listing t :: t.Old :=
        hperm.symm.subset (List.mem_map.mpr ⟨row, hrow, rfl⟩)
      rcases List.mem_cons.mp hmem with hmem | hmem
      · have := congrArg OldListedToken.Timestamp hmem
        exact le_of_eq this
      · exact hold _ hmem
    · have := hperm.length_eq
      simp only [List.length_cons, List.length_map] at this
      exact this

/-- Witness of C29: in `exampleRows` the key `KNC-Kyber Network` has three
rows; the token carries the newest one (timestamp 300) and its `Old` list the
two others. -/
theorem listed_token_grouping_witness :
    GetTokens exampleRows "KNC-Kyber Network" =
      some ⟨"0xccc", "Kyber Network", "KNC", 300, [⟨"0xaaa", 200⟩, ⟨"0xddd", 100⟩]⟩ ∧
    ((⟨"0xccc", 300⟩ : OldListedToken) :: [⟨"0xaaa", 200⟩, ⟨"0xddd", 100⟩]).Perm
      ((rowsOf exampleRows "KNC-Kyber Network").map listing) ∧
    (∃ row ∈ rowsOf exampleRows "KNC-Kyber Network", row.Address = "0xccc" ∧ row.Timestamp = 300) ∧
    (∀ row ∈ rowsOf exampleRows "KNC-Kyber Network", row.Timestamp ≤ 300) ∧
    2 + 1 = (rowsOf exampleRows "KNC-Kyber Network").length ∧
    (∀ o ∈ [(⟨"0xaaa", 200⟩ : OldListedToken), ⟨"0xddd", 100⟩], o.Timestamp ≤ 300) :=
  ⟨by decide,
   (listed_token_grouping exampleRows "KNC-Kyber Network").2
     ⟨"0xccc", "Kyber Network", "KNC", 300, [⟨"0xaaa", 200⟩, ⟨"0xddd", 100⟩]⟩ (by decide)⟩

/-- The assembly at `exampleRows`: the token `KNC-Kyber Network` carries the
newest of its three rows and keeps the two others in `Old`, the token
`OMG-OmiseGO` has no old listing, and no other key is in the map. -/
theorem GetTokens_exampleRows :
    GetTokens exampleRows "KNC-Kyber Network" =
      some ⟨"0xccc", "Kyber Network", "KNC", 300, [⟨"0xaaa", 200⟩, ⟨"0xddd", 100⟩]⟩ ∧
    GetTokens exampleRows "OMG-OmiseGO" = some ⟨"0xbbb", "OmiseGO", "OMG", 50, []⟩ ∧
    GetTokens exampleRows "KNC-OmiseGO" = none := by
  decide

end Listedtokenstorage
